import Mathlib

/-!
# Mark-and-sweep collector simulator (`src/src/mark_and_sweep.c`)

A shallow embedding of the collector and a verification of its documented
properties.

Memory model.  The C heap is a list of cells: cell `a` is `some o` while the
object allocated at address `a` is alive and `none` once it has been passed to
`free`.  `calloc` always succeeds and hands out the next unused address, so an
address is never reused and "ever allocated" means "index below `heap.length`".
A pointer is `Option Nat`, `none` being `NULL`.  The global arrays are lists
and the global counters are naturals; every array access is bounds-checked and
every dereference is checked for a live cell, so a run that would have
undefined behaviour in C ends in `Fault.outOfBounds` or `Fault.badPointer`.
`exit(EXIT_FAILURE)` ends a run in `Fault.poolFull` or `Fault.rootOverflow`.
The lines written to the log file are recorded as a list of events that carry
the address of the object whose name is printed.
-/

namespace MarkSweep

/-! ## Constants -/

def MAX_OBJECTS : Nat := 128

def MAX_REFS_PER_OBJECT : Nat := 8

def MAX_ROOTS : Nat := 64

/-! ## Data model -/

/-- The type `object_struct_t *`: `none` is `NULL`, `some a` is the address of heap cell `a`. -/
abbrev Ptr := Option Nat

/-- The struct `object_struct_t`.  The field `refs` is the array
`refs[MAX_REFS_PER_OBJECT]`, of which the first `ref_count` entries are in use. -/
structure object_struct_t where
  marked : Nat
  name : String
  value : String
  refs : List Ptr
  ref_count : Nat
deriving DecidableEq

/-- One line written to the log file. -/
inductive Event where
  | ALLOC (a : Nat)
  | ADD_REF (a b : Nat)
  | REMOVE_REF (a b : Nat)
  | FREE (a : Nat)
  | PUSH_ROOT (p : Ptr)
  | POP_ROOT (n : Nat)
  | MARK (a : Nat)
  | MARK_PHASE_START
  | MARK_PHASE_END
  | SWEEP_PHASE_START
  | SWEEP_PHASE_END (n : Nat)
  | GC_COLLECTING
  | GC_DONE
deriving DecidableEq

/-- The ways a run can stop without returning: the two `exit(EXIT_FAILURE)` paths, the two kinds
of undefined behaviour the model detects, and exhaustion of the recursion budget of `markAux`. -/
inductive Fault where
  | poolFull
  | rootOverflow
  | badPointer
  | outOfBounds
  | outOfFuel
deriving DecidableEq

/-- The heap: cell `a` is `some o` while the object at address `a` is alive, `none` after `free`. -/
abbrev Heap := List (Option object_struct_t)

/-- The global variables of the program together with the heap. -/
structure State where
  heap : Heap
  objectPool : List Ptr
  object_count : Nat
  roots : List Ptr
  root_count : Nat
  log : List Event
deriving DecidableEq

/-- Reading through a pointer: the object stored at address `a`, if that cell is alive. -/
def deref (h : Heap) (a : Nat) : Option object_struct_t :=
  match h[a]? with
  | some (some o) => some o
  | _ => none

/-- The state at program start: nothing allocated, both global arrays zero-initialised. -/
def emptyCollector : State :=
  { heap := []
    objectPool := List.replicate MAX_OBJECTS none
    object_count := 0
    roots := List.replicate MAX_OBJECTS none
    root_count := 0
    log := [] }

/-- The loop `for (i = start; i < start + n; i++) body(i)` threading a state through a body
that may fault. -/
def forRange {σ : Type} (body : σ → Nat → Except Fault σ) : Nat → Nat → σ → Except Fault σ
  | _, 0, s => .ok s
  | i, n + 1, s =>
    match body s i with
    | .ok s1 => forRange body (i + 1) n s1
    | .error e => .error e

/-- The write `arr[i] = v`, undefined outside the array. -/
def writeAt (arr : List Ptr) (i : Nat) (v : Ptr) : Except Fault (List Ptr) :=
  if i < arr.length then .ok (arr.set i v) else .error .outOfBounds

/-! ## Object management -/

/-- The function `allocObject`: fails when the pool is full, otherwise creates a zeroed object,
stores it in `objectPool[object_count++]` and returns its address. -/
def allocObject (s : State) (name value : String) : Except Fault (Ptr × State) :=
  if s.object_count ≥ MAX_OBJECTS then .error .poolFull
  else
    let a := s.heap.length
    let object : object_struct_t :=
      { marked := 0, name := name, value := value,
        refs := List.replicate MAX_REFS_PER_OBJECT none, ref_count := 0 }
    match writeAt s.objectPool s.object_count (some a) with
    | .error e => .error e
    | .ok pool =>
      .ok (some a,
        { s with heap := s.heap ++ [some object]
                 objectPool := pool
                 object_count := s.object_count + 1
                 log := s.log ++ [.ALLOC a] })

/-- The function `addRef`: ignores `NULL` arguments, rejects a full `refs` array, otherwise
appends `to` at `refs[ref_count++]`.  The log line reads `to->name`. -/
def addRef (s : State) (src dst : Ptr) : Except Fault State :=
  match src, dst with
  | some f, some t =>
    match deref s.heap f with
    | none => .error .badPointer
    | some fo =>
      if fo.ref_count ≥ MAX_REFS_PER_OBJECT then .ok s
      else
        match writeAt fo.refs fo.ref_count (some t) with
        | .error e => .error e
        | .ok refs =>
          match deref s.heap t with
          | none => .error .badPointer
          | some _ =>
            .ok { s with heap := s.heap.set f (some { fo with refs := refs, ref_count := fo.ref_count + 1 })
                         log := s.log ++ [.ADD_REF f t] }
  | _, _ => .ok s

/-- First loop of `removeRef`: the least `i` in `[i, i + n)` with `refs[i] == to`, or `i + n`. -/
def findRef (refs : List Ptr) (dst : Ptr) : Nat → Nat → Except Fault Nat
  | i, 0 => .ok i
  | i, n + 1 =>
    match refs[i]? with
    | none => .error .outOfBounds
    | some q => if q = dst then .ok i else findRef refs dst (i + 1) n

/-- Second loop of `removeRef`: `refs[i] = refs[i + 1]` for `n` consecutive indices from `i`. -/
def shiftRefs (refs : List Ptr) (i n : Nat) : Except Fault (List Ptr) :=
  forRange (fun r j =>
    match r[j + 1]? with
    | none => .error .outOfBounds
    | some q => writeAt r j q) i n refs

/-- The function `removeRef`: removes the first occurrence of `to` from `refs[0..ref_count)`,
shifting the later entries down; nothing happens when `to` does not occur. -/
def removeRef (s : State) (src dst : Ptr) : Except Fault State :=
  match src, dst with
  | some f, some t =>
    match deref s.heap f with
    | none => .error .badPointer
    | some fo =>
      match findRef fo.refs (some t) 0 fo.ref_count with
      | .error e => .error e
      | .ok i =>
        if i = fo.ref_count then .ok s
        else
          match shiftRefs fo.refs i (fo.ref_count - (i + 1)) with
          | .error e => .error e
          | .ok refs1 =>
            match writeAt refs1 (fo.ref_count - 1) none with
            | .error e => .error e
            | .ok refs2 =>
              match deref s.heap t with
              | none => .error .badPointer
              | some _ =>
                .ok { s with heap := s.heap.set f (some { fo with refs := refs2, ref_count := fo.ref_count - 1 })
                             log := s.log ++ [.REMOVE_REF f t] }
  | _, _ => .ok s

/-- The function `freeObject`: logs the object, clears its `refs[0..ref_count)` and releases the
name, the value and the object itself.  After `free` the cell is gone, so the cleared fields
are not observable and the cell simply becomes `none`. -/
def freeObject (s : State) (p : Ptr) : Except Fault State :=
  match p with
  | none => .ok s
  | some a =>
    match deref s.heap a with
    | none => .error .badPointer
    | some object =>
      if object.ref_count ≤ object.refs.length then
        .ok { s with heap := s.heap.set a none, log := s.log ++ [.FREE a] }
      else .error .outOfBounds

/-! ## Root management -/

/-- The function `pushRoot`: exits when `root_count >= MAX_ROOTS`, otherwise stores the pointer
in `roots[root_count++]`.  The log line reads `object->name` when the pointer is not `NULL`. -/
def pushRoot (s : State) (p : Ptr) : Except Fault State :=
  if s.root_count ≥ MAX_ROOTS then .error .rootOverflow
  else
    match writeAt s.roots s.root_count p with
    | .error e => .error e
    | .ok roots =>
      let s1 := { s with roots := roots, root_count := s.root_count + 1, log := s.log ++ [.PUSH_ROOT p] }
      match p with
      | none => .ok s1
      | some a =>
        match deref s.heap a with
        | none => .error .badPointer
        | some _ => .ok s1

/-- The function `popRoot`: drops the top root, or does nothing on an empty root stack. -/
def popRoot (s : State) : State :=
  if s.root_count = 0 then s
  else { s with root_count := s.root_count - 1, log := s.log ++ [.POP_ROOT (s.root_count - 1)] }

/-! ## Mark and sweep -/

/-- The loop body `if (arr[i]) mark(arr[i]);`, with the callee `mark` as a parameter. -/
def markSlot (m : State → Ptr → Except Fault State) (arr : List Ptr) (t : State) (i : Nat) :
    Except Fault State :=
  match arr[i]? with
  | none => .error .outOfBounds
  | some none => .ok t
  | some (some b) => m t (some b)

/-- The loop `for (i = 0; i < n; i++) if (arr[i]) mark(arr[i]);` shared by `mark` (over
`object->refs`) and `markAllRoots` (over `roots`).  Marking writes nothing but mark bits, so
the array and its bound are read once, before the loop. -/
def markSlots (m : State → Ptr → Except Fault State) (arr : List Ptr) (n : Nat) (s : State) :
    Except Fault State :=
  forRange (markSlot m arr) 0 n s

/-- The recursive function `mark` with an explicit bound on the recursion depth: return on
`NULL` and on a marked object, otherwise set the mark bit, log it and mark every entry of
`refs[0..ref_count)`. -/
def markAux : Nat → State → Ptr → Except Fault State
  | 0, _, _ => .error .outOfFuel
  | _ + 1, s, none => .ok s
  | fuel + 1, s, some a =>
    match deref s.heap a with
    | none => .error .badPointer
    | some object =>
      if object.marked ≠ 0 then .ok s
      else
        markSlots (markAux fuel) object.refs object.ref_count
          { s with heap := s.heap.set a (some { object with marked := 1 })
                   log := s.log ++ [.MARK a] }

/-- The function `mark`.  The recursion depth never exceeds the number of unmarked objects,
so a budget of one more than the number of heap cells is never exhausted. -/
def mark (s : State) (p : Ptr) : Except Fault State :=
  markAux (s.heap.length + 1) s p

/-- The function `markAllRoots`: mark from every non-`NULL` entry of `roots[0..root_count)`. -/
def markAllRoots (s : State) : Except Fault State :=
  match markSlots mark s.roots s.root_count { s with log := s.log ++ [.MARK_PHASE_START] } with
  | .error e => .error e
  | .ok s1 => .ok { s1 with log := s1.log ++ [.MARK_PHASE_END] }

/-- One iteration of the first loop of `sweep`, on the pair of the state and the local
`distance`: skip an empty slot, clear the mark of a marked object and execute
`objectPool[distance++] = 0`, free an unmarked object. -/
def sweepStep (sd : State × Nat) (i : Nat) : Except Fault (State × Nat) :=
  match sd.1.objectPool[i]? with
  | none => .error .outOfBounds
  | some none => .ok sd
  | some (some a) =>
    match deref sd.1.heap a with
    | none => .error .badPointer
    | some object =>
      if object.marked ≠ 0 then
        match writeAt sd.1.objectPool sd.2 none with
        | .error e => .error e
        | .ok pool =>
          .ok ({ sd.1 with heap := sd.1.heap.set a (some { object with marked := 0 })
                           objectPool := pool }, sd.2 + 1)
      else
        match freeObject sd.1 (some a) with
        | .error e => .error e
        | .ok s1 => .ok (s1, sd.2)

/-- The loop `for (i = start; i < start + n; i++) objectPool[i] = NULL`. -/
def clearSlots (pool : List Ptr) (start n : Nat) : Except Fault (List Ptr) :=
  forRange (fun p i => writeAt p i none) start n pool

/-- The function `sweep`: visit `objectPool[0..object_count)`, then set `object_count` to
`distance` and clear `objectPool[distance..MAX_OBJECTS)`. -/
def sweep (s : State) : Except Fault State :=
  match forRange sweepStep 0 s.object_count ({ s with log := s.log ++ [.SWEEP_PHASE_START] }, 0) with
  | .error e => .error e
  | .ok (s1, distance) =>
    match clearSlots s1.objectPool distance (MAX_OBJECTS - distance) with
    | .error e => .error e
    | .ok pool =>
      .ok { s1 with object_count := distance
                    objectPool := pool
                    log := s1.log ++ [.SWEEP_PHASE_END distance] }

/-- The function `gcCollect`: the mark phase followed by the sweep phase. -/
def gcCollect (s : State) : Except Fault State :=
  match markAllRoots { s with log := s.log ++ [.GC_COLLECTING] } with
  | .error e => .error e
  | .ok s1 =>
    match sweep s1 with
    | .error e => .error e
    | .ok s2 => .ok { s2 with log := s2.log ++ [.GC_DONE] }

/-- One iteration of the loop of `cleanupAll`: free the object in slot `i`, if any, and clear
the slot. -/
def cleanupStep (s : State) (i : Nat) : Except Fault State :=
  match s.objectPool[i]? with
  | none => .error .outOfBounds
  | some none => .ok s
  | some (some a) =>
    match freeObject s (some a) with
    | .error e => .error e
    | .ok s1 =>
      match writeAt s1.objectPool i none with
      | .error e => .error e
      | .ok pool => .ok { s1 with objectPool := pool }

/-- The function `cleanupAll`: free whatever `objectPool[0..object_count)` still holds and
reset `object_count`. -/
def cleanupAll (s : State) : Except Fault State :=
  match forRange cleanupStep 0 s.object_count s with
  | .error e => .error e
  | .ok s1 => .ok { s1 with object_count := 0 }

/-! ## The two simulations run by `main` -/

/-- The function `simulateTinyProgram`. -/
def simulateTinyProgram (s : State) : Except Fault State := do
  let (a, s) ← allocObject s "a" "5"
  let s ← pushRoot s a
  let (a_new, s) ← allocObject s "a" "6"
  let s := popRoot s
  let s ← pushRoot s a_new
  let s := popRoot s
  gcCollect s

/-- The body of `simulateCycleEvent` up to, and without, its first `gcCollect`: the holder
is allocated and rooted, `x` and `y` are allocated, and the four edges are added.  Returns
the three addresses with the state. -/
def cycleSetup (s : State) : Except Fault ((Ptr × Ptr × Ptr) × State) := do
  let (root_holder, s) ← allocObject s "root_holder" "holder"
  let s ← pushRoot s root_holder
  let (x, s) ← allocObject s "x" "obj_x"
  let (y, s) ← allocObject s "y" "obj_y"
  let s ← addRef s x y
  let s ← addRef s y x
  let s ← addRef s root_holder x
  let s ← addRef s root_holder y
  pure ((root_holder, x, y), s)

/-- The function `simulateCycleEvent`. -/
def simulateCycleEvent (s : State) : Except Fault State := do
  let ((_, x, y), s) ← cycleSetup s
  let s ← gcCollect s
  let s := popRoot s
  let s ← gcCollect s
  let s ← removeRef s x y
  let s ← removeRef s y x
  gcCollect s

/-! ## Specification vocabulary -/

/-- The object at address `a` is alive and its mark bit tests true (`if (object->marked)`). -/
def Marked (h : Heap) (a : Nat) : Prop :=
  ∃ o, deref h a = some o ∧ o.marked ≠ 0

/-- The object at address `a` is alive and points to `b`: some entry of its
`refs[0..ref_count)` is the non-`NULL` pointer `b`. -/
def edge (h : Heap) (a b : Nat) : Prop :=
  ∃ o, deref h a = some o ∧ ∃ i, i < o.ref_count ∧ o.refs[i]? = some (some b)

/-- Address `r` is a non-`NULL` entry of `roots[0..root_count)`. -/
def IsRoot (s : State) (r : Nat) : Prop :=
  ∃ i, i < s.root_count ∧ s.roots[i]? = some (some r)

/-- Address `a` is reachable from some root through zero or more edges. -/
def Reachable (s : State) (a : Nat) : Prop :=
  ∃ r, IsRoot s r ∧ Relation.ReflTransGen (edge s.heap) r a

/-- Address `a` is stored in one of the slots `objectPool[0..object_count)`. -/
def InPool (s : State) (a : Nat) : Prop :=
  ∃ j, j < s.object_count ∧ s.objectPool[j]? = some (some a)

/-- Address `a` denotes a pool object: it is stored in `objectPool[0..object_count)` and its
cell is alive. -/
def poolObject (s : State) (a : Nat) : Bool :=
  decide (∃ j, j < s.object_count ∧ s.objectPool[j]? = some (some a)) && (deref s.heap a).isSome

/-- Entry `i` of the pointer array `arr` exists and is `NULL` or denotes a pool object. -/
def slotInPool (s : State) (arr : List Ptr) (i : Nat) : Bool :=
  match arr[i]? with
  | none => false
  | some none => true
  | some (some b) => poolObject s b

/-- A heap cell is freed or holds an object with a clear mark bit. -/
def cellClear : Option object_struct_t → Bool
  | none => true
  | some o => decide (o.marked = 0)

/-- A heap cell is freed or holds an object all of whose entries `refs[0..ref_count)` are
`NULL` or denote pool objects. -/
def cellEdgesInPool (s : State) : Option object_struct_t → Bool
  | none => true
  | some o => decide (∀ i, i < o.ref_count → slotInPool s o.refs i = true)

/-- All mark bits are clear. -/
def MarksClear (s : State) : Prop :=
  ∀ c ∈ s.heap, cellClear c = true

/-- Every edge denotes a pool object. -/
def EdgesInPool (s : State) : Prop :=
  ∀ c ∈ s.heap, cellEdgesInPool s c = true

/-- Every non-`NULL` root denotes a pool object. -/
def RootsInPool (s : State) : Prop :=
  ∀ i, i < s.root_count → slotInPool s s.roots i = true

/-- Slot `j` of `objectPool` exists and holds the address of a live object. -/
def slotLive (s : State) (j : Nat) : Bool :=
  match s.objectPool[j]? with
  | some (some a) => (deref s.heap a).isSome
  | _ => false

/-- A well-formed state: `objectPool` has its declared size; every slot of
`objectPool[0..object_count)` holds an object, each slot its own; all mark bits are clear;
every edge and every non-`NULL` root denotes a pool object. -/
structure WellFormed (s : State) : Prop where
  pool_size : s.objectPool.length = MAX_OBJECTS
  pool_live : ∀ j, j < s.object_count → slotLive s j = true
  pool_distinct : ∀ j, j < s.object_count → ∀ i, i < j → s.objectPool[i]? ≠ s.objectPool[j]?
  marks_clear : MarksClear s
  edges : EdgesInPool s
  roots : RootsInPool s

instance (s : State) : Decidable (MarksClear s) :=
  inferInstanceAs (Decidable (∀ c ∈ s.heap, cellClear c = true))

instance (s : State) : Decidable (EdgesInPool s) :=
  inferInstanceAs (Decidable (∀ c ∈ s.heap, cellEdgesInPool s c = true))

instance (s : State) : Decidable (RootsInPool s) :=
  inferInstanceAs (Decidable (∀ i, i < s.root_count → slotInPool s s.roots i = true))

/-- The state reached from the empty collector by the set-up part of `simulateCycleEvent`:
the holder (address 0) is rooted and points to `x` (1) and `y` (2), which point to each
other. -/
def cycleState : State :=
  match cycleSetup emptyCollector with
  | .ok (_, s) => s
  | .error _ => emptyCollector

/-- The graph `root -> A, A -> B, B -> A`: two objects `A` (address 0) and `B` (address 1)
pointing to each other, with `A` rooted. -/
def rootedCycleState : State :=
  match (do
    let (a, s) ← allocObject emptyCollector "A" "a"
    let (b, s) ← allocObject s "B" "b"
    let s ← pushRoot s a
    let s ← addRef s a b
    addRef s b a : Except Fault State) with
  | .ok s => s
  | .error _ => emptyCollector

/-- A state with survivors and garbage: a rooted holder (address 0) pointing to `x` (1), and
an unrooted object `g` (2) that also points to `x`. -/
def mixedState : State :=
  match (do
    let (h, s) ← allocObject emptyCollector "h" "holder"
    let (x, s) ← allocObject s "x" "obj_x"
    let (g, s) ← allocObject s "g" "garbage"
    let s ← pushRoot s h
    let s ← addRef s h x
    addRef s g x : Except Fault State) with
  | .ok s => s
  | .error _ => emptyCollector

/-- The calls of `simulateCycleEvent` up to its second `gcCollect`: set-up, a collection with
the holder rooted, `popRoot`, and a second collection. -/
def cycleTwoCollections (s : State) : Except Fault State := do
  let (_, s) ← cycleSetup s
  let s ← gcCollect s
  let s := popRoot s
  gcCollect s

/-- One rooted object that has been through one collection: `allocObject`, `pushRoot`,
`gcCollect`. -/
def rootedAfterCollect : Except Fault State := do
  let (a, s) ← allocObject emptyCollector "a" "5"
  let s ← pushRoot s a
  gcCollect s

/-- A holder that has dropped out of the pool and then receives an edge: `h = allocObject`,
`pushRoot(h)`, `gcCollect`, `popRoot`, `gcCollect`, `x = allocObject`, `addRef(h, x)`.  The
holder has address 0, `x` has address 1. -/
def leakedHolderRun : Except Fault State := do
  let (h, s) ← allocObject emptyCollector "h" "holder"
  let s ← pushRoot s h
  let s ← gcCollect s
  let s ← gcCollect (popRoot s)
  let (x, s) ← allocObject s "x" "obj_x"
  addRef s h x

/-- The calls made by `main`: both simulations, then `cleanupAll`. -/
def mainRun : Except Fault State := do
  let s ← simulateTinyProgram emptyCollector
  let s ← simulateCycleEvent s
  cleanupAll s

/-- The log line is a `FREE` line. -/
def isFreeEvent : Event → Bool
  | .FREE _ => true
  | _ => false

/-! ## Proof vocabulary for the mark phase -/

/-- A heap cell holds an object whose mark bit is clear. -/
def cellUnmarked : Option object_struct_t → Bool
  | none => false
  | some o => decide (o.marked = 0)

/-- The number of live objects whose mark bit is clear. -/
def unmarkedCount : Heap → Nat
  | [] => 0
  | c :: h => (if cellUnmarked c = true then 1 else 0) + unmarkedCount h

/-- Heap `h1` arises from `h` by setting mark bits to `1`: every cell is unchanged or is the
same object with `marked = 1`. -/
def MarkFrame (h h1 : Heap) : Prop :=
  h1.length = h.length ∧
    ∀ b, h1[b]? = h[b]? ∨ ∃ o, deref h b = some o ∧ h1[b]? = some (some { o with marked := 1 })

/-- Every entry of every live object's `refs[0..ref_count)` exists and is `NULL` or the address
of a live object. -/
def Closed (h : Heap) : Prop :=
  ∀ a o, deref h a = some o → ∀ i, i < o.ref_count →
    ∃ q, o.refs[i]? = some q ∧ ∀ b, q = some b → (deref h b).isSome = true

/-- What a marking run from the start set `R` achieves between states `s` and `s1`: only mark
bits (and the log) change, everything in `R` ends up marked, and every newly marked object is
reachable from `R` and has all its successors marked. -/
structure MarkPost (R : Nat → Prop) (s s1 : State) : Prop where
  pool : s1.objectPool = s.objectPool
  count : s1.object_count = s.object_count
  roots : s1.roots = s.roots
  root_count : s1.root_count = s.root_count
  frame : MarkFrame s.heap s1.heap
  budget : unmarkedCount s1.heap ≤ unmarkedCount s.heap
  targets : ∀ r, R r → Marked s1.heap r
  sound : ∀ b, Marked s1.heap b → Marked s.heap b ∨ ∃ r, R r ∧ Relation.ReflTransGen (edge s.heap) r b
  closed : ∀ b, Marked s1.heap b → Marked s.heap b ∨ ∀ c, edge s.heap b c → Marked s1.heap c


/-! ## Vocabulary for runs of the public operations -/

/-- Between `s` and `s1` nothing but mark bits (set to `1`) and the log has changed. -/
structure MarkOnly (s s1 : State) : Prop where
  pool : s1.objectPool = s.objectPool
  count : s1.object_count = s.object_count
  roots : s1.roots = s.roots
  root_count : s1.root_count = s.root_count
  frame : MarkFrame s.heap s1.heap

/-- Pointer `q` is `NULL` or the address of a live object whose mark bit is set. -/
def nullOrMarked (h : Heap) (q : Ptr) : Prop :=
  ∀ b, q = some b → Marked h b

/-- Every live object has a `refs` array of the declared size and a `ref_count` inside it. -/
def HeapShaped (h : Heap) : Prop :=
  ∀ a o, deref h a = some o →
    o.refs.length = MAX_REFS_PER_OBJECT ∧ o.ref_count ≤ MAX_REFS_PER_OBJECT

/-- The arrays of a state have their declared sizes and the counters stay inside the bounds
the program checks. -/
structure Shaped (s : State) : Prop where
  pool_size : s.objectPool.length = MAX_OBJECTS
  count_le : s.object_count ≤ MAX_OBJECTS
  roots_size : s.roots.length = MAX_OBJECTS
  root_count_le : s.root_count ≤ MAX_ROOTS
  heap : HeapShaped s.heap

/-- The states the program can be in between two calls: the start state and every state in
which a call of `allocObject`, `addRef`, `removeRef`, `pushRoot`, `popRoot`, `gcCollect` or
`cleanupAll`, with any arguments, has returned from such a state. -/
inductive ReachableState : State → Prop
  | start : ReachableState emptyCollector
  | alloc {s s1 : State} {n v : String} {p : Ptr} :
      ReachableState s → allocObject s n v = .ok (p, s1) → ReachableState s1
  | add {s s1 : State} {p q : Ptr} :
      ReachableState s → addRef s p q = .ok s1 → ReachableState s1
  | remove {s s1 : State} {p q : Ptr} :
      ReachableState s → removeRef s p q = .ok s1 → ReachableState s1
  | push {s s1 : State} {p : Ptr} :
      ReachableState s → pushRoot s p = .ok s1 → ReachableState s1
  | pop {s : State} : ReachableState s → ReachableState (popRoot s)
  | collect {s s1 : State} : ReachableState s → gcCollect s = .ok s1 → ReachableState s1
  | cleanup {s s1 : State} : ReachableState s → cleanupAll s = .ok s1 → ReachableState s1

/-- The state after one `allocObject` from the start state (the object has address 0). -/
def oneObjectState : State :=
  match allocObject emptyCollector "a" "5" with
  | .ok (_, s) => s
  | .error _ => emptyCollector

/-- The same call `addRef(from, to)` made `n` times in a row. -/
def addRefN : Nat → State → Ptr → Ptr → Except Fault State
  | 0, s, _, _ => .ok s
  | n + 1, s, p, q =>
    match addRef s p q with
    | .ok s1 => addRefN n s1 p q
    | .error e => .error e

/-- A holder (address 0) with the edges `holder -> x, holder -> y, holder -> x`, where `x`
has address 1 and `y` address 2. -/
def duplicateEdgeState : State :=
  match (do
    let (h, s) ← allocObject emptyCollector "h" "holder"
    let (x, s) ← allocObject s "x" "obj_x"
    let (y, s) ← allocObject s "y" "obj_y"
    let s ← addRef s h x
    let s ← addRef s h y
    addRef s h x : Except Fault State) with
  | .ok s => s
  | .error _ => emptyCollector

/-- The state `s` with another root array and root count. -/
def withRoots (s : State) (r : List Ptr) (n : Nat) : State :=
  { s with roots := r, root_count := n }

/-- Marking from a list of pointers in order, skipping `NULL`: what the loop of
`markAllRoots` does when the array is read as the list of its first `root_count` entries. -/
def markList (m : State → Ptr → Except Fault State) : List Ptr → State → Except Fault State
  | [], s => .ok s
  | none :: l, s => markList m l s
  | some b :: l, s =>
    match m s (some b) with
    | .ok t => markList m l t
    | .error e => .error e

/-- One object (address 0) and the root stack `NULL, object, NULL`. -/
def nullRootsState : State :=
  match (do
    let (a, s) ← allocObject emptyCollector "a" "5"
    let s ← pushRoot s none
    let s ← pushRoot s a
    pushRoot s none : Except Fault State) with
  | .ok s => s
  | .error _ => emptyCollector

/-- The statements of `pushRoot` before its log line: the overflow guard and the store
`roots[root_count++] = object`.  Neither looks at the object the pointer denotes. -/
def pushRootStore (s : State) (p : Ptr) : Except Fault State :=
  if s.root_count ≥ MAX_ROOTS then .error .rootOverflow
  else
    match writeAt s.roots s.root_count p with
    | .error e => .error e
    | .ok roots => .ok { s with roots := roots, root_count := s.root_count + 1 }

/-- The statements of `addRef` before its log line: the `NULL` guard, the out-degree guard
and the store `from->refs[from->ref_count++] = to`.  None of them looks at the object that
`to` denotes. -/
def addRefStore (s : State) (src dst : Ptr) : Except Fault State :=
  match src, dst with
  | some f, some t =>
    match deref s.heap f with
    | none => .error .badPointer
    | some fo =>
      if fo.ref_count ≥ MAX_REFS_PER_OBJECT then .ok s
      else
        match writeAt fo.refs fo.ref_count (some t) with
        | .error e => .error e
        | .ok refs =>
          .ok { s with heap := s.heap.set f
                         (some { fo with refs := refs, ref_count := fo.ref_count + 1 }) }
  | _, _ => .ok s

/-- Two objects `a` (address 0) and `b` (address 1), `b` rooted, after one `gcCollect`: the
sweep has freed `a`, and `b` is alive with no outgoing reference. -/
def freedObjectState : State :=
  match (do
    let (_, s) ← allocObject emptyCollector "a" "5"
    let (b, s) ← allocObject s "b" "6"
    let s ← pushRoot s b
    gcCollect s : Except Fault State) with
  | .ok s => s
  | .error _ => emptyCollector

/-! ## Vocabulary for the comparison of two states -/

/-- Every entry of the pointer list `l` also occurs in `l1`. -/
def subEntries (l l1 : List Ptr) : Bool :=
  l.all (fun q => l1.contains q)

/-- The two pointer lists have the same entries, whatever their order and multiplicity: each
arises from the other by permuting and duplicating (or merging duplicate) entries. -/
def sameEntries (l l1 : List Ptr) : Bool :=
  subEntries l l1 && subEntries l1 l

/-- The two heap cells are both freed, or both hold an object and every entry of the used
part `refs[0..ref_count)` of the first object also occurs in that of the second. -/
def cellsSub : Option object_struct_t → Option object_struct_t → Bool
  | none, none => true
  | some o, some o1 => subEntries (o.refs.take o.ref_count) (o1.refs.take o1.ref_count)
  | _, _ => false

/-- The heaps `h` and `h1` have the same live cells, and every reference of an object of `h`
is also a reference of the object at the same address in `h1`. -/
def SubGraph (h h1 : Heap) : Prop :=
  h1.length = h.length ∧ ∀ a, a < h.length → cellsSub (h.getD a none) (h1.getD a none) = true

instance (h h1 : Heap) : Decidable (SubGraph h h1) :=
  inferInstanceAs (Decidable (h1.length = h.length ∧
    ∀ a, a < h.length → cellsSub (h.getD a none) (h1.getD a none) = true))

/-- The heaps `h` and `h1` have the same live cells with the same outgoing references, up to
the order and multiplicity of the entries of each `refs` array. -/
def SameGraph (h h1 : Heap) : Prop :=
  SubGraph h h1 ∧ SubGraph h1 h

instance (h h1 : Heap) : Decidable (SameGraph h h1) :=
  inferInstanceAs (Decidable (SubGraph h h1 ∧ SubGraph h1 h))

/-- A rooted holder (address 0) with the edges `holder -> x, holder -> y` (`x` at address 1,
`y` at address 2). -/
def orderedState : State :=
  match (do
    let (h, s) ← allocObject emptyCollector "h" "holder"
    let (x, s) ← allocObject s "x" "obj_x"
    let (y, s) ← allocObject s "y" "obj_y"
    let s ← pushRoot s h
    let s ← addRef s h x
    addRef s h y : Except Fault State) with
  | .ok s => s
  | .error _ => emptyCollector

/-- The same objects as in `orderedState`, with the holder rooted twice and its edges added
in the other order, one of them twice: `holder -> y, holder -> x, holder -> y`. -/
def reorderedState : State :=
  match (do
    let (h, s) ← allocObject emptyCollector "h" "holder"
    let (x, s) ← allocObject s "x" "obj_x"
    let (y, s) ← allocObject s "y" "obj_y"
    let s ← pushRoot s h
    let s ← pushRoot s h
    let s ← addRef s h y
    let s ← addRef s h x
    addRef s h y : Except Fault State) with
  | .ok s => s
  | .error _ => emptyCollector

/-- The state `mixedState` with the unrooted object `g` (address 2) pushed as a second root and
the edge `x -> g` added. -/
def mixedStateMore : State :=
  match (do
    let s ← pushRoot mixedState (some 2)
    addRef s (some 1) (some 2) : Except Fault State) with
  | .ok s => s
  | .error _ => emptyCollector

/-! ## Vocabulary for the log and for the ownership of objects by the pool -/

/-- The log line is a `MARK` line. -/
def isMarkEvent : Event → Bool
  | .MARK _ => true
  | _ => false

/-- Between `s` and `s1` the log has grown by `MARK` lines only, exactly one for every object
that is marked in `s1` and was not marked in `s`, and none for any other object. -/
def MarkLog (s s1 : State) : Prop :=
  ∃ l, s1.log = s.log ++ l ∧ (∀ e ∈ l, isMarkEvent e = true) ∧
    ∀ b, (Marked s1.heap b ∧ ¬ Marked s.heap b → l.count (.MARK b) = 1) ∧
      (¬ (Marked s1.heap b ∧ ¬ Marked s.heap b) → l.count (.MARK b) = 0)

/-- A holder (address 0) rooted twice, with the edges `holder -> x` (twice), `holder -> y`,
`x -> y`, `y -> x`, `x -> x`, and an unrooted object `g` (address 3) pointing to `x`. -/
def tangledState : State :=
  match (do
    let (h, s) ← allocObject emptyCollector "h" "holder"
    let (x, s) ← allocObject s "x" "obj_x"
    let (y, s) ← allocObject s "y" "obj_y"
    let (g, s) ← allocObject s "g" "garbage"
    let s ← pushRoot s h
    let s ← pushRoot s h
    let s ← addRef s h x
    let s ← addRef s h x
    let s ← addRef s h y
    let s ← addRef s x y
    let s ← addRef s y x
    let s ← addRef s x x
    addRef s g x : Except Fault State) with
  | .ok s => s
  | .error _ => emptyCollector

/-- The pool owns its objects: every non-`NULL` slot of `objectPool[0..object_count)` holds the
address of a live object, and no two slots hold the same address. -/
structure Owned (s : State) : Prop where
  live : ∀ j a, j < s.object_count → s.objectPool[j]? = some (some a) →
    (deref s.heap a).isSome = true
  distinct : ∀ j k a, k < j → j < s.object_count → s.objectPool[j]? = some (some a) →
    s.objectPool[k]? ≠ some (some a)

/-- The log holds exactly one `FREE` line for every freed cell and none for any other
address. -/
def FreedOnce (s : State) : Prop :=
  ∀ a : Nat, s.log.count (.FREE a) = if s.heap[a]? = some none then 1 else 0

/-- From slot `i` on, the pool owns its objects: the arrays have their declared sizes, every
non-`NULL` slot of `objectPool[i..n)` holds the address of a live object, and no two of these
slots hold the same address. -/
structure OwnedFrom (n i : Nat) (s : State) : Prop where
  pool_size : s.objectPool.length = MAX_OBJECTS
  heap : HeapShaped s.heap
  live : ∀ j a, i ≤ j → j < n → s.objectPool[j]? = some (some a) →
    (deref s.heap a).isSome = true
  distinct : ∀ j k a, i ≤ k → k < j → j < n → s.objectPool[j]? = some (some a) →
    s.objectPool[k]? ≠ some (some a)

end MarkSweep

/-!
# Reference-counting simulator (`src/src/refcounting_gc.c`)

The same memory model as for the mark-and-sweep collector: the heap is a list of cells,
`none` once the object has been passed to `free`; addresses are never reused; a run that
would read or free a freed object, or index outside an array, ends in a fault.
-/

namespace RefCount

def MAX_OBJECTS : Nat := 100

/-- The type `object_t *`: `none` is `NULL`, `some a` is the address of heap cell `a`. -/
abbrev Ptr := Option Nat

/-- The least value of the type `int` (32 bits). -/
def INT_MIN : Int := -2147483648

/-- The greatest value of the type `int` (32 bits). -/
def INT_MAX : Int := 2147483647

/-- The value an `int` holds after an arithmetic result `x` has been stored in it: `x` itself
inside `[INT_MIN, INT_MAX]`, and otherwise the two's-complement wrap-around that the compiled
program performs (ISO C leaves signed overflow undefined). -/
def wrapInt (x : Int) : Int := (x + 2147483648) % 4294967296 - 2147483648

/-- The struct `object_t`; the field `refcount` is an `int`. -/
structure object_t where
  refcount : Int
  name : String
  value : String
deriving DecidableEq

/-- One line written to the log file; the object is given by its address, the count is the
number printed. -/
inductive Event where
  | Created (a : Nat) (refs : Int)
  | Retained (a : Nat) (refs : Int)
  | Released (a : Nat) (refs : Int)
  | Freeing (a : Nat)
  | ForceCleanup (a : Nat)
  | ProgramEnd
deriving DecidableEq

/-- The ways a run can stop without returning: the `exit(EXIT_FAILURE)` of a full pool, and
the two kinds of undefined behaviour the model detects. -/
inductive Fault where
  | poolFull
  | badPointer
  | outOfBounds
deriving DecidableEq

/-- The heap: cell `a` is `some o` while the object at address `a` is alive, `none` after `free`. -/
abbrev Heap := List (Option object_t)

/-- The global variables of the program together with the heap. -/
structure State where
  heap : Heap
  objectPool : List Ptr
  object_count : Nat
  log : List Event
deriving DecidableEq

/-- Reading through a pointer: the object stored at address `a`, if that cell is alive. -/
def deref (h : Heap) (a : Nat) : Option object_t :=
  match h[a]? with
  | some (some o) => some o
  | _ => none

/-- The state at program start. -/
def emptyState : State :=
  { heap := [], objectPool := List.replicate MAX_OBJECTS none, object_count := 0, log := [] }

/-- The loop `for (i = start; i < start + n; i++) body(i)`. -/
def forRange {σ : Type} (body : σ → Nat → Except Fault σ) : Nat → Nat → σ → Except Fault σ
  | _, 0, s => .ok s
  | i, n + 1, s =>
    match body s i with
    | .ok s1 => forRange body (i + 1) n s1
    | .error e => .error e

/-- The write `arr[i] = v`, undefined outside the array. -/
def writeAt (arr : List Ptr) (i : Nat) (v : Ptr) : Except Fault (List Ptr) :=
  if i < arr.length then .ok (arr.set i v) else .error .outOfBounds

/-- The function `createObject`: exits when the pool is full, otherwise creates an object with
`refcount = 1`, stores it in `objectPool[object_count++]` and returns its address. -/
def createObject (s : State) (name value : String) : Except Fault (Ptr × State) :=
  if s.object_count ≥ MAX_OBJECTS then .error .poolFull
  else
    let a := s.heap.length
    match writeAt s.objectPool s.object_count (some a) with
    | .error e => .error e
    | .ok pool =>
      .ok (some a,
        { s with heap := s.heap ++ [some { refcount := 1, name := name, value := value }]
                 objectPool := pool
                 object_count := s.object_count + 1
                 log := s.log ++ [.Created a 1] })

/-- The function `retainObject`: `refcount++`, in `int` arithmetic, on a non-`NULL` object. -/
def retainObject (s : State) (p : Ptr) : Except Fault State :=
  match p with
  | none => .ok s
  | some a =>
    match deref s.heap a with
    | none => .error .badPointer
    | some object =>
      .ok { s with
        heap := s.heap.set a (some { object with refcount := wrapInt (object.refcount + 1) })
        log := s.log ++ [.Retained a (wrapInt (object.refcount + 1))] }

/-- The function `releaseObject`: `refcount--`, in `int` arithmetic, on a non-`NULL` object,
and when the count is then `<= 0` the name, the value and the object are freed.  The slot of
`objectPool` that holds the object is not touched. -/
def releaseObject (s : State) (p : Ptr) : Except Fault State :=
  match p with
  | none => .ok s
  | some a =>
    match deref s.heap a with
    | none => .error .badPointer
    | some object =>
      if wrapInt (object.refcount - 1) ≤ 0 then
        .ok { s with
          heap := s.heap.set a none
          log := s.log ++ [.Released a (wrapInt (object.refcount - 1)), .Freeing a] }
      else
        .ok { s with
          heap := s.heap.set a (some { object with refcount := wrapInt (object.refcount - 1) })
          log := s.log ++ [.Released a (wrapInt (object.refcount - 1))] }

/-- One iteration of the loop of `cleanup`: when `objectPool[i]` is not `NULL`, log
`objectPool[i]->name`, free the name, the value and the object, and clear the slot. -/
def cleanupStep (s : State) (i : Nat) : Except Fault State :=
  match s.objectPool[i]? with
  | none => .error .outOfBounds
  | some none => .ok s
  | some (some a) =>
    match deref s.heap a with
    | none => .error .badPointer
    | some _ =>
      match writeAt s.objectPool i none with
      | .error e => .error e
      | .ok pool =>
        .ok { s with heap := s.heap.set a none, objectPool := pool
                     log := s.log ++ [.ForceCleanup a] }

/-- The function `cleanup`: free whatever `objectPool[0..object_count)` still points to and
reset `object_count`. -/
def cleanup (s : State) : Except Fault State :=
  match forRange cleanupStep 0 s.object_count s with
  | .error e => .error e
  | .ok s1 => .ok { s1 with object_count := 0 }

/-- The library function `atoi` on an unsigned decimal numeral: the value of the leading
digits (no white space and no sign, which the program never passes). -/
def atoi (v : String) : Int :=
  (v.data.takeWhile Char.isDigit).foldl (fun n c => 10 * n + ((c.toNat : Int) - 48)) 0

/-- The function `simulateProgram`. -/
def simulateProgram (s : State) : Except Fault State := do
  let (a, s) ← createObject s "a" "5"
  let s ← retainObject s a
  let v ← match a.bind (deref s.heap) with
    | none => Except.error Fault.badPointer
    | some object => pure object.value
  let (a, s) ←
    if atoi v < 10 then do
      let s ← releaseObject s a
      createObject s "a" "6"
    else pure (a, s)
  let s ← releaseObject s a
  pure { s with log := s.log ++ [.ProgramEnd] }

/-- The same call `retainObject(object)` made `n` times in a row. -/
def retainN : Nat → State → Ptr → Except Fault State
  | 0, s, _ => .ok s
  | n + 1, s, p =>
    match retainObject s p with
    | .ok s1 => retainN n s1 p
    | .error e => .error e

/-- The same call `releaseObject(object)` made `n` times in a row. -/
def releaseN : Nat → State → Ptr → Except Fault State
  | 0, s, _ => .ok s
  | n + 1, s, p =>
    match releaseObject s p with
    | .ok s1 => releaseN n s1 p
    | .error e => .error e

/-- The state after `createObject("a", "5")` from the start state (the object has address 0). -/
def createdState : State :=
  match createObject emptyState "a" "5" with
  | .ok (_, s) => s
  | .error _ => emptyState

end RefCount

namespace MarkSweep

/-! ## Heap lemmas -/

theorem deref_eq_some {h : Heap} {a : Nat} {o : object_struct_t} :
    deref h a = some o ↔ h[a]? = some (some o) := by
  unfold deref
  split
  · next o1 heq => simp [heq]
  · next hne =>
    constructor
    · intro hx; cases hx
    · intro hx; exact absurd hx (hne o)

theorem deref_lt {h : Heap} {a : Nat} {o : object_struct_t} (hd : deref h a = some o) :
    a < h.length := by
  rw [deref_eq_some] at hd
  by_contra hlt
  rw [List.getElem?_eq_none (by omega)] at hd
  cases hd

theorem deref_of_cell_eq {h h1 : Heap} {a : Nat} (hc : h1[a]? = h[a]?) :
    deref h1 a = deref h a := by
  unfold deref
  rw [hc]

theorem deref_set_self {h : Heap} {a : Nat} (hlt : a < h.length) (c : Option object_struct_t) :
    deref (h.set a c) a = c := by
  unfold deref
  rw [List.getElem?_set_self hlt]
  cases c <;> rfl

theorem deref_set_ne {h : Heap} {a b : Nat} (hne : a ≠ b) (c : Option object_struct_t) :
    deref (h.set a c) b = deref h b :=
  deref_of_cell_eq (List.getElem?_set_ne hne)

theorem mem_heap_of_deref {h : Heap} {a : Nat} {o : object_struct_t} (hd : deref h a = some o) :
    some o ∈ h := by
  rw [deref_eq_some] at hd
  exact List.getElem?_mem hd

theorem unmarkedCount_le_length (h : Heap) : unmarkedCount h ≤ h.length := by
  induction h with
  | nil => simp [unmarkedCount]
  | cons c h ih =>
    simp only [unmarkedCount, List.length_cons]
    split <;> omega

theorem unmarkedCount_set_mark (h : Heap) (a : Nat) (o : object_struct_t)
    (hd : deref h a = some o) (h0 : o.marked = 0) :
    unmarkedCount (h.set a (some { o with marked := 1 })) + 1 = unmarkedCount h := by
  rw [deref_eq_some] at hd
  induction h generalizing a with
  | nil => simp at hd
  | cons c h ih =>
    cases a with
    | zero =>
      simp only [List.getElem?_cons_zero, Option.some.injEq] at hd
      subst hd
      simp [unmarkedCount, cellUnmarked, h0]
      omega
    | succ a =>
      simp only [List.getElem?_cons_succ] at hd
      have := ih a hd
      simp only [List.set_cons_succ, unmarkedCount]
      omega


/-! ## Setting mark bits preserves the shape of the heap -/

theorem MarkFrame.refl (h : Heap) : MarkFrame h h :=
  ⟨rfl, fun _ => Or.inl rfl⟩

theorem MarkFrame.deref_fwd {h h1 : Heap} (hf : MarkFrame h h1) {b : Nat} {o : object_struct_t}
    (hd : deref h b = some o) :
    deref h1 b = some o ∨ deref h1 b = some { o with marked := 1 } := by
  rcases hf.2 b with hc | ⟨o2, hd2, hc⟩
  · left
    rw [deref_of_cell_eq hc]
    exact hd
  · right
    rw [hd] at hd2
    cases hd2
    exact deref_eq_some.mpr hc

theorem MarkFrame.deref_bwd {h h1 : Heap} (hf : MarkFrame h h1) {b : Nat} {o1 : object_struct_t}
    (hd : deref h1 b = some o1) :
    ∃ o, deref h b = some o ∧ (o1 = o ∨ o1 = { o with marked := 1 }) := by
  rcases hf.2 b with hc | ⟨o2, hd2, hc⟩
  · refine ⟨o1, ?_, Or.inl rfl⟩
    rw [← deref_of_cell_eq hc]
    exact hd
  · refine ⟨o2, hd2, Or.inr ?_⟩
    have h3 := deref_eq_some.mpr hc
    rw [hd] at h3
    exact Option.some.inj h3

theorem MarkFrame.comp {h h1 h2 : Heap} (h12 : MarkFrame h h1) (h23 : MarkFrame h1 h2) :
    MarkFrame h h2 := by
  refine ⟨h23.1.trans h12.1, fun b => ?_⟩
  rcases h23.2 b with hc | ⟨o, hd, hc⟩
  · rcases h12.2 b with hc1 | ⟨o1, hd1, hc1⟩
    · left
      rw [hc, hc1]
    · right
      exact ⟨o1, hd1, by rw [hc, hc1]⟩
  · rcases h12.deref_bwd hd with ⟨o0, hd0, rfl | rfl⟩
    · right
      exact ⟨_, hd0, hc⟩
    · right
      exact ⟨o0, hd0, hc⟩

theorem MarkFrame.set_mark {h : Heap} {a : Nat} {o : object_struct_t} (hd : deref h a = some o) :
    MarkFrame h (h.set a (some { o with marked := 1 })) := by
  refine ⟨List.length_set _ _ _, fun b => ?_⟩
  by_cases hab : a = b
  · subst hab
    right
    exact ⟨o, hd, List.getElem?_set_self (deref_lt hd)⟩
  · left
    exact List.getElem?_set_ne hab

theorem MarkFrame.marked {h h1 : Heap} (hf : MarkFrame h h1) {b : Nat} (hm : Marked h b) :
    Marked h1 b := by
  obtain ⟨o, hd, hne⟩ := hm
  rcases hf.deref_fwd hd with h1d | h1d
  · exact ⟨o, h1d, hne⟩
  · exact ⟨_, h1d, by simp⟩

theorem MarkFrame.live {h h1 : Heap} (hf : MarkFrame h h1) {b : Nat}
    (hl : (deref h b).isSome = true) : (deref h1 b).isSome = true := by
  obtain ⟨o, hd⟩ := Option.isSome_iff_exists.mp hl
  rcases hf.deref_fwd hd with h1d | h1d <;> simp [h1d]

theorem MarkFrame.edge_iff {h h1 : Heap} (hf : MarkFrame h h1) (a b : Nat) :
    edge h1 a b ↔ edge h a b := by
  constructor
  · rintro ⟨o1, hd1, i, hi, hr⟩
    rcases hf.deref_bwd hd1 with ⟨o, hd, rfl | rfl⟩
    · exact ⟨_, hd, i, hi, hr⟩
    · exact ⟨o, hd, i, hi, hr⟩
  · rintro ⟨o, hd, i, hi, hr⟩
    rcases hf.deref_fwd hd with h1d | h1d
    · exact ⟨o, h1d, i, hi, hr⟩
    · exact ⟨_, h1d, i, hi, hr⟩

theorem MarkFrame.reach {h h1 : Heap} (hf : MarkFrame h h1) {a b : Nat}
    (hr : Relation.ReflTransGen (edge h1) a b) : Relation.ReflTransGen (edge h) a b :=
  hr.mono fun x y hxy => (hf.edge_iff x y).mp hxy

theorem MarkFrame.keeps_closed {h h1 : Heap} (hf : MarkFrame h h1) (hc : Closed h) : Closed h1 := by
  intro a o1 hd1 i hi
  rcases hf.deref_bwd hd1 with ⟨o, hd, rfl | rfl⟩
  · obtain ⟨q, hq, hl⟩ := hc a _ hd i hi
    exact ⟨q, hq, fun b hb => hf.live (hl b hb)⟩
  · obtain ⟨q, hq, hl⟩ := hc a o hd i hi
    exact ⟨q, hq, fun b hb => hf.live (hl b hb)⟩

/-! ## Composition of marking runs -/

theorem MarkPost.of_marked {R : Nat → Prop} {s : State} (hR : ∀ r, R r → Marked s.heap r)
    (l : List Event) : MarkPost R s { s with log := l } :=
  { pool := rfl, count := rfl, roots := rfl, root_count := rfl
    frame := MarkFrame.refl _
    budget := Nat.le_refl _
    targets := hR
    sound := fun _ hb => Or.inl hb
    closed := fun _ hb => Or.inl hb }

theorem MarkPost.of_log {R : Nat → Prop} {s s1 : State} {l : List Event}
    (hp : MarkPost R { s with log := l } s1) : MarkPost R s s1 :=
  { pool := hp.pool, count := hp.count, roots := hp.roots, root_count := hp.root_count
    frame := hp.frame
    budget := hp.budget
    targets := hp.targets
    sound := hp.sound
    closed := hp.closed }

theorem MarkPost.congr {R R1 : Nat → Prop} {s s1 : State} (hp : MarkPost R s s1)
    (hR : ∀ r, R1 r ↔ R r) : MarkPost R1 s s1 :=
  { pool := hp.pool, count := hp.count, roots := hp.roots, root_count := hp.root_count
    frame := hp.frame
    budget := hp.budget
    targets := fun r hr => hp.targets r ((hR r).mp hr)
    sound := fun b hb => (hp.sound b hb).imp id fun ⟨r, hr, hreach⟩ => ⟨r, (hR r).mpr hr, hreach⟩
    closed := hp.closed }

theorem MarkPost.seq {R1 R2 : Nat → Prop} {s s1 s2 : State} (h1 : MarkPost R1 s s1)
    (h2 : MarkPost R2 s1 s2) : MarkPost (fun r => R1 r ∨ R2 r) s s2 :=
  { pool := h2.pool.trans h1.pool
    count := h2.count.trans h1.count
    roots := h2.roots.trans h1.roots
    root_count := h2.root_count.trans h1.root_count
    frame := h1.frame.comp h2.frame
    budget := Nat.le_trans h2.budget h1.budget
    targets := fun r hr => hr.elim (fun hr1 => h2.frame.marked (h1.targets r hr1)) (h2.targets r)
    sound := fun b hb => by
      rcases h2.sound b hb with hm | ⟨r, hr, hreach⟩
      · exact (h1.sound b hm).imp id fun ⟨r, hr, hreach⟩ => ⟨r, Or.inl hr, hreach⟩
      · exact Or.inr ⟨r, Or.inr hr, h1.frame.reach hreach⟩
    closed := fun b hb => by
      rcases h2.closed b hb with hm | hcl
      · exact (h1.closed b hm).imp id fun hcl c hc => h2.frame.marked (hcl c hc)
      · exact Or.inr fun c hc => hcl c ((h1.frame.edge_iff b c).mpr hc) }


/-! ## The mark phase -/

theorem markSlots_spec (m : State → Ptr → Except Fault State) (F : Nat) (arr : List Ptr)
    (hm : ∀ t b, Closed t.heap → (deref t.heap b).isSome = true → unmarkedCount t.heap < F →
      ∃ t1, m t (some b) = .ok t1 ∧ MarkPost (fun r => r = b) t t1)
    (n i : Nat) (s : State) (hc : Closed s.heap) (hF : unmarkedCount s.heap < F)
    (harr : ∀ j, i ≤ j → j < i + n →
      ∃ q, arr[j]? = some q ∧ ∀ b, q = some b → (deref s.heap b).isSome = true) :
    ∃ s1, forRange (markSlot m arr) i n s = .ok s1 ∧
      MarkPost (fun r => ∃ j, i ≤ j ∧ j < i + n ∧ arr[j]? = some (some r)) s s1 := by
  induction n generalizing i s with
  | zero =>
    refine ⟨s, rfl, MarkPost.of_marked ?_ s.log⟩
    rintro r ⟨j, h1, h2, _⟩
    omega
  | succ n ih =>
    obtain ⟨q, hq, hlive⟩ := harr i (Nat.le_refl i) (by omega)
    cases q with
    | none =>
      have hbody : markSlot m arr s i = .ok s := by simp [markSlot, hq]
      obtain ⟨s1, he, hp⟩ := ih (i + 1) s hc hF (fun j h1 h2 => harr j (by omega) (by omega))
      refine ⟨s1, by simp only [forRange, hbody]; exact he, hp.congr fun r => ?_⟩
      constructor
      · rintro ⟨j, h1, h2, h3⟩
        rcases Nat.eq_or_lt_of_le h1 with rfl | hlt
        · rw [hq] at h3
          cases h3
        · exact ⟨j, hlt, by omega, h3⟩
      · rintro ⟨j, h1, h2, h3⟩
        exact ⟨j, by omega, by omega, h3⟩
    | some b =>
      obtain ⟨t, het, hpt⟩ := hm s b hc (hlive b rfl) hF
      have hbody : markSlot m arr s i = .ok t := by simp [markSlot, hq, het]
      obtain ⟨s1, he, hp⟩ := ih (i + 1) t (hpt.frame.keeps_closed hc) (Nat.lt_of_le_of_lt hpt.budget hF)
        (fun j h1 h2 => by
          obtain ⟨q, hq1, hl1⟩ := harr j (by omega) (by omega)
          exact ⟨q, hq1, fun c hc1 => hpt.frame.live (hl1 c hc1)⟩)
      refine ⟨s1, by simp only [forRange, hbody]; exact he, (hpt.seq hp).congr fun r => ?_⟩
      constructor
      · rintro ⟨j, h1, h2, h3⟩
        rcases Nat.eq_or_lt_of_le h1 with rfl | hlt
        · rw [hq] at h3
          left
          exact (Option.some.inj (Option.some.inj h3)).symm
        · exact Or.inr ⟨j, hlt, by omega, h3⟩
      · rintro (rfl | ⟨j, h1, h2, h3⟩)
        · exact ⟨i, Nat.le_refl i, by omega, hq⟩
        · exact ⟨j, by omega, by omega, h3⟩

theorem markAux_spec (fuel : Nat) (s : State) (a : Nat) (hc : Closed s.heap)
    (hl : (deref s.heap a).isSome = true) (hF : unmarkedCount s.heap < fuel) :
    ∃ s1, markAux fuel s (some a) = .ok s1 ∧ MarkPost (fun r => r = a) s s1 := by
  induction fuel generalizing s a with
  | zero => omega
  | succ fuel ih =>
    obtain ⟨o, hd⟩ := Option.isSome_iff_exists.mp hl
    by_cases hmk : o.marked ≠ 0
    · refine ⟨s, by simp [markAux, hd, hmk], MarkPost.of_marked ?_ s.log⟩
      rintro r rfl
      exact ⟨o, hd, hmk⟩
    · have h0 : o.marked = 0 := by omega
      have hf1 : MarkFrame s.heap (s.heap.set a (some { o with marked := 1 })) :=
        MarkFrame.set_mark hd
      have hcount := unmarkedCount_set_mark s.heap a o hd h0
      obtain ⟨s1, he, hp⟩ := markSlots_spec (markAux fuel) fuel o.refs
        (fun t b h1 h2 h3 => ih t b h1 h2 h3) o.ref_count 0
        { s with heap := s.heap.set a (some { o with marked := 1 }), log := s.log ++ [.MARK a] }
        (hf1.keeps_closed hc) (by simp only; omega)
        (fun j _ h2 => by
          obtain ⟨q, hq, hlq⟩ := hc a o hd j (by omega)
          exact ⟨q, hq, fun c hc1 => hf1.live (hlq c hc1)⟩)
      refine ⟨s1, by simp [markAux, hd, h0, markSlots]; exact he, ?_⟩
      have hma : Marked (s.heap.set a (some { o with marked := 1 })) a :=
        ⟨_, deref_set_self (deref_lt hd) _, by simp⟩
      have hsplit : ∀ b, Marked (s.heap.set a (some { o with marked := 1 })) b →
          b = a ∨ Marked s.heap b := by
        intro b hb
        by_cases hab : a = b
        · exact Or.inl hab.symm
        · right
          obtain ⟨o1, hd1, hne⟩ := hb
          rw [deref_set_ne hab] at hd1
          exact ⟨o1, hd1, hne⟩
      exact
        { pool := hp.pool, count := hp.count, roots := hp.roots, root_count := hp.root_count
          frame := hf1.comp hp.frame
          budget := by have := hp.budget; simp only at this; omega
          targets := fun r hr => by
            subst hr
            exact hp.frame.marked hma
          sound := fun b hb => by
            rcases hp.sound b hb with hm1 | ⟨r, ⟨j, _, hj, hr⟩, hreach⟩
            · rcases hsplit b hm1 with rfl | hm0
              · exact Or.inr ⟨b, rfl, Relation.ReflTransGen.refl⟩
              · exact Or.inl hm0
            · refine Or.inr ⟨a, rfl, Relation.ReflTransGen.head ⟨o, hd, j, by omega, hr⟩ ?_⟩
              exact hf1.reach hreach
          closed := fun b hb => by
            rcases hp.closed b hb with hm1 | hcl
            · rcases hsplit b hm1 with rfl | hm0
              · right
                rintro c ⟨o1, hd1, j, hj, hr⟩
                rw [hd] at hd1
                cases hd1
                exact hp.targets c ⟨j, Nat.zero_le j, by omega, hr⟩
              · exact Or.inl hm0
            · exact Or.inr fun c hc1 => hcl c ((hf1.edge_iff b c).mpr hc1) }

theorem mark_spec (F : Nat) (s : State) (a : Nat) (hc : Closed s.heap)
    (hl : (deref s.heap a).isSome = true) (_hF : unmarkedCount s.heap < F) :
    ∃ s1, mark s (some a) = .ok s1 ∧ MarkPost (fun r => r = a) s s1 :=
  markAux_spec (s.heap.length + 1) s a hc hl
    (Nat.lt_succ_of_le (unmarkedCount_le_length s.heap))


/-! ## From the well-formedness checks to the proof vocabulary -/

theorem poolObject_iff {s : State} {a : Nat} :
    poolObject s a = true ↔ InPool s a ∧ (deref s.heap a).isSome = true := by
  simp [poolObject, InPool]

theorem slotInPool_elim {s : State} {arr : List Ptr} {i : Nat} (h : slotInPool s arr i = true) :
    ∃ q, arr[i]? = some q ∧ ∀ b, q = some b → poolObject s b = true := by
  unfold slotInPool at h
  split at h
  · cases h
  · next heq => exact ⟨none, heq, fun b hb => by cases hb⟩
  · next b heq => exact ⟨some b, heq, fun c hc => by cases hc; exact h⟩

theorem closed_of_edgesInPool {s : State} (h : EdgesInPool s) : Closed s.heap := by
  intro a o hd i hi
  have hcell := h (some o) (mem_heap_of_deref hd)
  simp only [cellEdgesInPool, decide_eq_true_eq] at hcell
  obtain ⟨q, hq, hp⟩ := slotInPool_elim (hcell i hi)
  exact ⟨q, hq, fun b hb => (poolObject_iff.mp (hp b hb)).2⟩

theorem edge_target_poolObject {s : State} (h : EdgesInPool s) {a b : Nat}
    (he : edge s.heap a b) : poolObject s b = true := by
  obtain ⟨o, hd, i, hi, hr⟩ := he
  have hcell := h (some o) (mem_heap_of_deref hd)
  simp only [cellEdgesInPool, decide_eq_true_eq] at hcell
  obtain ⟨q, hq, hp⟩ := slotInPool_elim (hcell i hi)
  rw [hr] at hq
  exact hp b (Option.some.inj hq).symm

theorem root_poolObject {s : State} (h : RootsInPool s) {r : Nat} (hr : IsRoot s r) :
    poolObject s r = true := by
  obtain ⟨i, hi, hri⟩ := hr
  obtain ⟨q, hq, hp⟩ := slotInPool_elim (h i hi)
  rw [hri] at hq
  exact hp r (Option.some.inj hq).symm

theorem reachable_poolObject {s : State} (he : EdgesInPool s) (hr : RootsInPool s) {a : Nat}
    (ha : Reachable s a) : poolObject s a = true := by
  obtain ⟨r, hroot, hreach⟩ := ha
  induction hreach with
  | refl => exact root_poolObject hr hroot
  | tail _ hedge _ => exact edge_target_poolObject he hedge

theorem not_marked_of_marksClear {s : State} (h : MarksClear s) (b : Nat) :
    ¬ Marked s.heap b := by
  rintro ⟨o, hd, hne⟩
  have hcell := h (some o) (mem_heap_of_deref hd)
  simp only [cellClear, decide_eq_true_eq] at hcell
  exact hne hcell

/-- The mark phase on a state whose edges and roots denote pool objects: it returns, changes
nothing but mark bits and the log, and relates the marks to reachability from the roots. -/
theorem markAllRoots_spec (s : State) (hedges : EdgesInPool s) (hroots : RootsInPool s) :
    ∃ s1, markAllRoots s = .ok s1 ∧ MarkPost (IsRoot s) s s1 := by
  obtain ⟨s1, he, hp⟩ := markSlots_spec mark (s.heap.length + 1) s.roots
    (fun t b h1 h2 h3 => mark_spec (s.heap.length + 1) t b h1 h2 h3) s.root_count 0
    { s with log := s.log ++ [.MARK_PHASE_START] }
    (closed_of_edgesInPool hedges)
    (Nat.lt_succ_of_le (unmarkedCount_le_length s.heap))
    (fun j _ h2 => by
      obtain ⟨q, hq, hp⟩ := slotInPool_elim (hroots j (by omega))
      exact ⟨q, hq, fun b hb => (poolObject_iff.mp (hp b hb)).2⟩)
  refine ⟨{ s1 with log := s1.log ++ [.MARK_PHASE_END] }, ?_, ?_⟩
  · simp only [markAllRoots, markSlots, he]
  · exact
      { pool := hp.pool, count := hp.count, roots := hp.roots, root_count := hp.root_count
        frame := hp.frame
        budget := hp.budget
        targets := fun r ⟨j, hj, hr⟩ => hp.targets r ⟨j, Nat.zero_le j, by omega, hr⟩
        sound := fun b hb => (hp.sound b hb).imp id
          fun ⟨r, ⟨j, _, hj, hr⟩, hreach⟩ => ⟨r, ⟨j, by omega, hr⟩, hreach⟩
        closed := hp.closed }

theorem marked_iff_reachable {s s1 : State} (hclear : MarksClear s)
    (hp : MarkPost (IsRoot s) s s1) (a : Nat) : Marked s1.heap a ↔ Reachable s a := by
  constructor
  · intro hm
    rcases hp.sound a hm with h0 | h1
    · exact absurd h0 (not_marked_of_marksClear hclear a)
    · exact h1
  · rintro ⟨r, hroot, hreach⟩
    induction hreach with
    | refl => exact hp.targets r hroot
    | tail _ hedge ih =>
      rcases hp.closed _ ih with h0 | hcl
      · exact absurd h0 (not_marked_of_marksClear hclear _)
      · exact hcl _ hedge

theorem marked_one_of_marksClear {s s1 : State} (hclear : MarksClear s)
    (hf : MarkFrame s.heap s1.heap) {a : Nat} {o : object_struct_t}
    (hd : deref s1.heap a = some o) (hne : o.marked ≠ 0) : o.marked = 1 := by
  rcases hf.deref_bwd hd with ⟨o0, hd0, rfl | rfl⟩
  · exact absurd ⟨_, hd0, hne⟩ (not_marked_of_marksClear hclear a)
  · rfl

/-! ## The sweep phase -/

theorem lt_length_of_getElem? {α : Type} {l : List α} {i : Nat} {x : α} (h : l[i]? = some x) :
    i < l.length := by
  by_contra hlt
  rw [List.getElem?_eq_none (by omega)] at h
  cases h

/-- One iteration of the sweep loop on a slot holding a live object: the object's cell
becomes the unmarked object when it was marked and a freed cell when it was not; the slots
further on, the roots and the counters are untouched. -/
theorem sweepStep_spec (s : State) (d i a : Nat) (o : object_struct_t) (hd : d ≤ i)
    (hsi : s.objectPool[i]? = some (some a)) (hda : deref s.heap a = some o)
    (hrc : o.ref_count ≤ o.refs.length) :
    ∃ s1 d1, sweepStep (s, d) i = .ok (s1, d1) ∧ d1 ≤ i + 1 ∧
      s1.roots = s.roots ∧ s1.root_count = s.root_count ∧
      s1.objectPool.length = s.objectPool.length ∧
      (∀ j, i < j → s1.objectPool[j]? = s.objectPool[j]?) ∧
      s1.heap = s.heap.set a (if o.marked ≠ 0 then some { o with marked := 0 } else none) := by
  have hilen := lt_length_of_getElem? hsi
  by_cases hmk : o.marked ≠ 0
  · refine ⟨{ s with heap := s.heap.set a (some { o with marked := 0 })
                     objectPool := s.objectPool.set d none }, d + 1, ?_, by omega, rfl, rfl,
      List.length_set _ _ _, fun j hj => List.getElem?_set_ne (by omega), by simp [hmk]⟩
    have hdlen : d < s.objectPool.length := by omega
    simp [sweepStep, hsi, hda, hmk, writeAt, hdlen]
  · have h0 : o.marked = 0 := by omega
    refine ⟨{ s with heap := s.heap.set a none, log := s.log ++ [.FREE a] }, d, ?_, by omega,
      rfl, rfl, rfl, fun j _ => rfl, by simp [h0]⟩
    simp [sweepStep, hsi, hda, h0, freeObject, hrc]

theorem sweepLoop_spec (P0 : List Ptr) (n i : Nat) (s : State) (d : Nat) (hd : d ≤ i)
    (hpool : ∀ j, i ≤ j → s.objectPool[j]? = P0[j]?)
    (hlive : ∀ j, i ≤ j → j < i + n →
      ∃ a o, P0[j]? = some (some a) ∧ deref s.heap a = some o ∧ o.ref_count ≤ o.refs.length)
    (hdist : ∀ j, j < i + n → ∀ k, k < j → P0[k]? ≠ P0[j]?) :
    ∃ s1 d1, forRange sweepStep i n (s, d) = .ok (s1, d1) ∧ d1 ≤ i + n ∧
      s1.roots = s.roots ∧ s1.root_count = s.root_count ∧
      s1.objectPool.length = s.objectPool.length ∧
      s1.heap.length = s.heap.length ∧
      (∀ a, (∃ j, i ≤ j ∧ j < i + n ∧ P0[j]? = some (some a)) → ∀ o, deref s.heap a = some o →
        s1.heap[a]? = some (if o.marked ≠ 0 then some { o with marked := 0 } else none)) ∧
      (∀ a, (¬ ∃ j, i ≤ j ∧ j < i + n ∧ P0[j]? = some (some a)) → s1.heap[a]? = s.heap[a]?) := by
  induction n generalizing i s d with
  | zero =>
    refine ⟨s, d, rfl, by omega, rfl, rfl, rfl, rfl, ?_, fun _ _ => rfl⟩
    rintro a ⟨j, h1, h2, _⟩
    omega
  | succ n ih =>
    obtain ⟨a, o, hP, hda, hrc⟩ := hlive i (Nat.le_refl i) (by omega)
    have hsi : s.objectPool[i]? = some (some a) := (hpool i (Nat.le_refl i)).trans hP
    have hne : ∀ j, i < j → j < i + (n + 1) → P0[j]? ≠ some (some a) :=
      fun j h1 h2 h => hdist j h2 i h1 (hP.trans h.symm)
    obtain ⟨s2, d2, hstep, hd2, hroots2, hrc2, hlen2, hpool2, hheap2⟩ :=
      sweepStep_spec s d i a o hd hsi hda hrc
    have hother : ∀ b, b ≠ a → s2.heap[b]? = s.heap[b]? := by
      intro b hb
      rw [hheap2]
      exact List.getElem?_set_ne (Ne.symm hb)
    obtain ⟨s1, d1, he, hd1, hroots1, hrc1, hlen1, hhlen1, hin, hout⟩ :=
      ih (i + 1) s2 d2 hd2
        (fun j hj => (hpool2 j (by omega)).trans (hpool j (by omega)))
        (fun j h1 h2 => by
          obtain ⟨b, ob, hPb, hdb, hrcb⟩ := hlive j (by omega) (by omega)
          refine ⟨b, ob, hPb, ?_, hrcb⟩
          have hba : b ≠ a := fun h => hne j (by omega) (by omega) (h ▸ hPb)
          rw [deref_of_cell_eq (hother b hba)]
          exact hdb)
        (fun j h1 k h2 => hdist j (by omega) k h2)
    refine ⟨s1, d1, by simp only [forRange, hstep]; exact he, by omega, hroots1.trans hroots2,
      hrc1.trans hrc2, hlen1.trans hlen2, ?_, ?_, ?_⟩
    · rw [hhlen1, hheap2]
      exact List.length_set _ _ _
    · rintro b ⟨j, h1, h2, hPb⟩ ob hdb
      rcases Nat.eq_or_lt_of_le h1 with rfl | hlt
      · rw [hP] at hPb
        obtain rfl : a = b := Option.some.inj (Option.some.inj hPb)
        rw [hda] at hdb
        obtain rfl : o = ob := Option.some.inj hdb
        rw [hout a (fun ⟨k, h3, h4, h5⟩ => hne k (by omega) (by omega) h5), hheap2]
        exact List.getElem?_set_self (deref_lt hda)
      · have hba : b ≠ a := fun h => hne j hlt h2 (h ▸ hPb)
        apply hin b ⟨j, hlt, by omega, hPb⟩ ob
        rw [deref_of_cell_eq (hother b hba)]
        exact hdb
    · intro b hb
      have hba : b ≠ a := fun h => hb ⟨i, Nat.le_refl i, by omega, h ▸ hP⟩
      rw [hout b (fun ⟨k, h3, h4, h5⟩ => hb ⟨k, by omega, by omega, h5⟩)]
      exact hother b hba

theorem clearSlots_ok (n i : Nat) (pool : List Ptr) (h : i + n ≤ pool.length) :
    ∃ pool1, clearSlots pool i n = .ok pool1 ∧ pool1.length = pool.length := by
  unfold clearSlots
  induction n generalizing i pool with
  | zero => exact ⟨pool, rfl, rfl⟩
  | succ n ih =>
    have hi : i < pool.length := by omega
    obtain ⟨pool1, he, hlen⟩ := ih (i + 1) (pool.set i none) (by simp; omega)
    refine ⟨pool1, ?_, by simpa using hlen⟩
    simp only [forRange, writeAt, hi, if_true]
    exact he

theorem ref_count_le_of_closed {h : Heap} (hc : Closed h) {a : Nat} {o : object_struct_t}
    (hd : deref h a = some o) : o.ref_count ≤ o.refs.length := by
  by_contra hlt
  obtain ⟨q, hq, _⟩ := hc a o hd o.refs.length (by omega)
  rw [List.getElem?_eq_none (Nat.le_refl _)] at hq
  cases hq

theorem slotLive_elim {s : State} {j : Nat} (h : slotLive s j = true) :
    ∃ a o, s.objectPool[j]? = some (some a) ∧ deref s.heap a = some o := by
  unfold slotLive at h
  split at h
  · next a heq =>
    obtain ⟨o, ho⟩ := Option.isSome_iff_exists.mp h
    exact ⟨a, o, heq, ho⟩
  · cases h

/-- The sweep phase on a state whose pool slots hold live objects, each slot its own: it
returns; a pool object that was marked stays, with its mark bit cleared; a pool object that
was not marked is freed; no other cell changes. -/
theorem sweep_spec (t : State) (hsize : t.objectPool.length = MAX_OBJECTS)
    (hlive : ∀ j, j < t.object_count →
      ∃ a o, t.objectPool[j]? = some (some a) ∧ deref t.heap a = some o ∧
        o.ref_count ≤ o.refs.length)
    (hdist : ∀ j, j < t.object_count → ∀ k, k < j → t.objectPool[k]? ≠ t.objectPool[j]?) :
    ∃ t1, sweep t = .ok t1 ∧ t1.roots = t.roots ∧ t1.root_count = t.root_count ∧
      t1.heap.length = t.heap.length ∧
      (∀ a, InPool t a → ∀ o, deref t.heap a = some o →
        t1.heap[a]? = some (if o.marked ≠ 0 then some { o with marked := 0 } else none)) ∧
      (∀ a, ¬ InPool t a → t1.heap[a]? = t.heap[a]?) := by
  have hcount : t.object_count ≤ MAX_OBJECTS := by
    by_contra hlt
    obtain ⟨a, o, hP, _, _⟩ := hlive (t.object_count - 1) (by omega)
    have := lt_length_of_getElem? hP
    omega
  obtain ⟨s1, d1, he, hd1, hroots, hrc, hlen, hhlen, hin, hout⟩ :=
    sweepLoop_spec t.objectPool t.object_count 0
      { t with log := t.log ++ [.SWEEP_PHASE_START] } 0 (Nat.le_refl 0) (fun _ _ => rfl)
      (fun j _ h2 => hlive j (by omega)) (fun j h1 k h2 => hdist j (by omega) k h2)
  obtain ⟨pool1, hclear, _⟩ := clearSlots_ok (MAX_OBJECTS - d1) d1 s1.objectPool (by
    rw [hlen]
    simp only
    omega)
  refine ⟨{ s1 with object_count := d1, objectPool := pool1
                    log := s1.log ++ [.SWEEP_PHASE_END d1] }, ?_, hroots, hrc, hhlen, ?_, ?_⟩
  · simp only [sweep, he, hclear]
  · rintro a ⟨j, hj, hP⟩ o hd
    exact hin a ⟨j, Nat.zero_le j, by omega, hP⟩ o hd
  · intro a ha
    exact hout a fun ⟨j, _, hj, hP⟩ => ha ⟨j, by omega, hP⟩

theorem unmark_eq_self {o : object_struct_t} (h0 : o.marked = 0) :
    ({ o with marked := 0 } : object_struct_t) = o := by
  cases o
  simp only at h0
  subst h0
  rfl

/-- A collection on a well-formed state: it returns; a pool object reachable from the roots
is kept exactly as it was; an unreachable pool object is freed; no other cell, and no root,
changes. -/
theorem gcCollect_spec (s : State) (hwf : WellFormed s) :
    ∃ s2, gcCollect s = .ok s2 ∧ s2.roots = s.roots ∧ s2.root_count = s.root_count ∧
      s2.heap.length = s.heap.length ∧
      (∀ a, InPool s a → ∀ o, deref s.heap a = some o →
        (Reachable s a → s2.heap[a]? = some (some o)) ∧
        (¬ Reachable s a → s2.heap[a]? = some none)) ∧
      (∀ a, ¬ InPool s a → s2.heap[a]? = s.heap[a]?) := by
  have hclosed : Closed s.heap := closed_of_edgesInPool hwf.edges
  obtain ⟨s1, he1, hp0⟩ := markAllRoots_spec { s with log := s.log ++ [.GC_COLLECTING] }
    hwf.edges hwf.roots
  have hp : MarkPost (IsRoot s) s s1 := MarkPost.of_log hp0
  have hmr : ∀ a, Marked s1.heap a ↔ Reachable s a := marked_iff_reachable hwf.marks_clear hp
  have hpool : s1.objectPool = s.objectPool := hp.pool
  have hcnt : s1.object_count = s.object_count := hp.count
  have hframe : MarkFrame s.heap s1.heap := hp.frame
  obtain ⟨t1, he2, hroots, hrc, hhlen, hin, hout⟩ := sweep_spec s1
    (by rw [hpool]; exact hwf.pool_size)
    (fun j hj => by
      obtain ⟨a, o, hP, hd⟩ := slotLive_elim (hwf.pool_live j (by omega))
      have hle := ref_count_le_of_closed hclosed hd
      rcases hframe.deref_fwd hd with h1 | h1
      · exact ⟨a, o, by rw [hpool]; exact hP, h1, hle⟩
      · exact ⟨a, _, by rw [hpool]; exact hP, h1, hle⟩)
    (fun j hj k hk => by
      rw [hpool]
      exact hwf.pool_distinct j (by omega) k hk)
  refine ⟨{ t1 with log := t1.log ++ [.GC_DONE] }, by simp only [gcCollect, he1, he2],
    hroots.trans hp.roots, hrc.trans hp.root_count, hhlen.trans hframe.1, ?_, ?_⟩
  · intro a ha o hd
    have h0 : o.marked = 0 := by
      by_contra hne
      exact not_marked_of_marksClear hwf.marks_clear a ⟨o, hd, hne⟩
    have ha1 : InPool s1 a := by
      obtain ⟨j, hj, hP⟩ := ha
      exact ⟨j, by omega, by rw [hpool]; exact hP⟩
    constructor
    · intro hreach
      obtain ⟨o1, hd1, hne1⟩ := (hmr a).mpr hreach
      have hcell := hin a ha1 o1 hd1
      rw [if_pos hne1] at hcell
      rcases hframe.deref_fwd hd with h1 | h1
      · rw [hd1] at h1
        obtain rfl : o1 = o := Option.some.inj h1
        exact absurd h0 hne1
      · rw [hd1] at h1
        obtain rfl := Option.some.inj h1
        rw [hcell]
        exact congrArg (fun x => some (some x)) (unmark_eq_self h0)
    · intro hnreach
      rcases hframe.deref_fwd hd with h1 | h1
      · have hcell := hin a ha1 o h1
        rw [if_neg (by omega)] at hcell
        exact hcell
      · exact absurd ((hmr a).mp ⟨_, h1, by simp⟩) hnreach
  · intro a ha
    have ha1 : ¬ InPool s1 a := by
      rintro ⟨j, hj, hP⟩
      exact ha ⟨j, by omega, by rw [← hpool]; exact hP⟩
    rw [hout a ha1]
    rcases hframe.2 a with hc | ⟨o, _, hc⟩
    · exact hc
    · have hpo := reachable_poolObject hwf.edges hwf.roots
        ((hmr a).mp ⟨_, deref_eq_some.mpr hc, by simp⟩)
      exact absurd (poolObject_iff.mp hpo).1 ha

/-! ## Claims -/

/-- C1. Mark postcondition: on a state in which all mark bits are clear and every edge and
every non-`NULL` root denotes a pool object, `markAllRoots` returns, and afterwards an object
has `marked == 1` if and only if it is reachable from some non-`NULL` entry of
`roots[0..root_count)` through zero or more `refs` edges. -/
theorem markAllRoots_marks_exactly_reachable (s : State) (hclear : MarksClear s)
    (hedges : EdgesInPool s) (hroots : RootsInPool s) :
    ∃ s1, markAllRoots s = .ok s1 ∧
      ∀ a, (∃ o, deref s1.heap a = some o ∧ o.marked = 1) ↔ Reachable s a := by
  obtain ⟨s1, he, hp⟩ := markAllRoots_spec s hedges hroots
  refine ⟨s1, he, fun a => ?_⟩
  rw [← marked_iff_reachable hclear hp a]
  constructor
  · rintro ⟨o, hd, h1⟩
    exact ⟨o, hd, by omega⟩
  · rintro ⟨o, hd, hne⟩
    exact ⟨o, hd, marked_one_of_marksClear hclear hp.frame hd hne⟩

set_option maxRecDepth 100000 in
/-- C1 at the state built by the set-up of `simulateCycleEvent`. -/
theorem markAllRoots_marks_exactly_reachable_witness :
    MarksClear cycleState ∧ EdgesInPool cycleState ∧ RootsInPool cycleState ∧
      ∃ s1, markAllRoots cycleState = .ok s1 ∧
        ∀ a, (∃ o, deref s1.heap a = some o ∧ o.marked = 1) ↔ Reachable cycleState a :=
  ⟨by decide, by decide, by decide,
    markAllRoots_marks_exactly_reachable cycleState (by decide) (by decide) (by decide)⟩


/-- C2. Reachability correctness of a collection: on a well-formed state `gcCollect` returns,
and it frees a pool object if and only if the object is not reachable from any root through
zero or more `refs` edges. -/
theorem gcCollect_frees_exactly_unreachable (s : State) (hwf : WellFormed s) :
    ∃ s2, gcCollect s = .ok s2 ∧
      ∀ a, InPool s a → (s2.heap[a]? = some none ↔ ¬ Reachable s a) := by
  obtain ⟨s2, he, _, _, _, hin, _⟩ := gcCollect_spec s hwf
  refine ⟨s2, he, fun a ha => ?_⟩
  obtain ⟨j, hj, hP⟩ := ha
  obtain ⟨a1, o, hP1, hd⟩ := slotLive_elim (hwf.pool_live j hj)
  rw [hP] at hP1
  obtain rfl : a = a1 := Option.some.inj (Option.some.inj hP1)
  obtain ⟨hkeep, hfree⟩ := hin a ⟨j, hj, hP⟩ o hd
  constructor
  · intro hfreed hreach
    rw [hkeep hreach] at hfreed
    cases hfreed
  · exact hfree

set_option maxRecDepth 100000 in
/-- C2 at the graph `root -> A, A -> B, B -> A`: the state is well-formed, the collection
frees exactly the unreachable pool objects, and neither `A` nor `B` is freed. -/
theorem gcCollect_frees_exactly_unreachable_witness :
    WellFormed rootedCycleState ∧
      ∃ s2, gcCollect rootedCycleState = .ok s2 ∧
        (∀ a, InPool rootedCycleState a → (s2.heap[a]? = some none ↔ ¬ Reachable rootedCycleState a)) ∧
        s2.heap[0]? ≠ some none ∧ s2.heap[1]? ≠ some none := by
  have hwf : WellFormed rootedCycleState :=
    ⟨by decide, by decide, by decide, by decide, by decide, by decide⟩
  obtain ⟨s2, he, h⟩ := gcCollect_frees_exactly_unreachable rootedCycleState hwf
  have hroot : IsRoot rootedCycleState 0 := ⟨0, by decide, by decide⟩
  have hA : Reachable rootedCycleState 0 := ⟨0, hroot, Relation.ReflTransGen.refl⟩
  have hB : Reachable rootedCycleState 1 :=
    ⟨0, hroot, Relation.ReflTransGen.single ⟨_, rfl, 0, by decide, by decide⟩⟩
  exact ⟨hwf, s2, he, h,
    fun hf => (h 0 ⟨0, by decide, by decide⟩).mp hf hA,
    fun hf => (h 1 ⟨1, by decide, by decide⟩).mp hf hB⟩

set_option maxRecDepth 100000 in
/-- C3. Cycle reclamation: from the empty collector, allocate and root the holder, allocate
`x` and `y`, add the edges `x -> y`, `y -> x`, `holder -> x`, `holder -> y`, pop the root
(the root set is then empty) and collect once: `x` and `y`, alive before the collection,
have both been freed. -/
theorem unrooted_cycle_is_collected :
    ∃ s0 s1, cycleSetup emptyCollector = .ok ((some 0, some 1, some 2), s0) ∧
      (popRoot s0).root_count = 0 ∧
      (deref s0.heap 1).isSome = true ∧ (deref s0.heap 2).isSome = true ∧
      edge s0.heap 1 2 ∧ edge s0.heap 2 1 ∧ edge s0.heap 0 1 ∧ edge s0.heap 0 2 ∧
      gcCollect (popRoot s0) = .ok s1 ∧
      s1.heap[1]? = some none ∧ s1.heap[2]? = some none :=
  ⟨_, _, rfl, by decide, by decide, by decide,
    ⟨_, rfl, 0, by decide, by decide⟩, ⟨_, rfl, 0, by decide, by decide⟩,
    ⟨_, rfl, 0, by decide, by decide⟩, ⟨_, rfl, 1, by decide, by decide⟩,
    rfl, by decide, by decide⟩

set_option maxRecDepth 100000 in
/-- C4, the code at the failing input: in the sequence of `simulateCycleEvent` the second
`gcCollect` runs with an empty root set, yet the holder, `x` and `y` (addresses 0, 1, 2) are
all still alive after it, and the pool no longer knows them (`object_count` is 0). -/
theorem second_collection_keeps_unrooted_objects :
    ∃ s, cycleTwoCollections emptyCollector = .ok s ∧ s.root_count = 0 ∧ s.object_count = 0 ∧
      (deref s.heap 0).isSome = true ∧ (deref s.heap 1).isSome = true ∧
      (deref s.heap 2).isSome = true :=
  ⟨_, rfl, by decide, by decide, by decide, by decide, by decide⟩

set_option maxRecDepth 100000 in
/-- C5, the code at the failing input: after the mark phase on the cycle set-up the three
objects are marked; after `sweep` the count is 3 but the slots `objectPool[0..3)` are all
`NULL`, so none of the marked objects is stored in the pool any more. -/
theorem sweep_drops_marked_objects_from_pool :
    ∃ s1 s2, markAllRoots cycleState = .ok s1 ∧
      Marked s1.heap 0 ∧ Marked s1.heap 1 ∧ Marked s1.heap 2 ∧
      s1.objectPool.take 3 = [some 0, some 1, some 2] ∧
      sweep s1 = .ok s2 ∧ s2.object_count = 3 ∧ s2.objectPool.take 3 = [none, none, none] ∧
      (deref s2.heap 0).isSome = true :=
  ⟨_, _, rfl, ⟨_, rfl, by decide⟩, ⟨_, rfl, by decide⟩, ⟨_, rfl, by decide⟩, by decide,
    rfl, by decide, by decide, by decide⟩

set_option maxRecDepth 100000 in
/-- C6, the code at the failing input: after `allocObject`, `pushRoot`, `gcCollect` the count
is 1; a second `gcCollect` frees nothing (the object is still alive), yet the count drops
to 0 instead of staying 1 - 0. -/
theorem second_collection_miscounts :
    ∃ s1 s2, rootedAfterCollect = .ok s1 ∧ s1.object_count = 1 ∧
      gcCollect s1 = .ok s2 ∧
      s2.heap.map Option.isSome = s1.heap.map Option.isSome ∧
      s2.log.filter isFreeEvent = s1.log.filter isFreeEvent ∧
      s2.object_count = 0 :=
  ⟨_, _, rfl, by decide, rfl, by decide, by decide, by decide⟩

set_option maxRecDepth 100000 in
/-- C7, the code at the failing input: after `allocObject`, `pushRoot`, `gcCollect`,
`gcCollect` the rooted object is alive and its mark bit is still 1. -/
theorem second_collection_leaves_mark_set :
    ∃ s1 s2 o, rootedAfterCollect = .ok s1 ∧ gcCollect s1 = .ok s2 ∧
      deref s2.heap 0 = some o ∧ o.marked = 1 :=
  ⟨_, _, _, rfl, rfl, rfl, by decide⟩

/-- Among the objects of the pool a collection leaves no dangling edge: after `gcCollect` on a
well-formed state, for every pool object that was not freed, every entry of its
`refs[0..ref_count)` exists and, unless it is `NULL`, denotes an object that was not freed. -/
theorem gcCollect_no_dangling_edges (s : State) (hwf : WellFormed s) :
    ∃ s2, gcCollect s = .ok s2 ∧
      ∀ a o, InPool s a → deref s2.heap a = some o →
        ∀ i, i < o.ref_count →
          ∃ q, o.refs[i]? = some q ∧ ∀ b, q = some b → (deref s2.heap b).isSome = true := by
  obtain ⟨s2, he, _, _, _, hin, _⟩ := gcCollect_spec s hwf
  refine ⟨s2, he, fun a o ha hd2 i hi => ?_⟩
  obtain ⟨j, hj, hP⟩ := ha
  obtain ⟨a1, o0, hP1, hd⟩ := slotLive_elim (hwf.pool_live j hj)
  rw [hP] at hP1
  obtain rfl : a = a1 := Option.some.inj (Option.some.inj hP1)
  obtain ⟨hkeep, hfree⟩ := hin a ⟨j, hj, hP⟩ o0 hd
  by_cases hreach : Reachable s a
  · have hcell := hkeep hreach
    rw [deref_eq_some, hcell] at hd2
    obtain rfl : o0 = o := Option.some.inj (Option.some.inj hd2)
    obtain ⟨q, hq, _⟩ := closed_of_edgesInPool hwf.edges a o0 hd i hi
    refine ⟨q, hq, ?_⟩
    rintro b rfl
    have hedge : edge s.heap a b := ⟨o0, hd, i, hi, hq⟩
    have hreachb : Reachable s b := by
      obtain ⟨r, hr, hpath⟩ := hreach
      exact ⟨r, hr, hpath.tail hedge⟩
    obtain ⟨hbpool, hblive⟩ := poolObject_iff.mp (edge_target_poolObject hwf.edges hedge)
    obtain ⟨ob, hdb⟩ := Option.isSome_iff_exists.mp hblive
    have hcellb := (hin b hbpool ob hdb).1 hreachb
    rw [deref_eq_some.mpr hcellb]
    rfl
  · have hcell := hfree hreach
    rw [deref_eq_some, hcell] at hd2
    cases hd2

set_option maxRecDepth 100000 in
/-- The pool objects of a state with survivors and garbage have no dangling edge after the
collection. -/
theorem gcCollect_no_dangling_edges_witness :
    WellFormed mixedState ∧
      ∃ s2, gcCollect mixedState = .ok s2 ∧
        ∀ a o, InPool mixedState a → deref s2.heap a = some o →
          ∀ i, i < o.ref_count →
            ∃ q, o.refs[i]? = some q ∧ ∀ b, q = some b → (deref s2.heap b).isSome = true :=
  ⟨⟨by decide, by decide, by decide, by decide, by decide, by decide⟩,
    gcCollect_no_dangling_edges mixedState
      ⟨by decide, by decide, by decide, by decide, by decide, by decide⟩⟩

set_option maxRecDepth 100000 in
/-- C8, the code at the failing input: after `allocObject(h)`, `pushRoot(h)`, `gcCollect`,
`popRoot`, `gcCollect`, `allocObject(x)`, `addRef(h, x)` the state is well-formed and
reachable through the public operations, the holder `h` (address 0) being alive outside the
pool; `gcCollect` then frees `x` (address 1), and the holder, which was not freed, still has
`refs[0] == x` with `ref_count == 1`: an edge to a freed object. -/
theorem gcCollect_leaves_dangling_edge :
    ∃ s s2 o, leakedHolderRun = .ok s ∧ ReachableState s ∧ WellFormed s ∧
      (deref s.heap 0).isSome = true ∧ (deref s.heap 1).isSome = true ∧
      gcCollect s = .ok s2 ∧
      deref s2.heap 0 = some o ∧ o.ref_count = 1 ∧ o.refs[0]? = some (some 1) ∧
      s2.heap[1]? = some none ∧ edge s2.heap 0 1 ∧ (deref s2.heap 1).isSome = false :=
  ⟨_, _, _, rfl,
    ((((((ReachableState.start.alloc (n := "h") (v := "holder") (p := some 0) rfl).push
      (p := some 0) rfl).collect rfl).pop.collect rfl).alloc (n := "x") (v := "obj_x")
      (p := some 1) rfl).add (p := some 0) (q := some 1) rfl),
    ⟨by decide, by decide, by decide, by decide, by decide, by decide⟩,
    by decide, by decide, rfl, rfl, by decide, by decide, by decide,
    ⟨_, rfl, 0, by decide, by decide⟩, by decide⟩

set_option maxRecDepth 100000 in
/-- C9, the code at the failing input: after the calls made by `main` (both simulations and
then `cleanupAll`) `object_count` is 0, but the holder, `x` and `y` allocated by
`simulateCycleEvent` (addresses 2, 3, 4) have never been freed. -/
theorem cleanupAll_misses_survivors :
    ∃ s, mainRun = .ok s ∧ s.object_count = 0 ∧
      (deref s.heap 2).isSome = true ∧ (deref s.heap 3).isSome = true ∧
      (deref s.heap 4).isSome = true ∧
      s.log.filter isFreeEvent = [.FREE 0, .FREE 1] :=
  ⟨_, rfl, by decide, by decide, by decide, by decide, by decide⟩

set_option maxRecDepth 100000 in
/-- C10. End-to-end scenario: from the empty collector `simulateTinyProgram` (allocate `a`,
push it, allocate `a_new`, pop, push `a_new`, pop, collect) returns with exactly the two
allocated objects freed, one `FREE` line for each, and `object_count == 0`. -/
theorem simulateTinyProgram_frees_both :
    ∃ s, simulateTinyProgram emptyCollector = .ok s ∧ s.object_count = 0 ∧
      s.heap = [none, none] ∧ s.log.filter isFreeEvent = [.FREE 0, .FREE 1] ∧
      s.log.getLast? = some .GC_DONE :=
  ⟨_, rfl, by decide, by decide, by decide, by decide⟩

/-! ## Marking runs that return, on arbitrary states -/

theorem MarkOnly.same (s : State) : MarkOnly s s :=
  ⟨rfl, rfl, rfl, rfl, MarkFrame.refl _⟩

theorem MarkOnly.chain {s s1 s2 : State} (h1 : MarkOnly s s1) (h2 : MarkOnly s1 s2) :
    MarkOnly s s2 :=
  ⟨h2.pool.trans h1.pool, h2.count.trans h1.count, h2.roots.trans h1.roots,
    h2.root_count.trans h1.root_count, h1.frame.comp h2.frame⟩

theorem markSlots_only (m : State → Ptr → Except Fault State) (arr : List Ptr)
    (hm : ∀ t b t1, m t (some b) = .ok t1 → MarkOnly t t1 ∧ Marked t1.heap b)
    (n i : Nat) (s s1 : State) (h : forRange (markSlot m arr) i n s = .ok s1) :
    MarkOnly s s1 ∧
      ∀ j, i ≤ j → j < i + n → ∃ q, arr[j]? = some q ∧ nullOrMarked s1.heap q := by
  induction n generalizing i s with
  | zero =>
    simp only [forRange, Except.ok.injEq] at h
    subst h
    exact ⟨MarkOnly.same s, fun j h1 h2 => by omega⟩
  | succ n ih =>
    simp only [forRange] at h
    split at h
    · next t hbody =>
      obtain ⟨hst, hslots⟩ := ih (i + 1) t h
      have hfirst : MarkOnly s t ∧ ∃ q, arr[i]? = some q ∧ nullOrMarked t.heap q := by
        unfold markSlot at hbody
        split at hbody
        · cases hbody
        · next heq =>
          simp only [Except.ok.injEq] at hbody
          subst hbody
          exact ⟨MarkOnly.same s, none, heq, fun b hb => by cases hb⟩
        · next b heq =>
          obtain ⟨h1, h2⟩ := hm s b t hbody
          exact ⟨h1, some b, heq, fun c hc => by cases hc; exact h2⟩
      obtain ⟨hs, q, hq, hqm⟩ := hfirst
      refine ⟨hs.chain hst, fun j h1 h2 => ?_⟩
      rcases Nat.eq_or_lt_of_le h1 with rfl | hlt
      · exact ⟨q, hq, fun b hb => hst.frame.marked (hqm b hb)⟩
      · exact hslots j hlt (by omega)
    · cases h

theorem markAux_only (fuel : Nat) (s : State) (p : Ptr) (s1 : State)
    (h : markAux fuel s p = .ok s1) : MarkOnly s s1 ∧ nullOrMarked s1.heap p := by
  induction fuel generalizing s p s1 with
  | zero => simp [markAux] at h
  | succ fuel ih =>
    cases p with
    | none =>
      simp only [markAux, Except.ok.injEq] at h
      subst h
      exact ⟨MarkOnly.same s, fun b hb => by cases hb⟩
    | some a =>
      simp only [markAux] at h
      split at h
      · cases h
      · next o hd =>
        split at h
        · next hmk =>
          simp only [Except.ok.injEq] at h
          subst h
          exact ⟨MarkOnly.same s, fun b hb => by cases hb; exact ⟨o, hd, hmk⟩⟩
        · obtain ⟨hst, _⟩ := markSlots_only (markAux fuel) o.refs
            (fun t b t1 ht => ⟨(ih t (some b) t1 ht).1, (ih t (some b) t1 ht).2 b rfl⟩)
            o.ref_count 0 _ s1 h
          have hf1 : MarkFrame s.heap (s.heap.set a (some { o with marked := 1 })) :=
            MarkFrame.set_mark hd
          refine ⟨⟨hst.pool, hst.count, hst.roots, hst.root_count, hf1.comp hst.frame⟩, ?_⟩
          intro b hb
          cases hb
          exact hst.frame.marked ⟨_, deref_set_self (deref_lt hd) _, by simp⟩

theorem mark_marked_eq (s : State) (b : Nat) (hm : Marked s.heap b) :
    mark s (some b) = .ok s := by
  obtain ⟨o, hd, hne⟩ := hm
  simp [mark, markAux, hd, hne]

theorem markSlots_idle (arr : List Ptr) (n i : Nat) (s : State)
    (h : ∀ j, i ≤ j → j < i + n → ∃ q, arr[j]? = some q ∧ nullOrMarked s.heap q) :
    forRange (markSlot mark arr) i n s = .ok s := by
  induction n generalizing i with
  | zero => rfl
  | succ n ih =>
    obtain ⟨q, hq, hqm⟩ := h i (Nat.le_refl i) (by omega)
    have hbody : markSlot mark arr s i = .ok s := by
      cases q with
      | none => simp [markSlot, hq]
      | some b => simp [markSlot, hq, mark_marked_eq s b (hqm b rfl)]
    simp only [forRange, hbody]
    exact ih (i + 1) fun j h1 h2 => h j (by omega) (by omega)

/-- A mark phase that returns leaves everything but mark bits and the log as it was, and
leaves every non-`NULL` root marked. -/
theorem markAllRoots_only (s s1 : State) (h : markAllRoots s = .ok s1) :
    MarkOnly s s1 ∧
      ∀ j, j < s.root_count → ∃ q, s.roots[j]? = some q ∧ nullOrMarked s1.heap q := by
  simp only [markAllRoots, markSlots] at h
  split at h
  · cases h
  · next t ht =>
    simp only [Except.ok.injEq] at h
    subst h
    obtain ⟨hst, hslots⟩ := markSlots_only mark s.roots
      (fun t b t1 h1 => ⟨(markAux_only _ t (some b) t1 h1).1,
        (markAux_only _ t (some b) t1 h1).2 b rfl⟩)
      s.root_count 0 _ t ht
    exact ⟨⟨hst.pool, hst.count, hst.roots, hst.root_count, hst.frame⟩,
      fun j hj => hslots j (Nat.zero_le j) (by omega)⟩

/-- C11. Idempotent marking: when `markAllRoots` has returned, running it again at once
returns too, marks nothing (the marked set is the same) and leaves the whole state as the
first run left it; only the two phase lines are added to the log. -/
theorem markAllRoots_idempotent (s s1 : State) (h : markAllRoots s = .ok s1) :
    ∃ s2, markAllRoots s1 = .ok s2 ∧
      s2 = { s1 with log := s1.log ++ [.MARK_PHASE_START, .MARK_PHASE_END] } ∧
      ∀ a, Marked s2.heap a ↔ Marked s1.heap a := by
  obtain ⟨hst, hslots⟩ := markAllRoots_only s s1 h
  have hidle := markSlots_idle s1.roots s1.root_count 0
    { s1 with log := s1.log ++ [.MARK_PHASE_START] }
    (fun j _ h2 => by
      rw [hst.roots]
      exact hslots j (by rw [← hst.root_count]; omega))
  refine ⟨_, ?_, rfl, fun a => Iff.rfl⟩
  simp only [markAllRoots, markSlots, hidle, List.append_assoc, List.singleton_append]

set_option maxRecDepth 100000 in
/-- C11 at the state built by the set-up of `simulateCycleEvent`. -/
theorem markAllRoots_idempotent_witness :
    ∃ s1, markAllRoots cycleState = .ok s1 ∧
      ∃ s2, markAllRoots s1 = .ok s2 ∧
        s2 = { s1 with log := s1.log ++ [.MARK_PHASE_START, .MARK_PHASE_END] } ∧
        ∀ a, Marked s2.heap a ↔ Marked s1.heap a :=
  ⟨_, rfl, markAllRoots_idempotent cycleState _ rfl⟩

/-! ## Array sizes and counters in reachable states -/

theorem forRange_inv {σ : Type} (body : σ → Nat → Except Fault σ) (P : Nat → σ → Prop)
    (hstep : ∀ i s s1, P i s → body s i = .ok s1 → P (i + 1) s1)
    (n i : Nat) (s s1 : σ) (h0 : P i s) (h : forRange body i n s = .ok s1) : P (i + n) s1 := by
  induction n generalizing i s with
  | zero =>
    simp only [forRange, Except.ok.injEq] at h
    subst h
    exact h0
  | succ n ih =>
    simp only [forRange] at h
    split at h
    · next t hbody =>
      have := ih (i + 1) t (hstep i s t h0 hbody) h
      rwa [Nat.add_assoc, Nat.add_comm 1 n] at this
    · cases h

theorem writeAt_ok {arr arr1 : List Ptr} {i : Nat} {v : Ptr} (h : writeAt arr i v = .ok arr1) :
    i < arr.length ∧ arr1 = arr.set i v := by
  unfold writeAt at h
  split at h
  · next hlt => exact ⟨hlt, (Except.ok.inj h).symm⟩
  · cases h

theorem HeapShaped.set_cell {h : Heap} (hs : HeapShaped h) (a : Nat)
    (c : Option object_struct_t)
    (hc : ∀ o, c = some o →
      o.refs.length = MAX_REFS_PER_OBJECT ∧ o.ref_count ≤ MAX_REFS_PER_OBJECT) :
    HeapShaped (h.set a c) := by
  intro b o hd
  by_cases hab : a = b
  · subst hab
    have hlt : a < h.length := by
      have := deref_lt hd
      simpa using this
    rw [deref_set_self hlt] at hd
    exact hc o hd
  · rw [deref_set_ne hab] at hd
    exact hs b o hd

theorem HeapShaped.of_frame {h h1 : Heap} (hs : HeapShaped h) (hf : MarkFrame h h1) :
    HeapShaped h1 := by
  intro b o1 hd1
  rcases hf.deref_bwd hd1 with ⟨o, hd, rfl | rfl⟩
  · exact hs b _ hd
  · exact hs b o hd

theorem deref_append_cell (h : Heap) (c : Option object_struct_t) (b : Nat) :
    deref (h ++ [c]) b = if b < h.length then deref h b else if b = h.length then c else none := by
  by_cases h1 : b < h.length
  · rw [if_pos h1]
    exact deref_of_cell_eq (List.getElem?_append_left h1)
  · rw [if_neg h1]
    by_cases h2 : b = h.length
    · subst h2
      rw [if_pos rfl]
      unfold deref
      rw [List.getElem?_append_right (Nat.le_refl _)]
      simp only [Nat.sub_self, List.getElem?_cons_zero]
      cases c <;> rfl
    · rw [if_neg h2]
      unfold deref
      rw [List.getElem?_eq_none (by simp only [List.length_append, List.length_singleton]; omega)]

theorem Shaped.start : Shaped emptyCollector :=
  { pool_size := by simp [emptyCollector]
    count_le := by simp [emptyCollector]
    roots_size := by simp [emptyCollector]
    root_count_le := by simp [emptyCollector]
    heap := fun a o hd => by simp [emptyCollector, deref] at hd }

theorem Shaped.allocObject {s s1 : State} {name value : String} {p : Ptr} (hs : Shaped s)
    (h : allocObject s name value = .ok (p, s1)) : Shaped s1 := by
  unfold MarkSweep.allocObject at h
  split at h
  · cases h
  · next hlt =>
    dsimp only at h
    split at h
    · cases h
    · next pool hw =>
      obtain ⟨_, rfl⟩ := writeAt_ok hw
      simp only [Except.ok.injEq, Prod.mk.injEq] at h
      obtain ⟨_, rfl⟩ := h
      refine ⟨by simpa using hs.pool_size, by simp only; omega, hs.roots_size,
        hs.root_count_le, ?_⟩
      intro b o hd
      simp only at hd
      rw [deref_append_cell] at hd
      split at hd
      · exact hs.heap b o hd
      · split at hd
        · cases hd
          simp [MAX_REFS_PER_OBJECT]
        · cases hd

theorem Shaped.addRef {s s1 : State} {p q : Ptr} (hs : Shaped s)
    (h : addRef s p q = .ok s1) : Shaped s1 := by
  unfold MarkSweep.addRef at h
  split at h
  · next f t =>
    split at h
    · cases h
    · next fo hd =>
      split at h
      · cases h
        exact hs
      · next hlt =>
        split at h
        · cases h
        · next refs hw =>
          obtain ⟨_, rfl⟩ := writeAt_ok hw
          split at h
          · cases h
          · cases h
            refine ⟨hs.pool_size, hs.count_le, hs.roots_size, hs.root_count_le, ?_⟩
            refine hs.heap.set_cell f _ ?_
            intro o ho
            cases ho
            have := hs.heap f fo hd
            simp only [List.length_set]
            omega
  · cases h
    exact hs

theorem shiftRefs_length {refs refs1 : List Ptr} {i n : Nat}
    (h : shiftRefs refs i n = .ok refs1) : refs1.length = refs.length := by
  have := forRange_inv (fun (r : List Ptr) j =>
      match r[j + 1]? with
      | none => Except.error Fault.outOfBounds
      | some q => writeAt r j q)
    (fun _ r => r.length = refs.length)
    (fun j r r1 hr hbody => by
      dsimp only at hbody hr ⊢
      split at hbody
      · cases hbody
      · obtain ⟨_, rfl⟩ := writeAt_ok hbody
        simpa using hr)
    n i refs refs1 rfl h
  exact this

theorem Shaped.removeRef {s s1 : State} {p q : Ptr} (hs : Shaped s)
    (h : removeRef s p q = .ok s1) : Shaped s1 := by
  unfold MarkSweep.removeRef at h
  split at h
  · next f t =>
    split at h
    · cases h
    · next fo hd =>
      split at h
      · cases h
      · next i hfind =>
        split at h
        · cases h
          exact hs
        · split at h
          · cases h
          · next refs1 hshift =>
            split at h
            · cases h
            · next refs2 hw =>
              obtain ⟨_, rfl⟩ := writeAt_ok hw
              split at h
              · cases h
              · cases h
                refine ⟨hs.pool_size, hs.count_le, hs.roots_size, hs.root_count_le, ?_⟩
                refine hs.heap.set_cell f _ ?_
                intro o ho
                cases ho
                have := hs.heap f fo hd
                simp only [List.length_set, shiftRefs_length hshift]
                omega
  · cases h
    exact hs

theorem Shaped.pushRoot {s s1 : State} {p : Ptr} (hs : Shaped s)
    (h : pushRoot s p = .ok s1) : Shaped s1 := by
  unfold MarkSweep.pushRoot at h
  split at h
  · cases h
  · next hlt =>
    split at h
    · cases h
    · next roots hw =>
      obtain ⟨_, rfl⟩ := writeAt_ok hw
      have hgoal : Shaped { s with roots := s.roots.set s.root_count p
                                   root_count := s.root_count + 1
                                   log := s.log ++ [.PUSH_ROOT p] } :=
        ⟨hs.pool_size, hs.count_le, by simpa using hs.roots_size, by simp only; omega, hs.heap⟩
      dsimp only at h
      split at h
      · cases h
        exact hgoal
      · split at h
        · cases h
        · cases h
          exact hgoal

theorem Shaped.popRoot {s : State} (hs : Shaped s) : Shaped (popRoot s) := by
  unfold MarkSweep.popRoot
  split
  · exact hs
  · exact ⟨hs.pool_size, hs.count_le, hs.roots_size,
      Nat.le_trans (Nat.sub_le _ _) hs.root_count_le, hs.heap⟩

theorem freeObject_ok {s s1 : State} {a : Nat} (h : freeObject s (some a) = .ok s1) :
    s1 = { s with heap := s.heap.set a none, log := s.log ++ [.FREE a] } := by
  simp only [freeObject] at h
  split at h
  · cases h
  · split at h
    · cases h
      rfl
    · cases h

theorem sweepStep_shaped (i : Nat) (sd sd1 : State × Nat)
    (hP : sd.1.objectPool.length = MAX_OBJECTS ∧ sd.2 ≤ i ∧ sd.1.roots.length = MAX_OBJECTS ∧
      sd.1.root_count ≤ MAX_ROOTS ∧ HeapShaped sd.1.heap)
    (h : sweepStep sd i = .ok sd1) :
    sd1.1.objectPool.length = MAX_OBJECTS ∧ sd1.2 ≤ i + 1 ∧
      sd1.1.roots.length = MAX_OBJECTS ∧ sd1.1.root_count ≤ MAX_ROOTS ∧
      HeapShaped sd1.1.heap := by
  obtain ⟨h1, h2, h3, h4, h5⟩ := hP
  unfold sweepStep at h
  split at h
  · cases h
  · cases h
    exact ⟨h1, by omega, h3, h4, h5⟩
  · next a _ =>
    split at h
    · cases h
    · next o hd =>
      split at h
      · split at h
        · cases h
        · next pool hw =>
          obtain ⟨_, rfl⟩ := writeAt_ok hw
          cases h
          refine ⟨by simpa using h1, by simp only; omega, h3, h4, ?_⟩
          refine h5.set_cell a _ ?_
          intro o1 ho1
          cases ho1
          exact h5 a o hd
      · split at h
        · cases h
        · next s1 hfree =>
          cases h
          rw [freeObject_ok hfree]
          exact ⟨h1, by simp only; omega, h3, h4,
            h5.set_cell a none (fun o1 ho1 => by cases ho1)⟩

theorem clearSlots_length {pool pool1 : List Ptr} {i n : Nat}
    (h : clearSlots pool i n = .ok pool1) : pool1.length = pool.length := by
  have := forRange_inv (fun (p : List Ptr) j => writeAt p j none)
    (fun _ r => r.length = pool.length)
    (fun j r r1 hr hbody => by
      obtain ⟨_, rfl⟩ := writeAt_ok hbody
      simpa using hr)
    n i pool pool1 rfl h
  exact this

theorem Shaped.sweep {s s1 : State} (hs : Shaped s) (h : sweep s = .ok s1) : Shaped s1 := by
  unfold MarkSweep.sweep at h
  split at h
  · cases h
  · next t d hloop =>
    have hinv := forRange_inv sweepStep
      (fun i sd => sd.1.objectPool.length = MAX_OBJECTS ∧ sd.2 ≤ i ∧
        sd.1.roots.length = MAX_OBJECTS ∧ sd.1.root_count ≤ MAX_ROOTS ∧ HeapShaped sd.1.heap)
      (fun i sd sd1 hP hbody => sweepStep_shaped i sd sd1 hP hbody)
      s.object_count 0 _ (t, d)
      ⟨hs.pool_size, Nat.le_refl 0, hs.roots_size, hs.root_count_le, hs.heap⟩ hloop
    obtain ⟨h1, h2, h3, h4, h5⟩ := hinv
    split at h
    · cases h
    · next pool hclear =>
      cases h
      have := hs.count_le
      exact ⟨by rw [clearSlots_length hclear]; exact h1, by simp only at h2 ⊢; omega, h3, h4, h5⟩

theorem Shaped.of_markOnly {s s1 : State} (hs : Shaped s) (h : MarkOnly s s1) : Shaped s1 :=
  ⟨by rw [h.pool]; exact hs.pool_size, by rw [h.count]; exact hs.count_le,
    by rw [h.roots]; exact hs.roots_size, by rw [h.root_count]; exact hs.root_count_le,
    hs.heap.of_frame h.frame⟩

theorem Shaped.gcCollect {s s1 : State} (hs : Shaped s) (h : gcCollect s = .ok s1) :
    Shaped s1 := by
  unfold MarkSweep.gcCollect at h
  split at h
  · cases h
  · next t hmark =>
    split at h
    · cases h
    · next t1 hsweep =>
      cases h
      have h0 : Shaped { s with log := s.log ++ [.GC_COLLECTING] } :=
        ⟨hs.pool_size, hs.count_le, hs.roots_size, hs.root_count_le, hs.heap⟩
      have h1 := (h0.of_markOnly (markAllRoots_only _ t hmark).1).sweep hsweep
      exact ⟨h1.pool_size, h1.count_le, h1.roots_size, h1.root_count_le, h1.heap⟩

theorem cleanupStep_shaped (i : Nat) (s s1 : State) (hs : Shaped s)
    (h : cleanupStep s i = .ok s1) : Shaped s1 := by
  unfold cleanupStep at h
  split at h
  · cases h
  · cases h
    exact hs
  · next a _ =>
    split at h
    · cases h
    · next t hfree =>
      split at h
      · cases h
      · next pool hw =>
        obtain ⟨_, rfl⟩ := writeAt_ok hw
        cases h
        rw [freeObject_ok hfree]
        exact ⟨by simpa using hs.pool_size, hs.count_le, hs.roots_size, hs.root_count_le,
          hs.heap.set_cell a none (fun o1 ho1 => by cases ho1)⟩

theorem Shaped.cleanupAll {s s1 : State} (hs : Shaped s) (h : cleanupAll s = .ok s1) :
    Shaped s1 := by
  unfold MarkSweep.cleanupAll at h
  split at h
  · cases h
  · next t hloop =>
    cases h
    have h1 := forRange_inv cleanupStep (fun _ t => Shaped t)
      (fun i t t1 hP hbody => cleanupStep_shaped i t t1 hP hbody) s.object_count 0 s t hs hloop
    exact ⟨h1.pool_size, Nat.zero_le _, h1.roots_size, h1.root_count_le, h1.heap⟩

/-- In every reachable state the arrays have their declared sizes and the counters are within
the bounds the program checks. -/
theorem ReachableState.shaped {s : State} (h : ReachableState s) : Shaped s := by
  induction h with
  | start => exact Shaped.start
  | alloc _ hop ih => exact ih.allocObject hop
  | add _ hop ih => exact ih.addRef hop
  | remove _ hop ih => exact ih.removeRef hop
  | push _ hop ih => exact ih.pushRoot hop
  | pop _ ih => exact ih.popRoot
  | collect _ hop ih => exact ih.gcCollect hop
  | cleanup _ hop ih => exact ih.cleanupAll hop

/-! ## Claims on capacity, allocation and the reference graph -/

/-- The result of `allocObject` when the pool is not full and `objectPool` has room at index
`object_count`. -/
theorem allocObject_eq (s : State) (name value : String)
    (hfull : ¬ s.object_count ≥ MAX_OBJECTS) (hw : s.object_count < s.objectPool.length) :
    allocObject s name value = .ok (some s.heap.length,
      { s with heap := s.heap ++ [some { marked := 0, name := name, value := value,
                                         refs := List.replicate MAX_REFS_PER_OBJECT none,
                                         ref_count := 0 }]
               objectPool := s.objectPool.set s.object_count (some s.heap.length)
               object_count := s.object_count + 1
               log := s.log ++ [.ALLOC s.heap.length] }) := by
  simp only [allocObject, hfull, writeAt, hw, if_true, if_false]

/-- C12. Capacity invariant: in every reachable state `object_count <= MAX_OBJECTS`, which
is 128, and `allocObject` takes the "Object pool full" exit, creating nothing, if and only
if `object_count >= MAX_OBJECTS`; otherwise it returns. -/
theorem capacity_invariant (s : State) (hs : ReachableState s) :
    MAX_OBJECTS = 128 ∧ s.object_count ≤ MAX_OBJECTS ∧
      ∀ name value,
        (allocObject s name value = .error .poolFull ↔ s.object_count ≥ MAX_OBJECTS) ∧
        (s.object_count < MAX_OBJECTS → ∃ p s1, allocObject s name value = .ok (p, s1)) := by
  have hsh := hs.shaped
  refine ⟨rfl, hsh.count_le, fun name value => ?_⟩
  by_cases hfull : s.object_count ≥ MAX_OBJECTS
  · refine ⟨⟨fun _ => hfull, fun _ => by simp [allocObject, hfull]⟩, fun hlt => by omega⟩
  · have hw : s.object_count < s.objectPool.length := by
      rw [hsh.pool_size]
      omega
    have hrun : ∃ p s1, allocObject s name value = .ok (p, s1) :=
      ⟨_, _, allocObject_eq s name value hfull hw⟩
    refine ⟨⟨fun he => ?_, fun hge => absurd hge hfull⟩, fun _ => hrun⟩
    obtain ⟨p, s1, hok⟩ := hrun
    rw [hok] at he
    cases he

set_option maxRecDepth 100000 in
/-- C12 at the state reached by one `allocObject`. -/
theorem capacity_invariant_witness :
    ReachableState oneObjectState ∧ MAX_OBJECTS = 128 ∧
      oneObjectState.object_count ≤ MAX_OBJECTS ∧
      ∀ name value,
        (allocObject oneObjectState name value = .error .poolFull ↔
          oneObjectState.object_count ≥ MAX_OBJECTS) ∧
        (oneObjectState.object_count < MAX_OBJECTS →
          ∃ p s1, allocObject oneObjectState name value = .ok (p, s1)) :=
  have hr : ReachableState oneObjectState :=
    ReachableState.alloc (n := "a") (v := "5") (p := some 0) ReachableState.start rfl
  ⟨hr, capacity_invariant oneObjectState hr⟩

/-- C13. Postcondition of `allocObject`: when `object_count < MAX_OBJECTS` (and `objectPool`
has its declared size) the call returns the address of a fresh object, different from every
existing one, with `marked == 0`, `ref_count == 0`, all `refs` entries `NULL` and the given
name and value; it stores the address in `objectPool[old object_count]`, increments
`object_count`, and leaves every other object, every other pool slot and the root set
unchanged. -/
theorem allocObject_postcondition (s : State) (name value : String)
    (hcount : s.object_count < MAX_OBJECTS) (hsize : s.objectPool.length = MAX_OBJECTS) :
    ∃ a s1, allocObject s name value = .ok (some a, s1) ∧
      deref s.heap a = none ∧ (∀ b o, deref s.heap b = some o → b ≠ a) ∧
      deref s1.heap a = some
        { marked := 0, name := name, value := value,
          refs := List.replicate MAX_REFS_PER_OBJECT none, ref_count := 0 } ∧
      s1.objectPool[s.object_count]? = some (some a) ∧
      s1.object_count = s.object_count + 1 ∧
      (∀ b, b ≠ a → s1.heap[b]? = s.heap[b]?) ∧
      (∀ j, j ≠ s.object_count → s1.objectPool[j]? = s.objectPool[j]?) ∧
      s1.roots = s.roots ∧ s1.root_count = s.root_count := by
  have hw : s.object_count < s.objectPool.length := by
    rw [hsize]
    exact hcount
  have hfull : ¬ s.object_count ≥ MAX_OBJECTS := by omega
  have hnone : deref s.heap s.heap.length = none := by
    unfold deref
    rw [List.getElem?_eq_none (Nat.le_refl _)]
  refine ⟨s.heap.length, _, allocObject_eq s name value hfull hw,
    hnone, ?_, ?_, ?_, rfl, ?_, ?_, rfl, rfl⟩
  · intro b o hd hb
    rw [hb, hnone] at hd
    cases hd
  · simp only [deref_append_cell, Nat.lt_irrefl, if_false, if_true]
  · exact List.getElem?_set_self hw
  · intro b hb
    simp only
    by_cases hlt : b < s.heap.length
    · exact List.getElem?_append_left hlt
    · rw [List.getElem?_eq_none (by simp only [List.length_append, List.length_singleton]; omega),
        List.getElem?_eq_none (by omega)]
  · intro j hj
    exact List.getElem?_set_ne (Ne.symm hj)

set_option maxRecDepth 100000 in
/-- C13 at the state reached by one `allocObject`, for a second object. -/
theorem allocObject_postcondition_witness :
    oneObjectState.object_count < MAX_OBJECTS ∧
      oneObjectState.objectPool.length = MAX_OBJECTS ∧
      ∃ a s1, allocObject oneObjectState "a" "6" = .ok (some a, s1) ∧
        deref oneObjectState.heap a = none ∧
        (∀ b o, deref oneObjectState.heap b = some o → b ≠ a) ∧
        deref s1.heap a = some
          { marked := 0, name := "a", value := "6",
            refs := List.replicate MAX_REFS_PER_OBJECT none, ref_count := 0 } ∧
        s1.objectPool[oneObjectState.object_count]? = some (some a) ∧
        s1.object_count = oneObjectState.object_count + 1 ∧
        (∀ b, b ≠ a → s1.heap[b]? = oneObjectState.heap[b]?) ∧
        (∀ j, j ≠ oneObjectState.object_count →
          s1.objectPool[j]? = oneObjectState.objectPool[j]?) ∧
        s1.roots = oneObjectState.roots ∧ s1.root_count = oneObjectState.root_count :=
  ⟨by decide, by decide,
    allocObject_postcondition oneObjectState "a" "6" (by decide) (by decide)⟩

/-- One call `addRef(from, to)` on a live object `from` that is not full, with the `refs`
array of the declared size and `to` alive: the pointer is stored in `refs[old ref_count]`,
`ref_count` grows by one, and nothing else changes but the log. -/
theorem addRef_appends (s : State) (f t : Nat) (fo : object_struct_t)
    (hd : deref s.heap f = some fo) (hlen : fo.refs.length = MAX_REFS_PER_OBJECT)
    (hrc : fo.ref_count < MAX_REFS_PER_OBJECT) (ht : (deref s.heap t).isSome = true) :
    addRef s (some f) (some t) = .ok
      { s with heap := s.heap.set f
                 (some { fo with refs := fo.refs.set fo.ref_count (some t)
                                 ref_count := fo.ref_count + 1 })
               log := s.log ++ [.ADD_REF f t] } := by
  obtain ⟨ot, hot⟩ := Option.isSome_iff_exists.mp ht
  have h1 : ¬ fo.ref_count ≥ MAX_REFS_PER_OBJECT := by omega
  have h2 : fo.ref_count < fo.refs.length := by omega
  simp only [addRef, hd, h1, writeAt, h2, hot, if_true, if_false]

/-- C14. Out-degree limit: in every reachable state every object has
`ref_count <= MAX_REFS_PER_OBJECT`, which is 8; `addRef(from, to)` on an object with
`ref_count == MAX_REFS_PER_OBJECT` returns leaving the whole state unchanged; on any other
live object, with `to` alive, it stores `to` in `refs[old ref_count]`, increments
`ref_count` and changes no other entry, no other object, and neither the pool nor the
roots. -/
theorem addRef_out_degree_limit (s : State) (hs : ReachableState s) :
    MAX_REFS_PER_OBJECT = 8 ∧
      (∀ a o, deref s.heap a = some o → o.ref_count ≤ MAX_REFS_PER_OBJECT) ∧
      ∀ f t fo, deref s.heap f = some fo →
        (fo.ref_count = MAX_REFS_PER_OBJECT → addRef s (some f) (some t) = .ok s) ∧
        (fo.ref_count ≠ MAX_REFS_PER_OBJECT → (deref s.heap t).isSome = true →
          ∃ s1 fo1, addRef s (some f) (some t) = .ok s1 ∧ deref s1.heap f = some fo1 ∧
            fo1.ref_count = fo.ref_count + 1 ∧
            fo1.refs[fo.ref_count]? = some (some t) ∧
            (∀ i, i ≠ fo.ref_count → fo1.refs[i]? = fo.refs[i]?) ∧
            (∀ b, b ≠ f → s1.heap[b]? = s.heap[b]?) ∧
            s1.objectPool = s.objectPool ∧ s1.object_count = s.object_count ∧
            s1.roots = s.roots ∧ s1.root_count = s.root_count) := by
  have hsh := hs.shaped
  refine ⟨rfl, fun a o hd => (hsh.heap a o hd).2, fun f t fo hd => ⟨fun hfull => ?_, ?_⟩⟩
  · have : fo.ref_count ≥ MAX_REFS_PER_OBJECT := by omega
    simp only [addRef, hd, this, if_true]
  · intro hne ht
    obtain ⟨hlen, hle⟩ := hsh.heap f fo hd
    have hlt : fo.ref_count < MAX_REFS_PER_OBJECT := by omega
    refine ⟨_, _, addRef_appends s f t fo hd hlen hlt ht,
      deref_set_self (deref_lt hd) _, rfl, ?_, ?_, ?_, rfl, rfl, rfl, rfl⟩
    · exact List.getElem?_set_self (by omega)
    · intro i hi
      exact List.getElem?_set_ne (Ne.symm hi)
    · intro b hb
      exact List.getElem?_set_ne (Ne.symm hb)

set_option maxRecDepth 100000 in
/-- C14 at the state built by the set-up of `simulateCycleEvent`. -/
theorem addRef_out_degree_limit_witness :
    ReachableState cycleState ∧ (deref cycleState.heap 0).isSome = true ∧
      MAX_REFS_PER_OBJECT = 8 ∧
      (∀ a o, deref cycleState.heap a = some o → o.ref_count ≤ MAX_REFS_PER_OBJECT) ∧
      ∀ f t fo, deref cycleState.heap f = some fo →
        (fo.ref_count = MAX_REFS_PER_OBJECT → addRef cycleState (some f) (some t) = .ok cycleState) ∧
        (fo.ref_count ≠ MAX_REFS_PER_OBJECT → (deref cycleState.heap t).isSome = true →
          ∃ s1 fo1, addRef cycleState (some f) (some t) = .ok s1 ∧ deref s1.heap f = some fo1 ∧
            fo1.ref_count = fo.ref_count + 1 ∧
            fo1.refs[fo.ref_count]? = some (some t) ∧
            (∀ i, i ≠ fo.ref_count → fo1.refs[i]? = fo.refs[i]?) ∧
            (∀ b, b ≠ f → s1.heap[b]? = cycleState.heap[b]?) ∧
            s1.objectPool = cycleState.objectPool ∧ s1.object_count = cycleState.object_count ∧
            s1.roots = cycleState.roots ∧ s1.root_count = cycleState.root_count) :=
  have hr : ReachableState cycleState :=
    ((((((((ReachableState.start.alloc (n := "root_holder") (v := "holder")
      (p := some 0) rfl).push (p := some 0) rfl).alloc (n := "x") (v := "obj_x")
      (p := some 1) rfl).alloc (n := "y") (v := "obj_y") (p := some 2) rfl).add
      (p := some 1) (q := some 2) rfl).add (p := some 2) (q := some 1) rfl).add
      (p := some 0) (q := some 1) rfl).add (p := some 0) (q := some 2) rfl)
  ⟨hr, by decide, addRef_out_degree_limit cycleState hr⟩

/-- One accepted `addRef`, seen from the object `from`. -/
theorem addRef_step (s : State) (f t : Nat) (fo : object_struct_t)
    (hd : deref s.heap f = some fo) (hlen : fo.refs.length = MAX_REFS_PER_OBJECT)
    (hrc : fo.ref_count < MAX_REFS_PER_OBJECT) (ht : (deref s.heap t).isSome = true) :
    ∃ s1 fo1, addRef s (some f) (some t) = .ok s1 ∧ deref s1.heap f = some fo1 ∧
      fo1.refs.length = MAX_REFS_PER_OBJECT ∧ fo1.ref_count = fo.ref_count + 1 ∧
      fo1.refs[fo.ref_count]? = some (some t) ∧
      (∀ i, i ≠ fo.ref_count → fo1.refs[i]? = fo.refs[i]?) ∧
      (deref s1.heap t).isSome = true := by
  refine ⟨_, _, addRef_appends s f t fo hd hlen hrc ht, deref_set_self (deref_lt hd) _,
    by simpa using hlen, rfl, List.getElem?_set_self (by omega),
    fun i hi => List.getElem?_set_ne (Ne.symm hi), ?_⟩
  by_cases hft : f = t
  · subst hft
    simp only
    rw [deref_set_self (deref_lt hd)]
    rfl
  · simp only
    rw [deref_set_ne hft]
    exact ht

theorem addRefN_spec (k : Nat) (s : State) (f t : Nat) (fo : object_struct_t)
    (hd : deref s.heap f = some fo) (hlen : fo.refs.length = MAX_REFS_PER_OBJECT)
    (hk : fo.ref_count + k ≤ MAX_REFS_PER_OBJECT) (ht : (deref s.heap t).isSome = true) :
    ∃ sk fok, addRefN k s (some f) (some t) = .ok sk ∧ deref sk.heap f = some fok ∧
      fok.ref_count = fo.ref_count + k ∧
      (∀ i, fo.ref_count ≤ i → i < fo.ref_count + k → fok.refs[i]? = some (some t)) ∧
      (∀ i, i < fo.ref_count → fok.refs[i]? = fo.refs[i]?) := by
  induction k generalizing s fo with
  | zero => exact ⟨s, fo, rfl, hd, rfl, fun i h1 h2 => by omega, fun _ _ => rfl⟩
  | succ k ih =>
    obtain ⟨s1, fo1, he, hd1, hlen1, hrc1, hnew, hold, ht1⟩ :=
      addRef_step s f t fo hd hlen (by omega) ht
    obtain ⟨sk, fok, hek, hdk, hrck, hnewk, holdk⟩ := ih s1 fo1 hd1 hlen1 (by omega) ht1
    refine ⟨sk, fok, by simp only [addRefN, he]; exact hek, hdk, by omega, ?_, ?_⟩
    · intro i h1 h2
      rcases Nat.eq_or_lt_of_le h1 with heq | hlt
      · rw [holdk i (by omega), ← heq]
        exact hnew
      · exact hnewk i (by omega) (by omega)
    · intro i hi
      rw [holdk i (by omega)]
      exact hold i (by omega)

/-- C15. Duplicate edges count separately: on a live object `from` with `ref_count <= 6`,
two calls `addRef(from, to)` with the same live `to` raise `ref_count` by exactly 2 and store
`to` in the two slots `refs[old ref_count]` and `refs[old ref_count + 1]`; on an object with
`ref_count == 0` eight such calls fill all eight slots with `to` and a ninth call is rejected,
leaving the state unchanged. -/
theorem duplicate_edges_count_separately (s : State) (f t : Nat) (fo : object_struct_t)
    (hd : deref s.heap f = some fo) (hlen : fo.refs.length = MAX_REFS_PER_OBJECT)
    (ht : (deref s.heap t).isSome = true) :
    (fo.ref_count ≤ 6 →
      ∃ s1 s2 fo2, addRef s (some f) (some t) = .ok s1 ∧
        addRef s1 (some f) (some t) = .ok s2 ∧ deref s2.heap f = some fo2 ∧
        fo2.ref_count = fo.ref_count + 2 ∧
        fo2.refs[fo.ref_count]? = some (some t) ∧
        fo2.refs[fo.ref_count + 1]? = some (some t) ∧
        ∀ i, i < fo.ref_count → fo2.refs[i]? = fo.refs[i]?) ∧
    (fo.ref_count = 0 →
      ∃ s8 fo8, addRefN 8 s (some f) (some t) = .ok s8 ∧ deref s8.heap f = some fo8 ∧
        fo8.ref_count = 8 ∧ (∀ i, i < 8 → fo8.refs[i]? = some (some t)) ∧
        addRef s8 (some f) (some t) = .ok s8) := by
  constructor
  · intro h6
    obtain ⟨s1, fo1, he1, hd1, hlen1, hrc1, hnew1, hold1, ht1⟩ :=
      addRef_step s f t fo hd hlen (by simp only [MAX_REFS_PER_OBJECT]; omega) ht
    obtain ⟨s2, fo2, he2, hd2, _, hrc2, hnew2, hold2, _⟩ :=
      addRef_step s1 f t fo1 hd1 hlen1 (by simp only [MAX_REFS_PER_OBJECT]; omega) ht1
    refine ⟨s1, s2, fo2, he1, he2, hd2, by omega, ?_, ?_, ?_⟩
    · rw [hold2 _ (by omega)]
      exact hnew1
    · rw [← hrc1]
      exact hnew2
    · intro i hi
      rw [hold2 i (by omega)]
      exact hold1 i (by omega)
  · intro h0
    obtain ⟨s8, fo8, he, hd8, hrc8, hnew, _⟩ :=
      addRefN_spec 8 s f t fo hd hlen (by simp only [MAX_REFS_PER_OBJECT]; omega) ht
    refine ⟨s8, fo8, he, hd8, by omega, fun i hi => hnew i (by omega) (by omega), ?_⟩
    have hfull : fo8.ref_count ≥ MAX_REFS_PER_OBJECT := by
      simp only [MAX_REFS_PER_OBJECT]
      omega
    simp only [addRef, hd8, hfull, if_true]

set_option maxRecDepth 100000 in
/-- C15 at the state reached by one `allocObject`, with a self-reference. -/
theorem duplicate_edges_count_separately_witness :
    ∃ fo, deref oneObjectState.heap 0 = some fo ∧
      fo.refs.length = MAX_REFS_PER_OBJECT ∧ (deref oneObjectState.heap 0).isSome = true ∧
      fo.ref_count ≤ 6 ∧ fo.ref_count = 0 ∧
      (fo.ref_count ≤ 6 →
        ∃ s1 s2 fo2, addRef oneObjectState (some 0) (some 0) = .ok s1 ∧
          addRef s1 (some 0) (some 0) = .ok s2 ∧ deref s2.heap 0 = some fo2 ∧
          fo2.ref_count = fo.ref_count + 2 ∧
          fo2.refs[fo.ref_count]? = some (some 0) ∧
          fo2.refs[fo.ref_count + 1]? = some (some 0) ∧
          ∀ i, i < fo.ref_count → fo2.refs[i]? = fo.refs[i]?) ∧
      (fo.ref_count = 0 →
        ∃ s8 fo8, addRefN 8 oneObjectState (some 0) (some 0) = .ok s8 ∧
          deref s8.heap 0 = some fo8 ∧
          fo8.ref_count = 8 ∧ (∀ i, i < 8 → fo8.refs[i]? = some (some 0)) ∧
          addRef s8 (some 0) (some 0) = .ok s8) :=
  ⟨_, rfl, by decide, by decide, by decide, by decide,
    duplicate_edges_count_separately oneObjectState 0 0 _ rfl (by decide) (by decide)⟩

/-! ## Removing an edge -/

theorem findRef_found (refs : List Ptr) (dst : Ptr) (n i k : Nat) (hik : i ≤ k)
    (hkn : k < i + n) (hk : refs[k]? = some dst)
    (hbefore : ∀ j, i ≤ j → j < k → ∃ q, refs[j]? = some q ∧ q ≠ dst) :
    findRef refs dst i n = .ok k := by
  induction n generalizing i with
  | zero => omega
  | succ n ih =>
    rcases Nat.eq_or_lt_of_le hik with rfl | hlt
    · simp [findRef, hk]
    · obtain ⟨q, hq, hne⟩ := hbefore i (Nat.le_refl i) hlt
      simp only [findRef, hq, hne, if_false]
      exact ih (i + 1) hlt (by omega) fun j h1 h2 => hbefore j (by omega) h2

theorem findRef_absent (refs : List Ptr) (dst : Ptr) (n i : Nat)
    (h : ∀ j, i ≤ j → j < i + n → ∃ q, refs[j]? = some q ∧ q ≠ dst) :
    findRef refs dst i n = .ok (i + n) := by
  induction n generalizing i with
  | zero => rfl
  | succ n ih =>
    obtain ⟨q, hq, hne⟩ := h i (Nat.le_refl i) (by omega)
    simp only [findRef, hq, hne, if_false]
    rw [ih (i + 1) fun j h1 h2 => h j (by omega) (by omega)]
    congr 1
    omega

theorem shiftRefs_spec (n i : Nat) (refs : List Ptr) (hlen : i + n + 1 ≤ refs.length) :
    ∃ r, shiftRefs refs i n = .ok r ∧ r.length = refs.length ∧
      (∀ j, j < i → r[j]? = refs[j]?) ∧
      (∀ j, i ≤ j → j < i + n → r[j]? = refs[j + 1]?) ∧
      (∀ j, i + n ≤ j → r[j]? = refs[j]?) := by
  unfold shiftRefs
  induction n generalizing i refs with
  | zero =>
    exact ⟨refs, rfl, rfl, fun _ _ => rfl, fun j h1 h2 => by omega, fun _ _ => rfl⟩
  | succ n ih =>
    have h1 : i + 1 < refs.length := by omega
    have hi : i < refs.length := by omega
    obtain ⟨r, he, hrlen, hlow, hmid, hhigh⟩ :=
      ih (i + 1) (refs.set i refs[i + 1]) (by simp only [List.length_set]; omega)
    refine ⟨r, ?_, by simpa using hrlen, ?_, ?_, ?_⟩
    · simp only [forRange, List.getElem?_eq_getElem h1, writeAt, hi, if_true]
      exact he
    · intro j hj
      rw [hlow j (by omega)]
      exact List.getElem?_set_ne (by omega)
    · intro j hj1 hj2
      rcases Nat.eq_or_lt_of_le hj1 with rfl | hlt
      · rw [hlow i (by omega), List.getElem?_set_self hi, List.getElem?_eq_getElem h1]
      · rw [hmid j hlt (by omega)]
        exact List.getElem?_set_ne (by omega)
    · intro j hj
      rw [hhigh j (by omega)]
      exact List.getElem?_set_ne (by omega)

/-- C16. `removeRef(from, to)` on a live object `from` (with `ref_count` inside the array):
if `k` is the first index of `to` in `refs[0..ref_count)` and `to` is alive, the call returns
with `ref_count` one less, the entries before `k` unchanged, the entries after `k` moved one
slot down in their order (later duplicates of `to` included), the vacated last slot `NULL`,
and nothing else changed but the log; if `to` does not occur in `refs[0..ref_count)`, or
`from` or `to` is `NULL`, the state is unchanged. -/
theorem removeRef_removes_first_occurrence (s : State) (f t : Nat) (fo : object_struct_t)
    (hd : deref s.heap f = some fo) (hrc : fo.ref_count ≤ fo.refs.length) :
    (∀ k, k < fo.ref_count → fo.refs[k]? = some (some t) →
      (∀ j, j < k → fo.refs[j]? ≠ some (some t)) → (deref s.heap t).isSome = true →
      ∃ s1 fo1, removeRef s (some f) (some t) = .ok s1 ∧ deref s1.heap f = some fo1 ∧
        fo1.ref_count = fo.ref_count - 1 ∧
        (∀ j, j < k → fo1.refs[j]? = fo.refs[j]?) ∧
        (∀ j, k ≤ j → j + 1 < fo.ref_count → fo1.refs[j]? = fo.refs[j + 1]?) ∧
        fo1.refs[fo.ref_count - 1]? = some none ∧
        (∀ j, fo.ref_count ≤ j → fo1.refs[j]? = fo.refs[j]?) ∧
        (∀ b, b ≠ f → s1.heap[b]? = s.heap[b]?) ∧
        s1.objectPool = s.objectPool ∧ s1.object_count = s.object_count ∧
        s1.roots = s.roots ∧ s1.root_count = s.root_count) ∧
    ((∀ j, j < fo.ref_count → fo.refs[j]? ≠ some (some t)) →
      removeRef s (some f) (some t) = .ok s) ∧
    (∀ q, removeRef s none q = .ok s ∧ removeRef s q none = .ok s) := by
  have hentry : ∀ j, j < fo.ref_count → fo.refs[j]? ≠ some (some t) →
      ∃ q, fo.refs[j]? = some q ∧ q ≠ some t := by
    intro j hj hne
    refine ⟨fo.refs[j], List.getElem?_eq_getElem (by omega), fun heq => hne ?_⟩
    rw [List.getElem?_eq_getElem (by omega), heq]
  refine ⟨?_, ?_, ?_⟩
  · intro k hk hat hbefore ht
    obtain ⟨ot, hot⟩ := Option.isSome_iff_exists.mp ht
    have hfind := findRef_found fo.refs (some t) fo.ref_count 0 k (Nat.zero_le k) (by omega) hat
      (fun j _ hj => hentry j (by omega) (hbefore j hj))
    obtain ⟨r1, hshift, hlen1, hlow, hmid, hhigh⟩ :=
      shiftRefs_spec (fo.ref_count - (k + 1)) k fo.refs (by omega)
    have hne : k ≠ fo.ref_count := by omega
    have hw : fo.ref_count - 1 < r1.length := by omega
    refine ⟨{ s with heap := s.heap.set f
                       (some { fo with refs := r1.set (fo.ref_count - 1) none
                                       ref_count := fo.ref_count - 1 })
                     log := s.log ++ [.REMOVE_REF f t] }, _, ?_,
      deref_set_self (deref_lt hd) _, rfl, ?_, ?_, ?_, ?_, ?_, rfl, rfl, rfl, rfl⟩
    · simp only [removeRef, hd, hfind, hne, hshift, writeAt, hw, hot, if_true, if_false]
    · intro j hj
      simp only
      rw [List.getElem?_set_ne (by omega)]
      exact hlow j hj
    · intro j hj1 hj2
      simp only
      rw [List.getElem?_set_ne (by omega)]
      exact hmid j hj1 (by omega)
    · exact List.getElem?_set_self hw
    · intro j hj
      simp only
      rw [List.getElem?_set_ne (by omega)]
      exact hhigh j (by omega)
    · intro b hb
      exact List.getElem?_set_ne (Ne.symm hb)
  · intro habsent
    have hfind := findRef_absent fo.refs (some t) fo.ref_count 0
      (fun j _ hj => hentry j (by omega) (habsent j (by omega)))
    simp only [removeRef, hd, hfind, Nat.zero_add, if_true]
  · intro q
    constructor
    · simp [removeRef]
    · cases q <;> simp [removeRef]

set_option maxRecDepth 100000 in
/-- C16 at a holder whose edges are `x, y, x`: removing `x` leaves `y, x`. -/
theorem removeRef_removes_first_occurrence_witness :
    ∃ fo, deref duplicateEdgeState.heap 0 = some fo ∧ fo.ref_count ≤ fo.refs.length ∧
      fo.ref_count = 3 ∧ fo.refs[0]? = some (some 1) ∧ fo.refs[2]? = some (some 1) ∧
      (deref duplicateEdgeState.heap 1).isSome = true ∧
      ∃ s1 fo1, removeRef duplicateEdgeState (some 0) (some 1) = .ok s1 ∧
        deref s1.heap 0 = some fo1 ∧ fo1.ref_count = fo.ref_count - 1 ∧
        (∀ j, j < 0 → fo1.refs[j]? = fo.refs[j]?) ∧
        (∀ j, 0 ≤ j → j + 1 < fo.ref_count → fo1.refs[j]? = fo.refs[j + 1]?) ∧
        fo1.refs[fo.ref_count - 1]? = some none ∧
        (∀ j, fo.ref_count ≤ j → fo1.refs[j]? = fo.refs[j]?) ∧
        (∀ b, b ≠ 0 → s1.heap[b]? = duplicateEdgeState.heap[b]?) ∧
        s1.objectPool = duplicateEdgeState.objectPool ∧
        s1.object_count = duplicateEdgeState.object_count ∧
        s1.roots = duplicateEdgeState.roots ∧ s1.root_count = duplicateEdgeState.root_count :=
  ⟨_, rfl, by decide, by decide, by decide, by decide, by decide,
    (removeRef_removes_first_occurrence duplicateEdgeState 0 1 _ rfl (by decide)).1 0
      (by decide) (by decide) (fun j hj => absurd hj (Nat.not_lt_zero j)) (by decide)⟩

/-! ## The root stack -/

/-- The result of `pushRoot` when the stack is not full, `roots` has its declared size and
the pointer is `NULL` or the address of a live object. -/
theorem pushRoot_eq (s : State) (p : Ptr) (hlt : s.root_count < MAX_ROOTS)
    (hsize : s.roots.length = MAX_OBJECTS)
    (hp : ∀ a, p = some a → (deref s.heap a).isSome = true) :
    pushRoot s p = .ok
      { s with roots := s.roots.set s.root_count p
               root_count := s.root_count + 1
               log := s.log ++ [.PUSH_ROOT p] } := by
  have h1 : ¬ s.root_count ≥ MAX_ROOTS := by omega
  have h2 : s.root_count < s.roots.length := by
    rw [hsize]
    simp only [MAX_ROOTS, MAX_OBJECTS] at hlt ⊢
    omega
  cases p with
  | none => simp only [pushRoot, h1, writeAt, h2, if_true, if_false]
  | some a =>
    obtain ⟨o, ho⟩ := Option.isSome_iff_exists.mp (hp a rfl)
    simp only [pushRoot, h1, writeAt, h2, ho, if_true, if_false]

/-- C17. `popRoot` is a no-op on an empty root stack; otherwise it decrements `root_count`
and touches neither the `roots` array (so `roots[0..root_count-1)` is unchanged) nor the heap
or the pool.  Consequently, whenever `pushRoot(o)` returns (stack not full, `o` being `NULL`
or a live object), `pushRoot(o)` followed by `popRoot()` restores the previous root set. -/
theorem popRoot_removes_last_pushed (s : State) :
    (s.root_count = 0 → popRoot s = s) ∧
    (s.root_count ≠ 0 →
      (popRoot s).root_count = s.root_count - 1 ∧ (popRoot s).roots = s.roots ∧
      (popRoot s).heap = s.heap ∧ (popRoot s).objectPool = s.objectPool ∧
      (popRoot s).object_count = s.object_count) ∧
    (∀ p, s.root_count < MAX_ROOTS → s.roots.length = MAX_OBJECTS →
      (∀ a, p = some a → (deref s.heap a).isSome = true) →
      ∃ s1, pushRoot s p = .ok s1 ∧ s1.root_count = s.root_count + 1 ∧
        s1.roots[s.root_count]? = some p ∧
        (popRoot s1).root_count = s.root_count ∧
        (∀ i, i < s.root_count → (popRoot s1).roots[i]? = s.roots[i]?) ∧
        (∀ r, IsRoot (popRoot s1) r ↔ IsRoot s r) ∧
        (popRoot s1).heap = s.heap ∧ (popRoot s1).objectPool = s.objectPool ∧
        (popRoot s1).object_count = s.object_count) := by
  refine ⟨fun h0 => by simp [popRoot, h0], fun hne => by simp [popRoot, hne], ?_⟩
  intro p hlt hsize hp
  have hw : s.root_count < s.roots.length := by
    rw [hsize]
    simp only [MAX_ROOTS, MAX_OBJECTS] at hlt ⊢
    omega
  have hkeep : ∀ i, i < s.root_count → (s.roots.set s.root_count p)[i]? = s.roots[i]? :=
    fun i hi => List.getElem?_set_ne (by omega)
  refine ⟨_, pushRoot_eq s p hlt hsize hp, rfl, List.getElem?_set_self hw, ?_, ?_, ?_, ?_, ?_, ?_⟩
  · simp [popRoot]
  · intro i hi
    simp only [popRoot, Nat.add_one_ne_zero, if_false]
    exact hkeep i hi
  · intro r
    simp only [IsRoot, popRoot, Nat.add_one_ne_zero, if_false, Nat.add_sub_cancel]
    constructor
    · rintro ⟨i, hi, hr⟩
      exact ⟨i, hi, by rw [← hkeep i hi]; exact hr⟩
    · rintro ⟨i, hi, hr⟩
      exact ⟨i, hi, by rw [hkeep i hi]; exact hr⟩
  · simp [popRoot]
  · simp [popRoot]
  · simp [popRoot]

set_option maxRecDepth 100000 in
/-- C17 at the state reached by one `allocObject`, pushing `NULL`. -/
theorem popRoot_removes_last_pushed_witness :
    oneObjectState.root_count = 0 ∧ oneObjectState.root_count < MAX_ROOTS ∧
      oneObjectState.roots.length = MAX_OBJECTS ∧
      popRoot oneObjectState = oneObjectState ∧
      ∃ s1, pushRoot oneObjectState none = .ok s1 ∧
        s1.root_count = oneObjectState.root_count + 1 ∧
        s1.roots[oneObjectState.root_count]? = some none ∧
        (popRoot s1).root_count = oneObjectState.root_count ∧
        (∀ i, i < oneObjectState.root_count → (popRoot s1).roots[i]? = oneObjectState.roots[i]?) ∧
        (∀ r, IsRoot (popRoot s1) r ↔ IsRoot oneObjectState r) ∧
        (popRoot s1).heap = oneObjectState.heap ∧
        (popRoot s1).objectPool = oneObjectState.objectPool ∧
        (popRoot s1).object_count = oneObjectState.object_count :=
  ⟨by decide, by decide, by decide,
    (popRoot_removes_last_pushed oneObjectState).1 (by decide),
    (popRoot_removes_last_pushed oneObjectState).2.2 none (by decide) (by decide)
      (fun a ha => by cases ha)⟩

/-! ## `NULL` roots -/

theorem forRange_map_comm {σ : Type} (body : σ → Nat → Except Fault σ) (g : σ → σ)
    (hb : ∀ s i, body (g s) i = (body s i).map g) (n i : Nat) (s : σ) :
    forRange body i n (g s) = (forRange body i n s).map g := by
  induction n generalizing i s with
  | zero => rfl
  | succ n ih =>
    simp only [forRange, hb]
    cases body s i with
    | error e => rfl
    | ok t => exact ih (i + 1) t

theorem markSlot_withRoots (m : State → Ptr → Except Fault State) (r : List Ptr) (n : Nat)
    (hm : ∀ t q, m (withRoots t r n) q = (m t q).map fun u => withRoots u r n)
    (arr : List Ptr) (t : State) (i : Nat) :
    markSlot m arr (withRoots t r n) i = (markSlot m arr t i).map fun u => withRoots u r n := by
  unfold markSlot
  split
  · rfl
  · rfl
  · exact hm t _

theorem markAux_withRoots (r : List Ptr) (n : Nat) (fuel : Nat) (s : State) (p : Ptr) :
    markAux fuel (withRoots s r n) p = (markAux fuel s p).map fun u => withRoots u r n := by
  induction fuel generalizing s p with
  | zero => rfl
  | succ fuel ih =>
    cases p with
    | none => rfl
    | some a =>
      simp only [markAux]
      have hheap : (withRoots s r n).heap = s.heap := rfl
      rw [hheap]
      cases deref s.heap a with
      | none => rfl
      | some o =>
        simp only
        split
        · rfl
        · exact forRange_map_comm (markSlot (markAux fuel) o.refs) (fun u => withRoots u r n)
            (fun t i => markSlot_withRoots (markAux fuel) r n (fun t q => ih t q) o.refs t i)
            o.ref_count 0
            { s with heap := s.heap.set a (some { o with marked := 1 })
                     log := s.log ++ [.MARK a] }

theorem mark_withRoots (r : List Ptr) (n : Nat) (s : State) (p : Ptr) :
    mark (withRoots s r n) p = (mark s p).map fun u => withRoots u r n :=
  markAux_withRoots r n (s.heap.length + 1) s p

theorem forRange_markSlot_eq_markList (m : State → Ptr → Except Fault State)
    (arr : List Ptr) (n i : Nat) (s : State) (h : i + n ≤ arr.length) :
    forRange (markSlot m arr) i n s = markList m ((arr.drop i).take n) s := by
  induction n generalizing i s with
  | zero => simp [forRange, markList]
  | succ n ih =>
    have hi : i < arr.length := by omega
    have hq : arr[i]? = some arr[i] := List.getElem?_eq_getElem hi
    rw [List.drop_eq_getElem_cons hi, List.take_succ_cons]
    simp only [forRange, markSlot, hq]
    cases arr[i] with
    | none =>
      simp only [markList]
      exact ih (i + 1) s (by omega)
    | some b =>
      simp only [markList]
      cases m s (some b) with
      | error e => rfl
      | ok t => exact ih (i + 1) t (by omega)

theorem markList_filter (m : State → Ptr → Except Fault State) (l : List Ptr) (s : State) :
    markList m (l.filter fun q => q.isSome) s = markList m l s := by
  induction l generalizing s with
  | nil => rfl
  | cons q l ih =>
    cases q with
    | none =>
      simp only [List.filter, Option.isSome, markList]
      exact ih s
    | some b =>
      simp only [List.filter, Option.isSome, markList]
      cases m s (some b) with
      | error e => rfl
      | ok t => exact ih t

/-- The mark phase run with another root array that holds the same non-`NULL` roots in the
same order gives the same result. -/
theorem markAllRoots_withRoots (s : State) (r : List Ptr) (n : Nat)
    (hn : s.root_count ≤ s.roots.length) (hr : n ≤ r.length)
    (hfil : r.take n = (s.roots.take s.root_count).filter fun q => q.isSome) :
    markAllRoots (withRoots s r n) = (markAllRoots s).map fun u => withRoots u r n := by
  have hcomm := forRange_map_comm (markSlot mark r) (fun u => withRoots u r n)
    (fun t i => markSlot_withRoots mark r n (fun t q => mark_withRoots r n t q) r t i)
    n 0 { s with log := s.log ++ [.MARK_PHASE_START] }
  have hsame : forRange (markSlot mark r) 0 n { s with log := s.log ++ [.MARK_PHASE_START] } =
      forRange (markSlot mark s.roots) 0 s.root_count
        { s with log := s.log ++ [.MARK_PHASE_START] } := by
    rw [forRange_markSlot_eq_markList mark r n 0 _ (by omega),
      forRange_markSlot_eq_markList mark s.roots s.root_count 0 _ (by omega)]
    simp only [List.drop_zero]
    rw [hfil, markList_filter]
  rw [hsame] at hcomm
  have hgoal : markAllRoots (withRoots s r n) =
      match forRange (markSlot mark r) 0 n
        (withRoots { s with log := s.log ++ [.MARK_PHASE_START] } r n) with
      | .error e => .error e
      | .ok s1 => .ok { s1 with log := s1.log ++ [.MARK_PHASE_END] } := rfl
  rw [hgoal, hcomm]
  simp only [markAllRoots, markSlots]
  cases forRange (markSlot mark s.roots) 0 s.root_count
    { s with log := s.log ++ [.MARK_PHASE_START] } with
  | error e => rfl
  | ok t => rfl

theorem freeObject_withRoots (r : List Ptr) (n : Nat) (s : State) (p : Ptr) :
    freeObject (withRoots s r n) p = (freeObject s p).map fun u => withRoots u r n := by
  cases p with
  | none => rfl
  | some a =>
    simp only [freeObject]
    have hheap : (withRoots s r n).heap = s.heap := rfl
    rw [hheap]
    cases deref s.heap a with
    | none => rfl
    | some o =>
      simp only
      split <;> rfl

theorem sweepStep_withRoots (r : List Ptr) (n : Nat) (sd : State × Nat) (i : Nat) :
    sweepStep (withRoots sd.1 r n, sd.2) i =
      (sweepStep sd i).map fun td => (withRoots td.1 r n, td.2) := by
  unfold sweepStep
  have hpool : (withRoots sd.1 r n).objectPool = sd.1.objectPool := rfl
  have hheap : (withRoots sd.1 r n).heap = sd.1.heap := rfl
  simp only [hpool, hheap]
  cases sd.1.objectPool[i]? with
  | none => rfl
  | some q =>
    cases q with
    | none => rfl
    | some a =>
      simp only
      cases deref sd.1.heap a with
      | none => rfl
      | some o =>
        simp only
        split
        · cases writeAt sd.1.objectPool sd.2 none with
          | error e => rfl
          | ok pool => rfl
        · rw [freeObject_withRoots]
          cases freeObject sd.1 (some a) with
          | error e => rfl
          | ok t => rfl

theorem sweep_withRoots (r : List Ptr) (n : Nat) (s : State) :
    sweep (withRoots s r n) = (sweep s).map fun u => withRoots u r n := by
  have hcomm := forRange_map_comm sweepStep (fun td => (withRoots td.1 r n, td.2))
    (fun sd i => sweepStep_withRoots r n sd i) s.object_count 0
    ({ s with log := s.log ++ [.SWEEP_PHASE_START] }, 0)
  have hgoal : sweep (withRoots s r n) =
      match forRange sweepStep 0 s.object_count
        (withRoots { s with log := s.log ++ [.SWEEP_PHASE_START] } r n, 0) with
      | .error e => .error e
      | .ok (s1, distance) =>
        match clearSlots s1.objectPool distance (MAX_OBJECTS - distance) with
        | .error e => .error e
        | .ok pool =>
          .ok { s1 with object_count := distance
                        objectPool := pool
                        log := s1.log ++ [.SWEEP_PHASE_END distance] } := rfl
  rw [hgoal, hcomm]
  simp only [MarkSweep.sweep]
  cases forRange sweepStep 0 s.object_count
    ({ s with log := s.log ++ [.SWEEP_PHASE_START] }, 0) with
  | error e => rfl
  | ok td =>
    obtain ⟨t, d⟩ := td
    simp only [Except.map]
    have hpool : (withRoots t r n).objectPool = t.objectPool := rfl
    rw [hpool]
    cases clearSlots t.objectPool d (MAX_OBJECTS - d) with
    | error e => rfl
    | ok pool => rfl

theorem gcCollect_withRoots (s : State) (r : List Ptr) (n : Nat)
    (hn : s.root_count ≤ s.roots.length) (hr : n ≤ r.length)
    (hfil : r.take n = (s.roots.take s.root_count).filter fun q => q.isSome) :
    gcCollect (withRoots s r n) = (gcCollect s).map fun u => withRoots u r n := by
  have hmark := markAllRoots_withRoots { s with log := s.log ++ [.GC_COLLECTING] } r n hn hr hfil
  have hgoal : gcCollect (withRoots s r n) =
      match markAllRoots (withRoots { s with log := s.log ++ [.GC_COLLECTING] } r n) with
      | .error e => .error e
      | .ok s1 =>
        match sweep s1 with
        | .error e => .error e
        | .ok s2 => .ok { s2 with log := s2.log ++ [.GC_DONE] } := rfl
  rw [hgoal, hmark]
  simp only [MarkSweep.gcCollect]
  cases markAllRoots { s with log := s.log ++ [.GC_COLLECTING] } with
  | error e => rfl
  | ok t =>
    simp only [Except.map]
    rw [sweep_withRoots]
    cases sweep t with
    | error e => rfl
    | ok t1 => rfl

/-- C18. A `NULL` root is representable and harmless: `pushRoot(NULL)` on a stack that is not
full returns and records `NULL` on top; and for every state, running `markAllRoots`, or
`gcCollect`, with the `NULL` entries removed from the root list (any root array `r` whose
first `n` entries are the non-`NULL` entries of `roots[0..root_count)` in order) gives the
same result, so the same objects are marked and the same objects are freed. -/
theorem null_roots_are_harmless (s : State) (hn : s.root_count ≤ s.roots.length) :
    (s.root_count < MAX_ROOTS → s.roots.length = MAX_OBJECTS →
      pushRoot s none = .ok
        { s with roots := s.roots.set s.root_count none
                 root_count := s.root_count + 1
                 log := s.log ++ [.PUSH_ROOT none] }) ∧
    ∀ (r : List Ptr) (n : Nat), n ≤ r.length →
      r.take n = (s.roots.take s.root_count).filter (fun q => q.isSome) →
      markAllRoots (withRoots s r n) = (markAllRoots s).map (fun u => withRoots u r n) ∧
      gcCollect (withRoots s r n) = (gcCollect s).map (fun u => withRoots u r n) :=
  ⟨fun hlt hsize => pushRoot_eq s none hlt hsize (fun a ha => by cases ha),
    fun r n hr hfil =>
      ⟨markAllRoots_withRoots s r n hn hr hfil, gcCollect_withRoots s r n hn hr hfil⟩⟩

set_option maxRecDepth 100000 in
/-- C18 at one object with the root stack `NULL, object, NULL`, compared with the root
list holding the object alone. -/
theorem null_roots_are_harmless_witness :
    nullRootsState.root_count ≤ nullRootsState.roots.length ∧
      nullRootsState.roots.take nullRootsState.root_count = [none, some 0, none] ∧
      nullRootsState.root_count < MAX_ROOTS ∧ nullRootsState.roots.length = MAX_OBJECTS ∧
      pushRoot nullRootsState none = .ok
        { nullRootsState with
            roots := nullRootsState.roots.set nullRootsState.root_count none
            root_count := nullRootsState.root_count + 1
            log := nullRootsState.log ++ [.PUSH_ROOT none] } ∧
      markAllRoots (withRoots nullRootsState [some 0] 1) =
        (markAllRoots nullRootsState).map (fun u => withRoots u [some 0] 1) ∧
      gcCollect (withRoots nullRootsState [some 0] 1) =
        (gcCollect nullRootsState).map (fun u => withRoots u [some 0] 1) :=
  ⟨by decide, by decide, by decide, by decide,
    (null_roots_are_harmless nullRootsState (by decide)).1 (by decide) (by decide),
    (null_roots_are_harmless nullRootsState (by decide)).2 [some 0] 1 (by decide) (by decide)⟩

/-! ## Pointers that denote no live object -/

/-- The function `pushRoot` is its store statements followed by the log line, which reads
`object->name` when the pointer is not `NULL`. -/
theorem pushRoot_eq_store (s : State) (p : Ptr) :
    pushRoot s p =
      match pushRootStore s p with
      | .error e => .error e
      | .ok s1 =>
        match p with
        | none => .ok { s1 with log := s.log ++ [.PUSH_ROOT p] }
        | some a =>
          match deref s.heap a with
          | none => .error .badPointer
          | some _ => .ok { s1 with log := s.log ++ [.PUSH_ROOT p] } := by
  unfold pushRoot pushRootStore
  split
  · rfl
  · cases writeAt s.roots s.root_count p with
    | error e => rfl
    | ok roots =>
      cases p with
      | none => rfl
      | some a => simp only

/-- The function `addRef` on a live `from` that is not full is its store statements followed
by the log line, which reads `to->name`. -/
theorem addRef_eq_store (s : State) (f t : Nat) (fo : object_struct_t)
    (hd : deref s.heap f = some fo) (hrc : fo.ref_count < MAX_REFS_PER_OBJECT) :
    addRef s (some f) (some t) =
      match addRefStore s (some f) (some t) with
      | .error e => .error e
      | .ok s1 =>
        match deref s.heap t with
        | none => .error .badPointer
        | some _ => .ok { s1 with log := s.log ++ [.ADD_REF f t] } := by
  have h1 : ¬ fo.ref_count ≥ MAX_REFS_PER_OBJECT := by omega
  simp only [addRef, addRefStore, hd, h1, if_false]
  cases writeAt fo.refs fo.ref_count (some t) with
  | error e => rfl
  | ok refs => simp only

set_option maxRecDepth 100000 in
/-- C19, as stated, fails: in the state where the sweep has freed the object at address 0,
`pushRoot` of that pointer passes the only guard and executes its store: the freed pointer
is on top of the root stack and `root_count` has grown; the same happens with the
never-allocated address 7.  What follows is the log line reading the name of an object that
is not alive, undefined behaviour, and no invalid-reference outcome. -/
theorem pushRoot_stores_dead_pointer :
    freedObjectState.heap[0]? = some none ∧ deref freedObjectState.heap 7 = none ∧
      freedObjectState.heap.length = 2 ∧
      (∃ s1, pushRootStore freedObjectState (some 0) = .ok s1 ∧
        s1.root_count = freedObjectState.root_count + 1 ∧
        s1.roots[freedObjectState.root_count]? = some (some 0)) ∧
      (∃ s1, pushRootStore freedObjectState (some 7) = .ok s1 ∧
        s1.root_count = freedObjectState.root_count + 1 ∧
        s1.roots[freedObjectState.root_count]? = some (some 7)) ∧
      pushRoot freedObjectState (some 0) = .error .badPointer ∧
      pushRoot freedObjectState (some 7) = .error .badPointer :=
  ⟨by decide, by decide, by decide, ⟨_, rfl, by decide, by decide⟩,
    ⟨_, rfl, by decide, by decide⟩, rfl, rfl⟩

/-- C19, amended. `pushRoot` makes no liveness check and has no invalid-reference outcome:
with `root_count >= MAX_ROOTS` it exits; otherwise its store statement records any pointer,
alive or not, on top of the root stack, leaving the entries below unchanged, and for a
pointer that is `NULL` or denotes a live object the call returns with exactly that change
and one log line. -/
theorem pushRoot_records (s : State) (p : Ptr) :
    (s.root_count ≥ MAX_ROOTS → pushRoot s p = .error .rootOverflow) ∧
    (s.root_count < MAX_ROOTS → s.roots.length = MAX_OBJECTS →
      (∃ s1, pushRootStore s p = .ok s1 ∧ s1.roots[s.root_count]? = some p ∧
        s1.root_count = s.root_count + 1 ∧
        (∀ i, i ≠ s.root_count → s1.roots[i]? = s.roots[i]?)) ∧
      ((∀ a, p = some a → (deref s.heap a).isSome = true) →
        ∃ s1, pushRoot s p = .ok s1 ∧ s1.roots[s.root_count]? = some p ∧
          s1.root_count = s.root_count + 1 ∧
          (∀ i, i ≠ s.root_count → s1.roots[i]? = s.roots[i]?) ∧
          s1.heap = s.heap ∧ s1.objectPool = s.objectPool ∧
          s1.object_count = s.object_count ∧ s1.log = s.log ++ [.PUSH_ROOT p])) := by
  constructor
  · intro hge
    simp only [pushRoot, hge, if_true]
  · intro hlt hsize
    have hw : s.root_count < s.roots.length := by
      rw [hsize]
      simp only [MAX_ROOTS, MAX_OBJECTS] at hlt ⊢
      omega
    have h1 : ¬ s.root_count ≥ MAX_ROOTS := by omega
    constructor
    · exact ⟨{ s with roots := s.roots.set s.root_count p, root_count := s.root_count + 1 },
        by simp only [pushRootStore, h1, writeAt, hw, if_true, if_false],
        List.getElem?_set_self hw, rfl, fun i hi => List.getElem?_set_ne (Ne.symm hi)⟩
    · intro hp
      exact ⟨_, pushRoot_eq s p hlt hsize hp, List.getElem?_set_self hw, rfl,
        fun i hi => List.getElem?_set_ne (Ne.symm hi), rfl, rfl, rfl, rfl⟩

set_option maxRecDepth 100000 in
/-- C19, amended, at the state reached by one `allocObject`, pushing that object. -/
theorem pushRoot_records_witness :
    oneObjectState.root_count < MAX_ROOTS ∧ oneObjectState.roots.length = MAX_OBJECTS ∧
      (deref oneObjectState.heap 0).isSome = true ∧
      ∃ s1, pushRoot oneObjectState (some 0) = .ok s1 ∧
        s1.roots[oneObjectState.root_count]? = some (some 0) ∧
        s1.root_count = oneObjectState.root_count + 1 ∧
        (∀ i, i ≠ oneObjectState.root_count → s1.roots[i]? = oneObjectState.roots[i]?) ∧
        s1.heap = oneObjectState.heap ∧ s1.objectPool = oneObjectState.objectPool ∧
        s1.object_count = oneObjectState.object_count ∧
        s1.log = oneObjectState.log ++ [.PUSH_ROOT (some 0)] :=
  ⟨by decide, by decide, by decide,
    ((pushRoot_records oneObjectState (some 0)).2 (by decide) (by decide)).2
      (fun a ha => by cases ha; decide)⟩

set_option maxRecDepth 100000 in
/-- C20, as stated, fails: in the state where the sweep has freed the object at address 0
and the object at address 1 is alive with `ref_count == 0`, `addRef` from 1 to the freed
pointer passes both guards and executes its store: the reference graph has a new edge to
the freed object; the same happens with the never-allocated address 7.  What follows is the
log line reading the name of an object that is not alive, undefined behaviour, and no
invalid-reference outcome.  With a `NULL` argument the call returns normally. -/
theorem addRef_stores_dead_pointer :
    freedObjectState.heap[0]? = some none ∧ deref freedObjectState.heap 7 = none ∧
      (∃ fo, deref freedObjectState.heap 1 = some fo ∧ fo.ref_count = 0) ∧
      (∃ s1 fo1, addRefStore freedObjectState (some 1) (some 0) = .ok s1 ∧
        deref s1.heap 1 = some fo1 ∧ fo1.ref_count = 1 ∧ fo1.refs[0]? = some (some 0)) ∧
      (∃ s1 fo1, addRefStore freedObjectState (some 1) (some 7) = .ok s1 ∧
        deref s1.heap 1 = some fo1 ∧ fo1.ref_count = 1 ∧ fo1.refs[0]? = some (some 7)) ∧
      addRef freedObjectState (some 1) (some 0) = .error .badPointer ∧
      addRef freedObjectState (some 1) (some 7) = .error .badPointer ∧
      addRef freedObjectState none (some 1) = .ok freedObjectState ∧
      addRef freedObjectState (some 1) none = .ok freedObjectState :=
  ⟨by decide, by decide, ⟨_, rfl, by decide⟩, ⟨_, _, rfl, rfl, by decide, by decide⟩,
    ⟨_, _, rfl, rfl, by decide, by decide⟩, rfl, rfl, rfl, rfl⟩

/-- C20, amended. `addRef` makes no liveness check and has no invalid-reference outcome:
when `from` or `to` is `NULL` it returns at once, leaving the whole state unchanged and
signalling nothing; on a live `from` that is not full its store statement appends any
non-`NULL` `to`, alive or not, at `refs[old ref_count]` and increments `ref_count`. -/
theorem addRef_ignores_null (s : State) :
    (∀ q, addRef s none q = .ok s ∧ addRef s q none = .ok s) ∧
    ∀ f t fo, deref s.heap f = some fo → fo.ref_count < MAX_REFS_PER_OBJECT →
      fo.refs.length = MAX_REFS_PER_OBJECT →
      addRefStore s (some f) (some t) = .ok
        { s with heap := s.heap.set f
                   (some { fo with refs := fo.refs.set fo.ref_count (some t)
                                   ref_count := fo.ref_count + 1 }) } := by
  constructor
  · intro q
    constructor
    · simp [addRef]
    · cases q <;> simp [addRef]
  · intro f t fo hd hrc hlen
    have h1 : ¬ fo.ref_count ≥ MAX_REFS_PER_OBJECT := by omega
    have h2 : fo.ref_count < fo.refs.length := by omega
    simp only [addRefStore, hd, h1, writeAt, h2, if_true, if_false]

set_option maxRecDepth 100000 in
/-- C20, amended, at the state where the object at address 0 has been freed. -/
theorem addRef_ignores_null_witness :
    ∃ fo, deref freedObjectState.heap 1 = some fo ∧ fo.ref_count < MAX_REFS_PER_OBJECT ∧
      fo.refs.length = MAX_REFS_PER_OBJECT ∧
      addRef freedObjectState none (some 0) = .ok freedObjectState ∧
      addRefStore freedObjectState (some 1) (some 0) = .ok
        { freedObjectState with
            heap := freedObjectState.heap.set 1
              (some { fo with refs := fo.refs.set fo.ref_count (some 0)
                              ref_count := fo.ref_count + 1 }) } :=
  ⟨_, rfl, by decide, by decide, ((addRef_ignores_null freedObjectState).1 (some 0)).1,
    (addRef_ignores_null freedObjectState).2 1 0 _ rfl (by decide) (by decide)⟩

/-! ## Termination of `mark` -/

theorem markSlots_fuel (m m1 : State → Ptr → Except Fault State) (B : Nat) (arr : List Ptr)
    (hm : ∀ t q, unmarkedCount t.heap ≤ B →
      m t q = m1 t q ∧ m t q ≠ .error .outOfFuel ∧
        ∀ t1, m t q = .ok t1 → unmarkedCount t1.heap ≤ unmarkedCount t.heap)
    (n i : Nat) (s : State) (hs : unmarkedCount s.heap ≤ B) :
    forRange (markSlot m arr) i n s = forRange (markSlot m1 arr) i n s ∧
      forRange (markSlot m arr) i n s ≠ .error .outOfFuel ∧
      ∀ s1, forRange (markSlot m arr) i n s = .ok s1 →
        unmarkedCount s1.heap ≤ unmarkedCount s.heap := by
  induction n generalizing i s with
  | zero =>
    refine ⟨rfl, by simp [forRange], fun s1 h1 => ?_⟩
    simp only [forRange, Except.ok.injEq] at h1
    subst h1
    exact Nat.le_refl _
  | succ n ih =>
    simp only [forRange, markSlot]
    cases arr[i]? with
    | none => exact ⟨rfl, by simp, fun s1 h1 => by cases h1⟩
    | some q =>
      cases q with
      | none => exact ih (i + 1) s hs
      | some b =>
        obtain ⟨heq, hne, hle⟩ := hm s (some b) hs
        simp only
        rw [← heq]
        cases hres : m s (some b) with
        | error e =>
          refine ⟨rfl, ?_, fun s1 h1 => by cases h1⟩
          intro h1
          rw [hres] at hne
          simp only at h1
          exact hne h1
        | ok t =>
          have hle1 := hle t hres
          obtain ⟨h1, h2, h3⟩ := ih (i + 1) t (Nat.le_trans hle1 hs)
          exact ⟨h1, h2, fun s1 hs1 => Nat.le_trans (h3 s1 hs1) hle1⟩

theorem markAux_fuel (fuel fuel1 : Nat) (s : State) (p : Ptr)
    (h : unmarkedCount s.heap < fuel) (h1 : unmarkedCount s.heap < fuel1) :
    markAux fuel s p = markAux fuel1 s p ∧ markAux fuel s p ≠ .error .outOfFuel ∧
      ∀ s1, markAux fuel s p = .ok s1 → unmarkedCount s1.heap ≤ unmarkedCount s.heap := by
  induction fuel generalizing fuel1 s p with
  | zero => omega
  | succ f ih =>
    cases fuel1 with
    | zero => omega
    | succ f1 =>
      cases p with
      | none =>
        refine ⟨rfl, by simp [markAux], fun s1 hs1 => ?_⟩
        simp only [markAux, Except.ok.injEq] at hs1
        subst hs1
        exact Nat.le_refl _
      | some a =>
        simp only [markAux]
        cases hd : deref s.heap a with
        | none => exact ⟨rfl, by simp, fun s1 hs1 => by cases hs1⟩
        | some o =>
          simp only
          by_cases hmk : o.marked ≠ 0
          · rw [if_pos hmk, if_pos hmk]
            refine ⟨rfl, by simp, fun s1 hs1 => ?_⟩
            simp only [Except.ok.injEq] at hs1
            subst hs1
            exact Nat.le_refl _
          · rw [if_neg hmk, if_neg hmk]
            simp only [markSlots]
            have h0 : o.marked = 0 := by omega
            have hcount := unmarkedCount_set_mark s.heap a o hd h0
            obtain ⟨e1, e2, e3⟩ := markSlots_fuel (markAux f) (markAux f1)
              (unmarkedCount (s.heap.set a (some { o with marked := 1 }))) o.refs
              (fun t q ht => ih f1 t q (by omega) (by omega)) o.ref_count 0
              { s with heap := s.heap.set a (some { o with marked := 1 })
                       log := s.log ++ [.MARK a] }
              (Nat.le_refl _)
            exact ⟨e1, e2, fun s1 hs1 => by
              have := e3 s1 hs1
              simp only at this
              omega⟩

/-- C23. `mark` terminates on every heap, whatever cycles and self-references it holds: the
recursion budget of `mark` is never exhausted, every budget above the number of unmarked
objects gives the same result, because the descent into an unmarked object first marks it
and so lowers the number of unmarked objects by one; and when every reference of every
live object is `NULL` or alive, `mark` of a live object returns. -/
theorem mark_terminates (s : State) (p : Ptr) :
    mark s p ≠ .error .outOfFuel ∧
    (∀ fuel, unmarkedCount s.heap < fuel → markAux fuel s p = mark s p) ∧
    (∀ a o, deref s.heap a = some o → o.marked = 0 →
      unmarkedCount (s.heap.set a (some { o with marked := 1 })) + 1 = unmarkedCount s.heap) ∧
    (∀ a, p = some a → Closed s.heap → (deref s.heap a).isSome = true →
      ∃ s1, mark s p = .ok s1) := by
  have hlen : unmarkedCount s.heap < s.heap.length + 1 :=
    Nat.lt_succ_of_le (unmarkedCount_le_length s.heap)
  refine ⟨(markAux_fuel _ _ s p hlen hlen).2.1,
    fun fuel hf => (markAux_fuel fuel _ s p hf hlen).1,
    fun a o hd h0 => unmarkedCount_set_mark s.heap a o hd h0, ?_⟩
  rintro a rfl hc hl
  obtain ⟨s1, he, _⟩ := mark_spec (s.heap.length + 1) s a hc hl hlen
  exact ⟨s1, he⟩

set_option maxRecDepth 100000 in
/-- C23 on the cycle `A -> B -> A`, starting from `A`. -/
theorem mark_terminates_witness :
    unmarkedCount rootedCycleState.heap < 3 ∧
      (deref rootedCycleState.heap 0).isSome = true ∧
      mark rootedCycleState (some 0) ≠ .error .outOfFuel ∧
      markAux 3 rootedCycleState (some 0) = mark rootedCycleState (some 0) ∧
      ∃ s1, mark rootedCycleState (some 0) = .ok s1 :=
  ⟨by decide, by decide, (mark_terminates rootedCycleState (some 0)).1,
    (mark_terminates rootedCycleState (some 0)).2.1 3 (by decide),
    (mark_terminates rootedCycleState (some 0)).2.2.2 0 rfl
      (closed_of_edgesInPool (by decide)) (by decide)⟩

/-! ## What the mark phase leaves alone -/

/-- C26. The mark phase treats the graph and the root set as read-only: when `markAllRoots`
returns, `objectPool`, `object_count`, `roots` and `root_count` are unchanged, no cell is
allocated or freed, every object keeps its name, value, `refs` and `ref_count`, and a mark
bit is either unchanged or has been set to 1, so no mark bit that was set is cleared. -/
theorem markAllRoots_changes_only_marks (s s1 : State) (h : markAllRoots s = .ok s1) :
    s1.objectPool = s.objectPool ∧ s1.object_count = s.object_count ∧
      s1.roots = s.roots ∧ s1.root_count = s.root_count ∧
      s1.heap.length = s.heap.length ∧
      (∀ a : Nat, s1.heap[a]? = some none ↔ s.heap[a]? = some none) ∧
      ∀ a o, deref s.heap a = some o →
        ∃ o1, deref s1.heap a = some o1 ∧ o1.name = o.name ∧ o1.value = o.value ∧
          o1.refs = o.refs ∧ o1.ref_count = o.ref_count ∧
          (o1.marked = o.marked ∨ o1.marked = 1) ∧ (o.marked ≠ 0 → o1.marked ≠ 0) := by
  obtain ⟨hst, _⟩ := markAllRoots_only s s1 h
  refine ⟨hst.pool, hst.count, hst.roots, hst.root_count, hst.frame.1, fun a => ?_,
    fun a o hd => ?_⟩
  · rcases hst.frame.2 a with hc | ⟨o, hd, hc⟩
    · rw [hc]
    · rw [deref_eq_some] at hd
      rw [hc, hd]
      simp
  · rcases hst.frame.deref_fwd hd with h1 | h1
    · exact ⟨o, h1, rfl, rfl, rfl, rfl, Or.inl rfl, id⟩
    · exact ⟨_, h1, rfl, rfl, rfl, rfl, Or.inr rfl, fun _ => by simp⟩

set_option maxRecDepth 100000 in
/-- C26 at the state built by the set-up of `simulateCycleEvent`. -/
theorem markAllRoots_changes_only_marks_witness :
    ∃ s1, markAllRoots cycleState = .ok s1 ∧
      s1.objectPool = cycleState.objectPool ∧ s1.object_count = cycleState.object_count ∧
      s1.roots = cycleState.roots ∧ s1.root_count = cycleState.root_count ∧
      s1.heap.length = cycleState.heap.length ∧
      (∀ a : Nat, s1.heap[a]? = some none ↔ cycleState.heap[a]? = some none) ∧
      ∀ a o, deref cycleState.heap a = some o →
        ∃ o1, deref s1.heap a = some o1 ∧ o1.name = o.name ∧ o1.value = o.value ∧
          o1.refs = o.refs ∧ o1.ref_count = o.ref_count ∧
          (o1.marked = o.marked ∨ o1.marked = 1) ∧ (o.marked ≠ 0 → o1.marked ≠ 0) :=
  ⟨_, rfl, markAllRoots_changes_only_marks cycleState _ rfl⟩

set_option maxRecDepth 100000 in
/-- C28, the code at the failing input: after `allocObject`, `pushRoot`, `gcCollect` (a state
reachable through the public operations) the count is 1 and the rooted object has
`marked == 0`; a second `gcCollect` frees nothing but leaves `object_count == 0` and the
object with `marked == 1`, not the state the first run left. -/
theorem gcCollect_twice_differs :
    ∃ s1 s2 o1 o2, rootedAfterCollect = .ok s1 ∧ ReachableState s1 ∧
      gcCollect s1 = .ok s2 ∧
      s1.object_count = 1 ∧ s2.object_count = 0 ∧
      deref s1.heap 0 = some o1 ∧ o1.marked = 0 ∧
      deref s2.heap 0 = some o2 ∧ o2.marked = 1 ∧
      s2.log.filter isFreeEvent = s1.log.filter isFreeEvent :=
  ⟨_, _, _, _, rfl,
    ((ReachableState.start.alloc (n := "a") (v := "5") (p := some 0) rfl).push
      (p := some 0) rfl).collect rfl,
    rfl, by decide, by decide, rfl, by decide, rfl, by decide, by decide⟩

/-! ## Comparing two root sets and two graphs -/

theorem mem_take_iff (l : List Ptr) (n : Nat) (q : Ptr) :
    q ∈ l.take n ↔ ∃ i, i < n ∧ l[i]? = some q := by
  rw [List.mem_iff_getElem?]
  constructor
  · rintro ⟨i, hi⟩
    rw [List.getElem?_take] at hi
    split at hi
    · next hlt => exact ⟨i, hlt, hi⟩
    · cases hi
  · rintro ⟨i, hlt, hi⟩
    exact ⟨i, by rw [List.getElem?_take, if_pos hlt]; exact hi⟩

theorem subEntries_elim {l l1 : List Ptr} (h : subEntries l l1 = true) (q : Ptr)
    (hq : q ∈ l) : q ∈ l1 := by
  unfold subEntries at h
  rw [List.all_eq_true] at h
  have := h q hq
  simpa using this

theorem isRoot_iff_mem (s : State) (r : Nat) :
    IsRoot s r ↔ some r ∈ s.roots.take s.root_count := by
  rw [mem_take_iff]
  rfl

theorem edge_iff_mem (h : Heap) (a b : Nat) :
    edge h a b ↔ ∃ o, deref h a = some o ∧ some b ∈ o.refs.take o.ref_count := by
  unfold edge
  constructor
  · rintro ⟨o, hd, hi⟩
    exact ⟨o, hd, (mem_take_iff _ _ _).mpr hi⟩
  · rintro ⟨o, hd, hm⟩
    exact ⟨o, hd, (mem_take_iff _ _ _).mp hm⟩

theorem getD_of_deref {h : Heap} {a : Nat} {o : object_struct_t} (hd : deref h a = some o) :
    h.getD a none = some o := by
  rw [deref_eq_some] at hd
  rw [List.getD_eq_getElem?_getD, hd]
  rfl

theorem deref_of_getD {h : Heap} {a : Nat} {o : object_struct_t}
    (hg : h.getD a none = some o) : deref h a = some o := by
  rw [List.getD_eq_getElem?_getD] at hg
  rw [deref_eq_some]
  cases hx : h[a]? with
  | none =>
    rw [hx] at hg
    cases hg
  | some c =>
    rw [hx] at hg
    exact congrArg some hg

theorem SubGraph.deref_some {h h1 : Heap} (hg : SubGraph h h1) {a : Nat}
    {o : object_struct_t} (hd : deref h a = some o) :
    ∃ o1, deref h1 a = some o1 ∧
      subEntries (o.refs.take o.ref_count) (o1.refs.take o1.ref_count) = true := by
  have hcell := hg.2 a (deref_lt hd)
  rw [getD_of_deref hd] at hcell
  cases hx : h1.getD a none with
  | none =>
    rw [hx] at hcell
    cases hcell
  | some o1 =>
    rw [hx] at hcell
    exact ⟨o1, deref_of_getD hx, hcell⟩

theorem SubGraph.edge {h h1 : Heap} (hg : SubGraph h h1) {a b : Nat} (he : edge h a b) :
    edge h1 a b := by
  rw [edge_iff_mem] at he ⊢
  obtain ⟨o, hd, hm⟩ := he
  obtain ⟨o1, hd1, hsub⟩ := hg.deref_some hd
  exact ⟨o1, hd1, subEntries_elim hsub _ hm⟩

theorem reachable_mono {s s1 : State}
    (hroots : subEntries (s.roots.take s.root_count) (s1.roots.take s1.root_count) = true)
    (hgraph : SubGraph s.heap s1.heap) {a : Nat} (h : Reachable s a) : Reachable s1 a := by
  obtain ⟨r, hr, hpath⟩ := h
  refine ⟨r, ?_, hpath.mono fun x y hxy => hgraph.edge hxy⟩
  rw [isRoot_iff_mem] at hr ⊢
  exact subEntries_elim hroots _ hr

/-- The mark phase on a state with clear marks whose edges and roots denote pool objects
returns, and `marked == 1` holds exactly for the reachable objects. -/
theorem markAllRoots_reach (s : State) (hclear : MarksClear s)
    (hedges : EdgesInPool s) (hroots : RootsInPool s) :
    ∃ s1, markAllRoots s = .ok s1 ∧ MarkPost (IsRoot s) s s1 ∧
      ∀ a, (∃ o, deref s1.heap a = some o ∧ o.marked = 1) ↔ Reachable s a := by
  obtain ⟨s1, he, hp⟩ := markAllRoots_spec s hedges hroots
  refine ⟨s1, he, hp, fun a => ?_⟩
  rw [← marked_iff_reachable hclear hp a]
  constructor
  · rintro ⟨o, hd, h1⟩
    exact ⟨o, hd, by omega⟩
  · rintro ⟨o, hd, hne⟩
    exact ⟨o, hd, marked_one_of_marksClear hclear hp.frame hd hne⟩

theorem pool_object_kept_iff {s s2 : State} (hwf : WellFormed s)
    (hin : ∀ a, InPool s a → ∀ o, deref s.heap a = some o →
      (Reachable s a → s2.heap[a]? = some (some o)) ∧
      (¬ Reachable s a → s2.heap[a]? = some none))
    {a : Nat} (ha : InPool s a) : s2.heap[a]? = some none ↔ ¬ Reachable s a := by
  obtain ⟨j, hj, hP⟩ := ha
  obtain ⟨a1, o, hP1, hd⟩ := slotLive_elim (hwf.pool_live j hj)
  rw [hP] at hP1
  obtain rfl : a = a1 := Option.some.inj (Option.some.inj hP1)
  obtain ⟨hkeep, hfree⟩ := hin a ⟨j, hj, hP⟩ o hd
  constructor
  · intro hfreed hreach
    rw [hkeep hreach] at hfreed
    cases hfreed
  · exact hfree

theorem MarkLog.idle (s : State) : MarkLog s s :=
  ⟨[], by simp, by simp, fun b => ⟨fun h => absurd h.1 h.2, fun _ => rfl⟩⟩

theorem MarkLog.join {s t u : State} (h1 : MarkLog s t) (h2 : MarkLog t u)
    (hst : ∀ b, Marked s.heap b → Marked t.heap b)
    (htu : ∀ b, Marked t.heap b → Marked u.heap b) : MarkLog s u := by
  obtain ⟨l1, hl1, hm1, hc1⟩ := h1
  obtain ⟨l2, hl2, hm2, hc2⟩ := h2
  refine ⟨l1 ++ l2, by rw [hl2, hl1, List.append_assoc], ?_, fun b => ?_⟩
  · intro e he
    rcases List.mem_append.mp he with h | h
    · exact hm1 e h
    · exact hm2 e h
  · rw [List.count_append]
    constructor
    · rintro ⟨hu, hs⟩
      by_cases ht : Marked t.heap b
      · rw [(hc1 b).1 ⟨ht, hs⟩, (hc2 b).2 (fun h => h.2 ht)]
      · rw [(hc1 b).2 (fun h => ht h.1), (hc2 b).1 ⟨hu, ht⟩]
    · intro hn
      have h1n : ¬ (Marked t.heap b ∧ ¬ Marked s.heap b) := fun h => hn ⟨htu b h.1, h.2⟩
      have h2n : ¬ (Marked u.heap b ∧ ¬ Marked t.heap b) := by
        rintro ⟨hu, ht⟩
        by_cases hs : Marked s.heap b
        · exact ht (hst b hs)
        · exact hn ⟨hu, hs⟩
      rw [(hc1 b).2 h1n, (hc2 b).2 h2n]

theorem markSlots_log (m : State → Ptr → Except Fault State) (arr : List Ptr)
    (hm : ∀ t b t1, m t (some b) = .ok t1 → MarkOnly t t1 ∧ MarkLog t t1)
    (n i : Nat) (s s1 : State) (h : forRange (markSlot m arr) i n s = .ok s1) :
    MarkOnly s s1 ∧ MarkLog s s1 := by
  induction n generalizing i s with
  | zero =>
    simp only [forRange, Except.ok.injEq] at h
    subst h
    exact ⟨MarkOnly.same s, MarkLog.idle s⟩
  | succ n ih =>
    simp only [forRange] at h
    split at h
    · next t hbody =>
      obtain ⟨hto, htl⟩ := ih (i + 1) t h
      have hfirst : MarkOnly s t ∧ MarkLog s t := by
        unfold markSlot at hbody
        split at hbody
        · cases hbody
        · simp only [Except.ok.injEq] at hbody
          subst hbody
          exact ⟨MarkOnly.same s, MarkLog.idle s⟩
        · exact hm s _ t hbody
      exact ⟨hfirst.1.chain hto,
        hfirst.2.join htl (fun b => hfirst.1.frame.marked) (fun b => hto.frame.marked)⟩
    · cases h

theorem markAux_log (fuel : Nat) (s : State) (p : Ptr) (s1 : State)
    (h : markAux fuel s p = .ok s1) : MarkOnly s s1 ∧ MarkLog s s1 := by
  induction fuel generalizing s p s1 with
  | zero => simp [markAux] at h
  | succ fuel ih =>
    cases p with
    | none =>
      simp only [markAux, Except.ok.injEq] at h
      subst h
      exact ⟨MarkOnly.same s, MarkLog.idle s⟩
    | some a =>
      simp only [markAux] at h
      split at h
      · cases h
      · next o hd =>
        split at h
        · simp only [Except.ok.injEq] at h
          subst h
          exact ⟨MarkOnly.same s, MarkLog.idle s⟩
        · next hmk =>
          have h0 : o.marked = 0 := by omega
          obtain ⟨hto, htl⟩ := markSlots_log (markAux fuel) o.refs
            (fun t b t1 ht => ih t (some b) t1 ht) o.ref_count 0 _ s1 h
          have hf1 : MarkFrame s.heap (s.heap.set a (some { o with marked := 1 })) :=
            MarkFrame.set_mark hd
          have hstep : MarkLog s
              { s with heap := s.heap.set a (some { o with marked := 1 })
                       log := s.log ++ [.MARK a] } := by
            refine ⟨[.MARK a], rfl, by simp [isMarkEvent], fun b => ?_⟩
            by_cases hab : a = b
            · subst hab
              have hone : [Event.MARK a].count (Event.MARK a) = 1 := by simp
              exact ⟨fun _ => hone, fun hn =>
                absurd ⟨⟨_, deref_set_self (deref_lt hd) _, by simp⟩,
                  fun ⟨o1, hd1, hne1⟩ => by
                    rw [hd] at hd1
                    cases hd1
                    exact hne1 h0⟩ hn⟩
            · have hzero : [Event.MARK a].count (Event.MARK b) = 0 := by
                simp [List.count_cons, hab]
              refine ⟨fun ⟨hm1, hm0⟩ => ?_, fun _ => hzero⟩
              obtain ⟨o1, hd1, hne1⟩ := hm1
              simp only at hd1
              rw [deref_set_ne hab] at hd1
              exact absurd ⟨o1, hd1, hne1⟩ hm0
          exact ⟨⟨hto.pool, hto.count, hto.roots, hto.root_count, hf1.comp hto.frame⟩,
            hstep.join htl (fun b => hf1.marked) (fun b => hto.frame.marked)⟩

/-- The log of a mark phase that returns: the start line, `MARK` lines, exactly one for every
object marked by the phase, and the end line. -/
theorem markAllRoots_log (s s1 : State) (h : markAllRoots s = .ok s1) :
    ∃ l, s1.log = s.log ++ [.MARK_PHASE_START] ++ l ++ [.MARK_PHASE_END] ∧
      (∀ e ∈ l, isMarkEvent e = true) ∧
      ∀ b, (Marked s1.heap b ∧ ¬ Marked s.heap b → l.count (.MARK b) = 1) ∧
        (¬ (Marked s1.heap b ∧ ¬ Marked s.heap b) → l.count (.MARK b) = 0) := by
  simp only [markAllRoots, markSlots] at h
  split at h
  · cases h
  · next t ht =>
    simp only [Except.ok.injEq] at h
    subst h
    obtain ⟨_, l, hl, hm, hc⟩ := markSlots_log mark s.roots
      (fun t b t1 h1 => markAux_log _ t (some b) t1 h1) s.root_count 0 _ t ht
    exact ⟨l, by simp only [hl], hm, hc⟩

theorem cell_freed_iff_of_set_live {h : Heap} {f : Nat} {fo : object_struct_t}
    (hd : deref h f = some fo) (x : object_struct_t) (b : Nat) :
    (h.set f (some x))[b]? = some none ↔ h[b]? = some none := by
  by_cases hfb : f = b
  · subst hfb
    rw [List.getElem?_set_self (deref_lt hd), deref_eq_some.mp hd]
    simp
  · rw [List.getElem?_set_ne hfb]

theorem live_of_set_live {h : Heap} (f : Nat) (x : object_struct_t) {b : Nat}
    (hl : (deref h b).isSome = true) : (deref (h.set f (some x)) b).isSome = true := by
  by_cases hfb : f = b
  · subst hfb
    obtain ⟨o, ho⟩ := Option.isSome_iff_exists.mp hl
    rw [deref_set_self (deref_lt ho)]
    rfl
  · rw [deref_set_ne hfb]
    exact hl

theorem live_append_cell {h : Heap} {b : Nat} (c : Option object_struct_t)
    (hl : (deref h b).isSome = true) : (deref (h ++ [c]) b).isSome = true := by
  obtain ⟨o, ho⟩ := Option.isSome_iff_exists.mp hl
  unfold deref
  rw [List.getElem?_append_left (deref_lt ho)]
  exact hl

theorem FreedOnce.of_same {s s1 : State} (h : FreedOnce s)
    (hheap : ∀ a : Nat, s1.heap[a]? = some none ↔ s.heap[a]? = some none)
    (hlog : ∀ a, s1.log.count (.FREE a) = s.log.count (.FREE a)) : FreedOnce s1 := by
  intro a
  rw [hlog a, h a]
  by_cases hx : s.heap[a]? = some none
  · rw [if_pos hx, if_pos ((hheap a).mpr hx)]
  · rw [if_neg hx, if_neg (fun hy => hx ((hheap a).mp hy))]

theorem FreedOnce.of_free {s s1 : State} (h : FreedOnce s) {a : Nat} {o : object_struct_t}
    (hd : deref s.heap a = some o) (hheap : s1.heap = s.heap.set a none)
    (hlog : s1.log = s.log ++ [.FREE a]) : FreedOnce s1 := by
  intro b
  rw [hlog, hheap, List.count_append, h b]
  by_cases hab : a = b
  · subst hab
    have hcell : s.heap[a]? ≠ some none := by
      rw [deref_eq_some.mp hd]
      simp
    rw [if_neg hcell, List.getElem?_set_self (deref_lt hd), if_pos rfl]
    simp
  · rw [List.getElem?_set_ne hab]
    have hzero : [Event.FREE a].count (Event.FREE b) = 0 := by
      simp [List.count_cons, hab]
    rw [hzero]
    rfl

theorem Owned.of_live {s s1 : State} (h : Owned s) (hpool : s1.objectPool = s.objectPool)
    (hcount : s1.object_count = s.object_count)
    (hlive : ∀ b, (deref s.heap b).isSome = true → (deref s1.heap b).isSome = true) :
    Owned s1 :=
  ⟨fun j a hj hP => hlive a (h.live j a (by omega) (by rw [← hpool]; exact hP)),
    fun j k a hk hj hP => by
      rw [hpool] at hP ⊢
      exact h.distinct j k a hk (by omega) hP⟩

theorem Owned.of_null {s : State}
    (h : ∀ j, j < s.object_count → s.objectPool[j]? = some none) : Owned s :=
  ⟨fun j a hj hP => absurd hP (by rw [h j hj]; simp),
    fun j k a _ hj hP => absurd hP (by rw [h j hj]; simp)⟩

theorem count_free_of_marks {l : List Event} (h : ∀ e ∈ l, isMarkEvent e = true) (a : Nat) :
    l.count (.FREE a) = 0 := by
  rw [List.count_eq_zero]
  intro hmem
  have := h _ hmem
  simp [isMarkEvent] at this

theorem MarkFrame.freed_iff {h h1 : Heap} (hf : MarkFrame h h1) (a : Nat) :
    h1[a]? = some none ↔ h[a]? = some none := by
  rcases hf.2 a with hc | ⟨o, hd, hc⟩
  · rw [hc]
  · rw [deref_eq_some] at hd
    rw [hc, hd]
    simp

theorem sweepStep_freed (i : Nat) (sd sd1 : State × Nat)
    (hP : FreedOnce sd.1 ∧ sd.2 ≤ i ∧ ∀ j, j < sd.2 → sd.1.objectPool[j]? = some none)
    (h : sweepStep sd i = .ok sd1) :
    FreedOnce sd1.1 ∧ sd1.2 ≤ i + 1 ∧ ∀ j, j < sd1.2 → sd1.1.objectPool[j]? = some none := by
  obtain ⟨h1, h2, h3⟩ := hP
  unfold sweepStep at h
  split at h
  · cases h
  · cases h
    exact ⟨h1, by omega, h3⟩
  · next a _ =>
    split at h
    · cases h
    · next o hd =>
      split at h
      · split at h
        · cases h
        · next pool hw =>
          obtain ⟨hlt, rfl⟩ := writeAt_ok hw
          cases h
          refine ⟨h1.of_same (fun b => cell_freed_iff_of_set_live hd _ b) (fun _ => rfl),
            by simp only; omega, fun j hj => ?_⟩
          simp only at hj ⊢
          rcases Nat.eq_or_lt_of_le (Nat.le_of_lt_succ hj) with rfl | hlt1
          · exact List.getElem?_set_self hlt
          · rw [List.getElem?_set_ne (by omega)]
            exact h3 j hlt1
      · split at h
        · cases h
        · next s1 hfree =>
          cases h
          have hs1 := freeObject_ok hfree
          exact ⟨h1.of_free hd (by rw [hs1]) (by rw [hs1]), by simp only; omega,
            fun j hj => by rw [hs1]; exact h3 j hj⟩

theorem clearSlots_below {pool pool1 : List Ptr} {i n : Nat}
    (h : clearSlots pool i n = .ok pool1) (j : Nat) (hj : j < i) : pool1[j]? = pool[j]? := by
  have := forRange_inv (fun (p : List Ptr) k => writeAt p k none)
    (fun k r => i ≤ k ∧ r[j]? = pool[j]?)
    (fun k r r1 hr hbody => by
      obtain ⟨_, rfl⟩ := writeAt_ok hbody
      refine ⟨by omega, ?_⟩
      rw [List.getElem?_set_ne (by omega)]
      exact hr.2)
    n i pool pool1 ⟨Nat.le_refl i, rfl⟩ h
  exact this.2

/-- A sweep that returns keeps the log in step with the freed cells and leaves every slot of
`objectPool[0..object_count)` `NULL`. -/
theorem sweep_freed {s s1 : State} (hs : FreedOnce s) (h : sweep s = .ok s1) :
    FreedOnce s1 ∧ ∀ j, j < s1.object_count → s1.objectPool[j]? = some none := by
  unfold MarkSweep.sweep at h
  split at h
  · cases h
  · next t d hloop =>
    have hinv := forRange_inv sweepStep
      (fun i sd => FreedOnce sd.1 ∧ sd.2 ≤ i ∧ ∀ j, j < sd.2 → sd.1.objectPool[j]? = some none)
      (fun i sd sd1 hP hbody => sweepStep_freed i sd sd1 hP hbody)
      s.object_count 0 _ (t, d)
      ⟨hs.of_same (fun _ => Iff.rfl) (fun a => by simp), Nat.le_refl 0,
        fun j hj => absurd hj (Nat.not_lt_zero j)⟩ hloop
    obtain ⟨h1, _, h3⟩ := hinv
    split at h
    · cases h
    · next pool hclear =>
      cases h
      refine ⟨h1.of_same (fun _ => Iff.rfl) (fun a => by simp), fun j hj => ?_⟩
      simp only at hj ⊢
      rw [clearSlots_below hclear j hj]
      exact h3 j hj

theorem cleanupStep_freed (i : Nat) (s s1 : State) (hs : FreedOnce s)
    (h : cleanupStep s i = .ok s1) : FreedOnce s1 := by
  unfold cleanupStep at h
  split at h
  · cases h
  · cases h
    exact hs
  · next a _ =>
    split at h
    · cases h
    · next t hfree =>
      have hd : ∃ o, deref s.heap a = some o := by
        simp only [freeObject] at hfree
        split at hfree
        · cases hfree
        · next o ho => exact ⟨o, ho⟩
      obtain ⟨o, hd⟩ := hd
      split at h
      · cases h
      · next pool hw =>
        cases h
        have ht := freeObject_ok hfree
        exact hs.of_free hd (by rw [ht]) (by rw [ht])

theorem FreedOnce.initial : FreedOnce emptyCollector := by
  intro a
  simp [emptyCollector]

/-- In every reachable state the pool owns its objects and the log holds exactly one `FREE`
line for every freed cell. -/
theorem ReachableState.owned {s : State} (h : ReachableState s) : Owned s ∧ FreedOnce s := by
  induction h with
  | start =>
    exact ⟨⟨fun j a hj _ => absurd hj (Nat.not_lt_zero j),
      fun j k a _ hj _ => absurd hj (Nat.not_lt_zero j)⟩, FreedOnce.initial⟩
  | @alloc s s1 n v p hr hop ih =>
    have hsh := hr.shaped
    have hfull : ¬ s.object_count ≥ MAX_OBJECTS := by
      intro hge
      simp [allocObject, hge] at hop
    have hw : s.object_count < s.objectPool.length := by
      rw [hsh.pool_size]
      omega
    rw [allocObject_eq s n v hfull hw] at hop
    simp only [Except.ok.injEq, Prod.mk.injEq] at hop
    obtain ⟨_, rfl⟩ := hop
    have hfresh : deref s.heap s.heap.length = none := by
      unfold deref
      rw [List.getElem?_eq_none (Nat.le_refl _)]
    have hlive := fun b hb => live_append_cell (h := s.heap) (b := b)
      (some (object_struct_t.mk 0 n v (List.replicate MAX_REFS_PER_OBJECT none) 0)) hb
    refine ⟨⟨fun j a hj hP => ?_, fun j k a hk hj hP => ?_⟩, ?_⟩
    · simp only at hj hP ⊢
      by_cases hjc : j = s.object_count
      · subst hjc
        rw [List.getElem?_set_self hw] at hP
        obtain rfl := Option.some.inj (Option.some.inj hP)
        simp [deref_append_cell]
      · rw [List.getElem?_set_ne (Ne.symm hjc)] at hP
        exact hlive a (ih.1.live j a (by omega) hP)
    · simp only at hj hP ⊢
      rw [List.getElem?_set_ne (by omega)]
      by_cases hjc : j = s.object_count
      · subst hjc
        rw [List.getElem?_set_self hw] at hP
        obtain rfl := Option.some.inj (Option.some.inj hP)
        intro hk1
        have := ih.1.live k _ hk hk1
        rw [hfresh] at this
        cases this
      · rw [List.getElem?_set_ne (Ne.symm hjc)] at hP
        exact ih.1.distinct j k a hk (by omega) hP
    · refine ih.2.of_same (fun a => ?_) (fun a => by simp)
      simp only
      by_cases hlt : a < s.heap.length
      · rw [List.getElem?_append_left hlt]
      · rw [List.getElem?_eq_none (Nat.le_of_not_lt hlt)]
        by_cases heq : a = s.heap.length
        · subst heq
          rw [List.getElem?_append_right (Nat.le_refl _)]
          simp
        · rw [List.getElem?_eq_none (by
            simp only [List.length_append, List.length_singleton]; omega)]
  | @add s s1 p q hr hop ih =>
    unfold MarkSweep.addRef at hop
    split at hop
    · next f t =>
      split at hop
      · cases hop
      · next fo hd =>
        split at hop
        · cases hop
          exact ih
        · split at hop
          · cases hop
          · split at hop
            · cases hop
            · cases hop
              exact ⟨ih.1.of_live rfl rfl (fun b hb => live_of_set_live f _ hb),
                ih.2.of_same (fun b => cell_freed_iff_of_set_live hd _ b) (fun a => by simp)⟩
    · cases hop
      exact ih
  | @remove s s1 p q hr hop ih =>
    unfold MarkSweep.removeRef at hop
    split at hop
    · next f t =>
      split at hop
      · cases hop
      · next fo hd =>
        split at hop
        · cases hop
        · split at hop
          · cases hop
            exact ih
          · split at hop
            · cases hop
            · split at hop
              · cases hop
              · split at hop
                · cases hop
                · cases hop
                  exact ⟨ih.1.of_live rfl rfl (fun b hb => live_of_set_live f _ hb),
                    ih.2.of_same (fun b => cell_freed_iff_of_set_live hd _ b)
                      (fun a => by simp)⟩
    · cases hop
      exact ih
  | @push s s1 p hr hop ih =>
    unfold MarkSweep.pushRoot at hop
    split at hop
    · cases hop
    · split at hop
      · cases hop
      · dsimp only at hop
        split at hop
        · cases hop
          exact ⟨ih.1.of_live rfl rfl (fun b hb => hb),
            ih.2.of_same (fun _ => Iff.rfl) (fun a => by simp)⟩
        · split at hop
          · cases hop
          · cases hop
            exact ⟨ih.1.of_live rfl rfl (fun b hb => hb),
              ih.2.of_same (fun _ => Iff.rfl) (fun a => by simp)⟩
  | @pop s hr ih =>
    unfold MarkSweep.popRoot
    split
    · exact ih
    · exact ⟨ih.1.of_live rfl rfl (fun b hb => hb),
        ih.2.of_same (fun _ => Iff.rfl) (fun a => by simp)⟩
  | @collect s s1 hr hop ih =>
    unfold MarkSweep.gcCollect at hop
    split at hop
    · cases hop
    · next t hmark =>
      split at hop
      · cases hop
      · next t1 hsweep =>
        cases hop
        obtain ⟨hto, _⟩ := markAllRoots_only _ t hmark
        obtain ⟨l, hl, hlm, _⟩ := markAllRoots_log _ t hmark
        have hft : FreedOnce t := by
          refine ih.2.of_same (fun a => hto.frame.freed_iff a) (fun a => ?_)
          rw [hl]
          simp [count_free_of_marks hlm a]
        obtain ⟨hf1, hnull⟩ := sweep_freed hft hsweep
        exact ⟨Owned.of_null hnull, hf1.of_same (fun _ => Iff.rfl) (fun a => by simp)⟩
  | @cleanup s s1 hr hop ih =>
    unfold MarkSweep.cleanupAll at hop
    split at hop
    · cases hop
    · next t hloop =>
      cases hop
      have h1 := forRange_inv cleanupStep (fun _ t => FreedOnce t)
        (fun i t t1 hP hbody => cleanupStep_freed i t t1 hP hbody) s.object_count 0 s t
        ih.2 hloop
      exact ⟨Owned.of_null fun j hj => absurd hj (Nat.not_lt_zero j),
        h1.of_same (fun _ => Iff.rfl) (fun _ => rfl)⟩

/-! ## Sweeps and clean-ups that return -/

theorem forRange_total {σ : Type} (body : σ → Nat → Except Fault σ) (Q : Nat → σ → Prop)
    (N : Nat) (hstep : ∀ i s, i < N → Q i s → ∃ s1, body s i = .ok s1 ∧ Q (i + 1) s1)
    (n i : Nat) (s : σ) (hN : i + n ≤ N) (h0 : Q i s) :
    ∃ s1, forRange body i n s = .ok s1 ∧ Q (i + n) s1 := by
  induction n generalizing i s with
  | zero => exact ⟨s, rfl, h0⟩
  | succ n ih =>
    obtain ⟨s1, hb, hq⟩ := hstep i s (by omega) h0
    obtain ⟨s2, hr, hq2⟩ := ih (i + 1) s1 (by omega) hq
    refine ⟨s2, ?_, ?_⟩
    · simp only [forRange, hb]
      exact hr
    · have hidx : i + (n + 1) = i + 1 + n := by omega
      rw [hidx]
      exact hq2

theorem OwnedFrom.of_owned {s : State} (hs : Shaped s) (ho : Owned s) :
    OwnedFrom s.object_count 0 s :=
  ⟨hs.pool_size, hs.heap, fun j a _ hj hP => ho.live j a hj hP,
    fun j k a _ hk hj hP => ho.distinct j k a hk hj hP⟩

theorem OwnedFrom.skip {n i : Nat} {s : State} (h : OwnedFrom n i s) : OwnedFrom n (i + 1) s :=
  ⟨h.pool_size, h.heap, fun j a hij hj hP => h.live j a (by omega) hj hP,
    fun j k a hik hk hj hP => h.distinct j k a (by omega) hk hj hP⟩

theorem sweepStep_total (n i : Nat) (sd : State × Nat) (hi : i < n) (hn : n ≤ MAX_OBJECTS)
    (hd : sd.2 ≤ i) (h : OwnedFrom n i sd.1) :
    ∃ sd1, sweepStep sd i = .ok sd1 ∧ sd1.2 ≤ i + 1 ∧ OwnedFrom n (i + 1) sd1.1 := by
  obtain ⟨s, d⟩ := sd
  simp only at hd h
  have hlen : i < s.objectPool.length := by
    rw [h.pool_size]
    omega
  have hq : s.objectPool[i]? = some (s.objectPool[i]) := List.getElem?_eq_getElem hlen
  cases hslot : s.objectPool[i] with
  | none =>
    rw [hslot] at hq
    refine ⟨(s, d), ?_, by simp only; omega, h.skip⟩
    simp only [sweepStep, hq]
  | some a =>
    rw [hslot] at hq
    obtain ⟨o, ho⟩ := Option.isSome_iff_exists.mp (h.live i a (Nat.le_refl i) hi hq)
    have hrc : o.ref_count ≤ o.refs.length := by
      have := h.heap a o ho
      omega
    obtain ⟨s1, d1, hstep, hd1, _, _, hsize, hpool, hheap⟩ :=
      sweepStep_spec s d i a o hd hq ho hrc
    refine ⟨(s1, d1), hstep, hd1, ⟨by rw [hsize]; exact h.pool_size, ?_, ?_, ?_⟩⟩
    · simp only
      rw [hheap]
      refine h.heap.set_cell a _ (fun o1 ho1 => ?_)
      split at ho1
      · cases ho1
        exact h.heap a o ho
      · cases ho1
    · intro j b hij hj hP
      simp only at hP ⊢
      rw [hpool j (by omega)] at hP
      have hb := h.live j b (by omega) hj hP
      have hne : a ≠ b := by
        rintro rfl
        exact h.distinct j i a (Nat.le_refl i) (by omega) hj hP hq
      rw [hheap, deref_set_ne hne]
      exact hb
    · intro j k b hik hk hj hP
      simp only at hP ⊢
      rw [hpool j (by omega)] at hP
      rw [hpool k (by omega)]
      exact h.distinct j k b (by omega) hk hj hP

/-- On a state whose pool owns its objects, `sweep` returns. -/
theorem sweep_total (s : State) (hs : Shaped s) (ho : Owned s) : ∃ s1, sweep s = .ok s1 := by
  have h0 : OwnedFrom s.object_count 0 { s with log := s.log ++ [.SWEEP_PHASE_START] } :=
    ⟨hs.pool_size, hs.heap, fun j a _ hj hP => ho.live j a hj hP,
      fun j k a _ hk hj hP => ho.distinct j k a hk hj hP⟩
  obtain ⟨⟨t, d⟩, hloop, hd, ht⟩ := forRange_total sweepStep
    (fun i sd => sd.2 ≤ i ∧ OwnedFrom s.object_count i sd.1) s.object_count
    (fun i sd hi hQ => by
      obtain ⟨sd1, h1, h2, h3⟩ := sweepStep_total s.object_count i sd hi hs.count_le hQ.1 hQ.2
      exact ⟨sd1, h1, h2, h3⟩)
    s.object_count 0 ({ s with log := s.log ++ [.SWEEP_PHASE_START] }, 0)
    (by omega) ⟨Nat.le_refl 0, h0⟩
  simp only at hd
  obtain ⟨pool, hclear, _⟩ := clearSlots_ok (MAX_OBJECTS - d) d t.objectPool (by
    rw [ht.pool_size]
    have := hs.count_le
    omega)
  have hrun : sweep s = .ok { t with object_count := d, objectPool := pool
                                     log := t.log ++ [.SWEEP_PHASE_END d] } := by
    simp only [MarkSweep.sweep, hloop, hclear]
  exact ⟨_, hrun⟩

theorem cleanupStep_total (n i : Nat) (s : State) (hi : i < n) (hn : n ≤ MAX_OBJECTS)
    (h : OwnedFrom n i s) :
    ∃ s1, cleanupStep s i = .ok s1 ∧ OwnedFrom n (i + 1) s1 := by
  have hlen : i < s.objectPool.length := by
    rw [h.pool_size]
    omega
  have hq : s.objectPool[i]? = some (s.objectPool[i]) := List.getElem?_eq_getElem hlen
  cases hslot : s.objectPool[i] with
  | none =>
    rw [hslot] at hq
    refine ⟨s, ?_, h.skip⟩
    simp only [cleanupStep, hq]
  | some a =>
    rw [hslot] at hq
    obtain ⟨o, ho⟩ := Option.isSome_iff_exists.mp (h.live i a (Nat.le_refl i) hi hq)
    have hrc : o.ref_count ≤ o.refs.length := by
      have := h.heap a o ho
      omega
    refine ⟨{ s with heap := s.heap.set a none, log := s.log ++ [.FREE a]
                     objectPool := s.objectPool.set i none }, ?_, ⟨?_, ?_, ?_, ?_⟩⟩
    · simp [cleanupStep, hq, freeObject, ho, hrc, writeAt, hlen]
    · simp only [List.length_set]
      exact h.pool_size
    · exact h.heap.set_cell a none (fun o1 ho1 => by cases ho1)
    · intro j b hij hj hP
      simp only at hP ⊢
      rw [List.getElem?_set_ne (by omega)] at hP
      have hb := h.live j b (by omega) hj hP
      have hne : a ≠ b := by
        rintro rfl
        exact h.distinct j i a (Nat.le_refl i) (by omega) hj hP hq
      rw [deref_set_ne hne]
      exact hb
    · intro j k b hik hk hj hP
      simp only at hP ⊢
      rw [List.getElem?_set_ne (by omega)] at hP
      rw [List.getElem?_set_ne (by omega)]
      exact h.distinct j k b (by omega) hk hj hP

/-- On a state whose pool owns its objects, `cleanupAll` returns. -/
theorem cleanupAll_total (s : State) (hs : Shaped s) (ho : Owned s) :
    ∃ s1, cleanupAll s = .ok s1 := by
  obtain ⟨t, hloop, _⟩ := forRange_total cleanupStep
    (fun i t => OwnedFrom s.object_count i t) s.object_count
    (fun i t hi hQ => cleanupStep_total s.object_count i t hi hs.count_le hQ)
    s.object_count 0 s (by omega) (OwnedFrom.of_owned hs ho)
  have hrun : cleanupAll s = .ok { t with object_count := 0 } := by
    simp only [MarkSweep.cleanupAll, hloop]
  exact ⟨_, hrun⟩

theorem Owned.after_mark {s s1 : State} (h : Owned s) (hm : MarkOnly s s1) : Owned s1 :=
  h.of_live hm.pool hm.count (fun _ hb => hm.frame.live hb)

/-- Every marking run from the roots returns when the objects form a closed graph and every
root slot is `NULL` or the address of a live object. -/
theorem markAllRoots_total (s : State) (hc : Closed s.heap) (hsize : s.root_count ≤ s.roots.length)
    (hroots : ∀ r, IsRoot s r → (deref s.heap r).isSome = true) :
    ∃ s1, markAllRoots s = .ok s1 ∧ MarkOnly s s1 := by
  obtain ⟨s1, he, _⟩ := markSlots_spec mark (s.heap.length + 1) s.roots
    (fun t b h1 h2 h3 => mark_spec (s.heap.length + 1) t b h1 h2 h3) s.root_count 0
    { s with log := s.log ++ [.MARK_PHASE_START] } hc
    (Nat.lt_succ_of_le (unmarkedCount_le_length s.heap))
    (fun j _ h2 => by
      have hj : j < s.roots.length := by omega
      exact ⟨s.roots[j], List.getElem?_eq_getElem hj,
        fun b hb => hroots b ⟨j, by omega, by rw [List.getElem?_eq_getElem hj, hb]⟩⟩)
  have hrun : markAllRoots s = .ok { s1 with log := s1.log ++ [.MARK_PHASE_END] } := by
    simp only [markAllRoots, markSlots, he]
  exact ⟨_, hrun, (markAllRoots_only s _ hrun).1⟩

theorem closed_of_live_edges {h : Heap} (hs : HeapShaped h)
    (hedges : ∀ a b, edge h a b → (deref h b).isSome = true) : Closed h := by
  intro a o hd i hi
  have hlen : i < o.refs.length := by
    have := hs a o hd
    omega
  exact ⟨o.refs[i], List.getElem?_eq_getElem hlen,
    fun b hb => hedges a b ⟨o, hd, i, hi, by rw [List.getElem?_eq_getElem hlen, hb]⟩⟩

/-- C21. No double reclamation. In every state reached from the start state by calls of
`allocObject`, `addRef`, `removeRef`, `pushRoot`, `popRoot`, `gcCollect` and `cleanupAll` the
log holds at most one `FREE` line per address, exactly one for every freed object; and
neither `cleanupAll` nor the sweep that follows a returned mark phase meets an object that
was already freed: both return. -/
theorem no_double_reclamation (s : State) (hs : ReachableState s) :
    (∀ a, s.log.count (.FREE a) ≤ 1) ∧
    (∀ a : Nat, s.log.count (.FREE a) = 1 ↔ s.heap[a]? = some none) ∧
    (∃ s1, cleanupAll s = .ok s1) ∧
    (∀ t, markAllRoots { s with log := s.log ++ [.GC_COLLECTING] } = .ok t →
      ∃ t1, sweep t = .ok t1) := by
  obtain ⟨ho, hf⟩ := hs.owned
  have hsh := hs.shaped
  refine ⟨fun a => ?_, fun a => ?_, cleanupAll_total s hsh ho, fun t ht => ?_⟩
  · rw [hf a]
    split <;> omega
  · rw [hf a]
    by_cases hx : s.heap[a]? = some none
    · simp [hx]
    · simp [hx]
  · obtain ⟨hm, _⟩ := markAllRoots_only _ t ht
    have hst : MarkOnly s t := ⟨hm.pool, hm.count, hm.roots, hm.root_count, hm.frame⟩
    exact sweep_total t (hsh.of_markOnly hst) (ho.after_mark hst)

set_option maxRecDepth 100000 in
/-- C21 at the state in which a collection has freed one of two objects. -/
theorem no_double_reclamation_witness :
    ReachableState freedObjectState ∧
      (∀ a, freedObjectState.log.count (.FREE a) ≤ 1) ∧
      (∀ a : Nat, freedObjectState.log.count (.FREE a) = 1 ↔
        freedObjectState.heap[a]? = some none) ∧
      (∃ s1, cleanupAll freedObjectState = .ok s1) ∧
      (∀ t, markAllRoots { freedObjectState with
            log := freedObjectState.log ++ [.GC_COLLECTING] } = .ok t →
        ∃ t1, sweep t = .ok t1) :=
  have hr : ReachableState freedObjectState :=
    (((ReachableState.start.alloc (n := "a") (v := "5") (p := some 0) rfl).alloc
      (n := "b") (v := "6") (p := some 1) rfl).push (p := some 1) rfl).collect rfl
  ⟨hr, no_double_reclamation freedObjectState hr⟩

/-- C27. Mark and sweep cannot fail on a well-formed state.  In every state that calls of
`allocObject`, `addRef`, `removeRef`, `pushRoot`, `popRoot`, `gcCollect` and `cleanupAll`
reach, `object_count <= MAX_OBJECTS`, `root_count <= MAX_ROOTS` and every
`ref_count <= MAX_REFS_PER_OBJECT` hold; where in addition every edge and every non-`NULL`
root denotes a not-yet-freed object, `markAllRoots` and then `sweep` return, and so does
`gcCollect`: no index into `objectPool`, `roots` or `refs` is out of bounds and no freed
object is read.  The store of `pushRoot` is executed only with `root_count < MAX_ROOTS` (64),
at index `root_count`. -/
theorem mark_and_sweep_return (s : State) (hr : ReachableState s)
    (hedges : ∀ a b, edge s.heap a b → (deref s.heap b).isSome = true)
    (hroots : ∀ r, IsRoot s r → (deref s.heap r).isSome = true) :
    (s.object_count ≤ MAX_OBJECTS ∧ s.root_count ≤ MAX_ROOTS ∧
      ∀ a o, deref s.heap a = some o → o.ref_count ≤ MAX_REFS_PER_OBJECT) ∧
    (∃ s1 s2, markAllRoots s = .ok s1 ∧ sweep s1 = .ok s2) ∧
    (∃ s3, gcCollect s = .ok s3) ∧
    (∀ p s4, pushRootStore s p = .ok s4 →
      s.root_count < MAX_ROOTS ∧ MAX_ROOTS = 64 ∧ s4.roots = s.roots.set s.root_count p) := by
  have hs : Shaped s := hr.shaped
  have ho : Owned s := hr.owned.1
  have hc : Closed s.heap := closed_of_live_edges hs.heap hedges
  have hsize : s.root_count ≤ s.roots.length := by
    have h1 := hs.roots_size
    have h2 := hs.root_count_le
    simp only [MAX_OBJECTS] at h1
    simp only [MAX_ROOTS] at h2
    omega
  refine ⟨⟨hs.count_le, hs.root_count_le, fun a o hd => (hs.heap a o hd).2⟩, ?_, ?_, ?_⟩
  · obtain ⟨s1, h1, hm⟩ := markAllRoots_total s hc hsize hroots
    obtain ⟨s2, h2⟩ := sweep_total s1 (hs.of_markOnly hm) (ho.after_mark hm)
    exact ⟨s1, s2, h1, h2⟩
  · obtain ⟨s1, h1, hm⟩ := markAllRoots_total { s with log := s.log ++ [.GC_COLLECTING] }
      hc hsize hroots
    have hst : MarkOnly s s1 := ⟨hm.pool, hm.count, hm.roots, hm.root_count, hm.frame⟩
    obtain ⟨s2, h2⟩ := sweep_total s1 (hs.of_markOnly hst) (ho.after_mark hst)
    have hrun : gcCollect s = .ok { s2 with log := s2.log ++ [.GC_DONE] } := by
      simp only [MarkSweep.gcCollect, h1, h2]
    exact ⟨_, hrun⟩
  · intro p s4 h
    unfold pushRootStore at h
    split at h
    · cases h
    · next hlt =>
      split at h
      · cases h
      · next r hw =>
        cases h
        exact ⟨by omega, rfl, (writeAt_ok hw).2⟩

set_option maxRecDepth 100000 in
/-- C27 at the state of the cycle scenario before its collection. -/
theorem mark_and_sweep_return_witness :
    ReachableState cycleState ∧
      (∀ a b, edge cycleState.heap a b → (deref cycleState.heap b).isSome = true) ∧
      (∀ r, IsRoot cycleState r → (deref cycleState.heap r).isSome = true) ∧
      (cycleState.object_count ≤ MAX_OBJECTS ∧ cycleState.root_count ≤ MAX_ROOTS ∧
        ∀ a o, deref cycleState.heap a = some o → o.ref_count ≤ MAX_REFS_PER_OBJECT) ∧
      (∃ s1 s2, markAllRoots cycleState = .ok s1 ∧ sweep s1 = .ok s2) ∧
      (∃ s3, gcCollect cycleState = .ok s3) ∧
      (∀ p s4, pushRootStore cycleState p = .ok s4 →
        cycleState.root_count < MAX_ROOTS ∧ MAX_ROOTS = 64 ∧
          s4.roots = cycleState.roots.set cycleState.root_count p) :=
  have hr : ReachableState cycleState :=
    ((((((((ReachableState.start.alloc (n := "root_holder") (v := "holder")
      (p := some 0) rfl).push (p := some 0) rfl).alloc (n := "x") (v := "obj_x")
      (p := some 1) rfl).alloc (n := "y") (v := "obj_y") (p := some 2) rfl).add
      (p := some 1) (q := some 2) rfl).add (p := some 2) (q := some 1) rfl).add
      (p := some 0) (q := some 1) rfl).add (p := some 0) (q := some 2) rfl)
  have hedges : ∀ a b, edge cycleState.heap a b → (deref cycleState.heap b).isSome = true :=
    fun _ _ he => (poolObject_iff.mp (edge_target_poolObject (by decide) he)).2
  have hroots : ∀ r, IsRoot cycleState r → (deref cycleState.heap r).isSome = true :=
    fun _ hroot => (poolObject_iff.mp (root_poolObject (by decide) hroot)).2
  ⟨hr, hedges, hroots, mark_and_sweep_return cycleState hr hedges hroots⟩

end MarkSweep

namespace RefCount

/-! ## The reference-counting simulator -/

theorem rc_deref_eq_some {h : Heap} {a : Nat} {o : object_t} :
    deref h a = some o ↔ h[a]? = some (some o) := by
  unfold deref
  split
  · next o1 heq => simp [heq]
  · next hne =>
    constructor
    · intro hx; cases hx
    · intro hx; exact absurd hx (hne o)

theorem rc_deref_lt {h : Heap} {a : Nat} {o : object_t} (hd : deref h a = some o) :
    a < h.length := by
  rw [rc_deref_eq_some] at hd
  by_contra hlt
  rw [List.getElem?_eq_none (by omega)] at hd
  cases hd

theorem rc_deref_set_self {h : Heap} {a : Nat} (hlt : a < h.length) (c : Option object_t) :
    deref (h.set a c) a = c := by
  unfold deref
  rw [List.getElem?_set_self hlt]
  cases c <;> rfl

theorem wrapInt_id {x : Int} (h1 : INT_MIN ≤ x) (h2 : x ≤ INT_MAX) : wrapInt x = x := by
  unfold wrapInt
  unfold INT_MIN at h1
  unfold INT_MAX at h2
  omega

theorem wrapInt_range (x : Int) : INT_MIN ≤ wrapInt x ∧ wrapInt x ≤ INT_MAX := by
  unfold wrapInt INT_MIN INT_MAX
  omega

theorem wrapInt_add (x y : Int) : wrapInt (wrapInt x + y) = wrapInt (x + y) := by
  unfold wrapInt
  omega

theorem retainObject_eq (s : State) (a : Nat) (o : object_t) (hd : deref s.heap a = some o) :
    retainObject s (some a) = .ok
      { s with heap := s.heap.set a (some { o with refcount := wrapInt (o.refcount + 1) })
               log := s.log ++ [.Retained a (wrapInt (o.refcount + 1))] } := by
  simp only [retainObject, hd]

theorem releaseObject_keeps (s : State) (a : Nat) (o : object_t)
    (hd : deref s.heap a = some o) (hpos : ¬ wrapInt (o.refcount - 1) ≤ 0) :
    releaseObject s (some a) = .ok
      { s with heap := s.heap.set a (some { o with refcount := wrapInt (o.refcount - 1) })
               log := s.log ++ [.Released a (wrapInt (o.refcount - 1))] } := by
  simp only [releaseObject, hd, hpos, if_false]

theorem releaseObject_frees (s : State) (a : Nat) (o : object_t)
    (hd : deref s.heap a = some o) (hzero : wrapInt (o.refcount - 1) ≤ 0) :
    releaseObject s (some a) = .ok
      { s with heap := s.heap.set a none
               log := s.log ++ [.Released a (wrapInt (o.refcount - 1)), .Freeing a] } := by
  simp only [releaseObject, hd, hzero, if_true]

/-- After `r` calls of `retainObject` the count is `refcount + r` reduced into the range of
`int`. -/
theorem retainN_spec (a : Nat) (r : Nat) (s : State) (o : object_t)
    (hd : deref s.heap a = some o) (hmin : INT_MIN ≤ o.refcount) (hmax : o.refcount ≤ INT_MAX) :
    ∃ sr, retainN r s (some a) = .ok sr ∧
      deref sr.heap a = some { o with refcount := wrapInt (o.refcount + r) } := by
  induction r generalizing s o with
  | zero =>
    refine ⟨s, rfl, ?_⟩
    rw [hd]
    simp only [Nat.cast_zero, Int.add_zero, wrapInt_id hmin hmax]
  | succ r ih =>
    obtain ⟨sr, he, hdr⟩ := ih
      { s with heap := s.heap.set a (some { o with refcount := wrapInt (o.refcount + 1) })
               log := s.log ++ [.Retained a (wrapInt (o.refcount + 1))] }
      { o with refcount := wrapInt (o.refcount + 1) }
      (rc_deref_set_self (rc_deref_lt hd) _)
      (wrapInt_range _).1 (wrapInt_range _).2
    refine ⟨sr, by simp only [retainN, retainObject_eq s a o hd]; exact he, ?_⟩
    rw [hdr]
    simp only [wrapInt_add, Nat.cast_add, Nat.cast_one, Option.some.injEq,
      object_t.mk.injEq, and_self, and_true]
    congr 1
    omega

theorem releaseN_keeps (a : Nat) (k : Nat) (s : State) (o : object_t)
    (hd : deref s.heap a = some o) (hmax : o.refcount ≤ INT_MAX) (hpos : 0 < o.refcount - k) :
    ∃ sk, releaseN k s (some a) = .ok sk ∧
      deref sk.heap a = some { o with refcount := o.refcount - k } := by
  induction k generalizing s o with
  | zero => exact ⟨s, rfl, by simpa using hd⟩
  | succ k ih =>
    have hw : wrapInt (o.refcount - 1) = o.refcount - 1 := by
      simp only [Nat.cast_add, Nat.cast_one] at hpos
      refine wrapInt_id ?_ ?_
      · unfold INT_MIN
        omega
      · omega
    have h1 : ¬ wrapInt (o.refcount - 1) ≤ 0 := by
      rw [hw]
      simp only [Nat.cast_add, Nat.cast_one] at hpos
      omega
    obtain ⟨sk, he, hdk⟩ := ih
      { s with heap := s.heap.set a (some { o with refcount := wrapInt (o.refcount - 1) })
               log := s.log ++ [.Released a (wrapInt (o.refcount - 1))] }
      { o with refcount := wrapInt (o.refcount - 1) }
      (rc_deref_set_self (rc_deref_lt hd) _)
      (by simp only [hw]; omega)
      (by simp only [hw, Nat.cast_add, Nat.cast_one] at hpos ⊢; omega)
    refine ⟨sk, by simp only [releaseN, releaseObject_keeps s a o hd h1]; exact he, ?_⟩
    rw [hdk]
    simp only [hw, Nat.cast_add, Nat.cast_one, Option.some.injEq, object_t.mk.injEq, and_self,
      and_true]
    omega

theorem releaseN_frees (a : Nat) (n : Nat) (s : State) (o : object_t)
    (hd : deref s.heap a = some o) (hmax : o.refcount ≤ INT_MAX) (hn : o.refcount = n + 1) :
    ∃ sf, releaseN (n + 1) s (some a) = .ok sf ∧ sf.heap[a]? = some none := by
  induction n generalizing s o with
  | zero =>
    have hzero : wrapInt (o.refcount - 1) ≤ 0 := by
      simp only [Nat.cast_zero] at hn
      rw [hn]
      decide
    exact ⟨{ s with heap := s.heap.set a none
                    log := s.log ++ [.Released a (wrapInt (o.refcount - 1)), .Freeing a] },
      by simp only [releaseN, releaseObject_frees s a o hd hzero],
      List.getElem?_set_self (rc_deref_lt hd)⟩
  | succ n ih =>
    have hw : wrapInt (o.refcount - 1) = o.refcount - 1 := by
      simp only [Nat.cast_add, Nat.cast_one] at hn
      refine wrapInt_id ?_ ?_
      · unfold INT_MIN
        omega
      · omega
    have h1 : ¬ wrapInt (o.refcount - 1) ≤ 0 := by
      rw [hw]
      simp only [Nat.cast_add, Nat.cast_one] at hn
      omega
    obtain ⟨sf, he, hf⟩ := ih
      { s with heap := s.heap.set a (some { o with refcount := wrapInt (o.refcount - 1) })
               log := s.log ++ [.Released a (wrapInt (o.refcount - 1))] }
      { o with refcount := wrapInt (o.refcount - 1) }
      (rc_deref_set_self (rc_deref_lt hd) _)
      (by simp only [hw]; omega)
      (by simp only [hw, Nat.cast_add, Nat.cast_one] at hn ⊢; omega)
    exact ⟨sf, by rw [releaseN, releaseObject_keeps s a o hd h1]; exact he, hf⟩

/-- C22, counterexample. The count is an `int`: the retain made at `INT_MAX` does not
increment it by one, and an object created with count 1 and retained 2147483648 times has the
count -2147483647 and is freed by its first release, not by release number 2147483649. -/
theorem refcount_overflow_frees_early :
    (∃ s1 o1, retainN 2147483646 createdState (some 0) = .ok s1 ∧
      deref s1.heap 0 = some o1 ∧ o1.refcount = INT_MAX ∧
      ∃ s2 o2, retainObject s1 (some 0) = .ok s2 ∧ deref s2.heap 0 = some o2 ∧
        o2.refcount = INT_MIN) ∧
    ∃ sr o sf, retainN 2147483648 createdState (some 0) = .ok sr ∧
      deref sr.heap 0 = some o ∧ o.refcount = -2147483647 ∧
      releaseObject sr (some 0) = .ok sf ∧ sf.heap[0]? = some none := by
  have hd0 : deref createdState.heap 0 = some { refcount := 1, name := "a", value := "5" } :=
    rfl
  constructor
  · obtain ⟨s1, he, hd1⟩ := retainN_spec 0 2147483646 createdState _ hd0
      (by decide) (by decide)
    refine ⟨s1, _, he, hd1, by decide, _, _, retainObject_eq s1 0 _ hd1,
      rc_deref_set_self (rc_deref_lt hd1) _, by decide⟩
  · obtain ⟨sr, he, hdr⟩ := retainN_spec 0 2147483648 createdState _ hd0
      (by decide) (by decide)
    refine ⟨sr, _, _, he, hdr, by decide,
      releaseObject_frees sr 0 _ hdr (by decide), List.getElem?_set_self (rc_deref_lt hdr)⟩

/-- C22, amended. Reference counting inside the range of `int`: on a live object
`retainObject` increments `refcount` by one unless it is `INT_MAX`; `releaseObject`
decrements it by one (unless it is `INT_MIN`) and frees the object exactly when the
resulting count is `<= 0`; `createObject` starts the count at 1; so an object with count 1
that is retained `r` times, `1 + r <= INT_MAX`, is still alive, with count `1 + r - k`,
after `k <= r` releases, and is freed by release number `r + 1`. -/
theorem refcount_frees_at_zero (s : State) (a : Nat) (o : object_t)
    (hd : deref s.heap a = some o) :
    (o.refcount < INT_MAX → INT_MIN ≤ o.refcount →
      ∃ s1, retainObject s (some a) = .ok s1 ∧
        deref s1.heap a = some { o with refcount := o.refcount + 1 }) ∧
    (INT_MIN < o.refcount → o.refcount ≤ INT_MAX → o.refcount - 1 ≤ 0 →
      ∃ s1, releaseObject s (some a) = .ok s1 ∧ s1.heap[a]? = some none) ∧
    (INT_MIN < o.refcount → o.refcount ≤ INT_MAX → ¬ o.refcount - 1 ≤ 0 →
      ∃ s1, releaseObject s (some a) = .ok s1 ∧
        deref s1.heap a = some { o with refcount := o.refcount - 1 }) ∧
    (∀ name value, s.object_count < MAX_OBJECTS → s.objectPool.length = MAX_OBJECTS →
      ∃ b s0, createObject s name value = .ok (some b, s0) ∧
        deref s0.heap b = some { refcount := 1, name := name, value := value }) ∧
    (o.refcount = 1 → ∀ r : Nat, 1 + (r : Int) ≤ INT_MAX →
      ∃ sr, retainN r s (some a) = .ok sr ∧
        deref sr.heap a = some { o with refcount := 1 + r } ∧
        (∀ k : Nat, k ≤ r → ∃ sk, releaseN k sr (some a) = .ok sk ∧
          deref sk.heap a = some { o with refcount := 1 + r - k }) ∧
        ∃ sf, releaseN (r + 1) sr (some a) = .ok sf ∧ sf.heap[a]? = some none) := by
  have hlt := rc_deref_lt hd
  refine ⟨fun h1 h2 => ?_, fun h1 h2 hz => ?_, fun h1 h2 hp => ?_, ?_, ?_⟩
  · have hw : wrapInt (o.refcount + 1) = o.refcount + 1 :=
      wrapInt_id (by omega) (by omega)
    refine ⟨_, retainObject_eq s a o hd, ?_⟩
    rw [rc_deref_set_self hlt, hw]
  · have hw : wrapInt (o.refcount - 1) = o.refcount - 1 :=
      wrapInt_id (by omega) (by omega)
    exact ⟨_, releaseObject_frees s a o hd (by rw [hw]; exact hz),
      List.getElem?_set_self hlt⟩
  · have hw : wrapInt (o.refcount - 1) = o.refcount - 1 :=
      wrapInt_id (by omega) (by omega)
    refine ⟨_, releaseObject_keeps s a o hd (by rw [hw]; exact hp), ?_⟩
    rw [rc_deref_set_self hlt, hw]
  · intro name value hcount hsize
    have hfull : ¬ s.object_count ≥ MAX_OBJECTS := by omega
    have hw : s.object_count < s.objectPool.length := by omega
    refine ⟨s.heap.length,
      { s with heap := s.heap ++ [some { refcount := 1, name := name, value := value }]
               objectPool := s.objectPool.set s.object_count (some s.heap.length)
               object_count := s.object_count + 1
               log := s.log ++ [.Created s.heap.length 1] }, by
      simp only [createObject, hfull, writeAt, hw, if_true, if_false], ?_⟩
    simp only [deref, List.getElem?_append_right (Nat.le_refl _), Nat.sub_self,
      List.getElem?_cons_zero]
  · intro h1 r hr
    have hmin : INT_MIN ≤ o.refcount := by
      rw [h1]
      decide
    have hmax : o.refcount ≤ INT_MAX := by
      rw [h1]
      decide
    obtain ⟨sr, her, hdr⟩ := retainN_spec a r s o hd hmin hmax
    have hw : wrapInt (o.refcount + r) = 1 + r := by
      rw [h1]
      refine wrapInt_id ?_ hr
      unfold INT_MIN
      omega
    have hdr1 : deref sr.heap a = some { o with refcount := 1 + r } := by
      rw [hdr, hw]
    refine ⟨sr, her, hdr1, fun k hk => ?_, ?_⟩
    · obtain ⟨sk, hek, hdk⟩ := releaseN_keeps a k sr _ hdr1 hr (by simp only; omega)
      exact ⟨sk, hek, hdk⟩
    · exact releaseN_frees a r sr _ hdr1 hr (by simp only; omega)

set_option maxRecDepth 100000 in
/-- C22, amended, at the object made by `createObject("a", "5")`, retained five times. -/
theorem refcount_frees_at_zero_witness :
    ∃ o, deref createdState.heap 0 = some o ∧ o.refcount = 1 ∧
      1 + ((5 : Nat) : Int) ≤ INT_MAX ∧
      (∃ s1, retainObject createdState (some 0) = .ok s1 ∧
        deref s1.heap 0 = some { o with refcount := o.refcount + 1 }) ∧
      (∃ s1, releaseObject createdState (some 0) = .ok s1 ∧ s1.heap[0]? = some none) ∧
      ∃ sr, retainN 5 createdState (some 0) = .ok sr ∧
        deref sr.heap 0 = some { o with refcount := 1 + (5 : Nat) } ∧
        (∀ k : Nat, k ≤ 5 → ∃ sk, releaseN k sr (some 0) = .ok sk ∧
          deref sk.heap 0 = some { o with refcount := 1 + (5 : Nat) - k }) ∧
        ∃ sf, releaseN (5 + 1) sr (some 0) = .ok sf ∧ sf.heap[0]? = some none :=
  ⟨_, rfl, by decide, by decide,
    (refcount_frees_at_zero createdState 0 _ rfl).1 (by decide) (by decide),
    (refcount_frees_at_zero createdState 0 _ rfl).2.1 (by decide) (by decide) (by decide),
    (refcount_frees_at_zero createdState 0 _ rfl).2.2.2.2 (by decide) 5 (by decide)⟩

set_option maxRecDepth 100000 in
/-- C30, the code at the failing input: after `simulateProgram` the second object (address 1)
has been freed by `releaseObject` but `objectPool[1]` still points to it; `cleanup` frees the
first object and then, finding `objectPool[1]` not `NULL`, reads the name of the freed object
in order to log and free it a second time. -/
theorem cleanup_touches_released_object :
    ∃ s s1, simulateProgram emptyState = .ok s ∧ s.object_count = 2 ∧
      s.heap[1]? = some none ∧ s.objectPool[1]? = some (some 1) ∧
      s.log.count (.Freeing 1) = 1 ∧
      cleanupStep s 0 = .ok s1 ∧ cleanupStep s1 1 = .error .badPointer ∧
      cleanup s = .error .badPointer :=
  ⟨_, _, rfl, by decide, by decide, by decide, by decide, rfl, rfl, rfl⟩

end RefCount
